import Mathlib

/-
Verification of the SortingNetworks beam-search engine.

This file gives a shallow embedding, in Lean 4, of the core data structures and
algorithms of the SortingNetworks repository:

  * the lookup tables over binary input patterns (src/src/lookup.h),
  * the knowledge-state machine with its intrusive linked list of unsorted
    patterns (src/src/state.h),
  * the canonical-normalization pipeline (src/src/normalization.h),
  * the greedy depth minimizer and depth computation (src/src/state.h),
  * the successive-halving sample schedule of the beam search (src/src/search.h).

C++ fixed-size arrays indexed by wire or by pattern value are modelled as total
functions out of Nat; machine integers are modelled as Nat/Int with explicit
mod-2^64 reductions where 64-bit overflow is semantically relevant (the FNV
hash); `std::vector` out-of-bounds accesses (undefined behaviour) are modelled
by Option-returning accessors.  Loops that chase pointers of the intrusive
list are modelled with an explicit fuel parameter; the fuel chosen in the
wrappers is provably sufficient on every state satisfying the list invariant.
-/

set_option linter.unusedVariables false

/-- Comparator on a pair of wires.  Modelled from the spec: the repository's
`types.h` is not included under `src/`; the spec (§3 "Comparator (Operation)")
defines an operation as an ordered pair (i, j) of wire indices, stored as two
bytes `op1`, `op2`. -/
structure Operation where
  op1 : Nat
  op2 : Nat
deriving DecidableEq, Repr

/-- LookupTables::check_sorted (src/src/lookup.h:102-109): scan bit positions
i = 0 .. n-2 and report false as soon as bit i is 0 while bit i+1 is 1. -/
def check_sorted (v n : Nat) : Bool :=
  (List.range (n - 1)).all fun i => !(!v.testBit i && v.testBit (i + 1))

/-- LookupTables::is_sorted (src/src/lookup.h:27-29,60): the precomputed table
entry for pattern `p` is `check_sorted p n`. -/
def is_sorted (n p : Nat) : Bool :=
  check_sorted p n

/-- LookupTables::initialize, allowed-ops loop (src/src/lookup.h:34-43): for a
pattern `p`, the list of comparators (n1, n2) with n1 < n2 < n, bit n1 of p
clear and bit n2 of p set, produced in the double-loop order (n1 ascending,
then n2 ascending).  The C++ outer loop stops at n - 1; extending it to n adds
nothing because the inner loop is then empty. -/
def allowed_ops (n p : Nat) : List Operation :=
  (List.range n).flatMap fun n1 =>
    (List.range n).flatMap fun n2 =>
      if n1 + 1 ≤ n2 ∧ ¬p.testBit n1 ∧ p.testBit n2 then [⟨n1, n2⟩] else []

/-- The compare-exchange transformation of a single binary pattern, as inlined
in State::update_state (src/src/state.h:134-140): when bit op1 is 0 and bit
op2 is 1, set bit op1 (`|= 1 << op1`) and clear bit op2 (`&= ~(1 << op2)`).
Under the branch guard, setting the known-clear bit op1 is addition of 2^op1
and clearing the known-set bit op2 is subtraction of 2^op2; this arithmetic
form is used because the kernel can evaluate it (Nat.lor / Nat.ldiff are
defined by well-founded recursion and do not reduce); the lemma
`comp_exchange_eq_bitwise` below proves it equal to the literal `|` / `& ~`
form of the C++. -/
def comp_exchange (op1 op2 p : Nat) : Nat :=
  if !p.testBit op1 && p.testBit op2 then p + 2 ^ op1 - 2 ^ op2
  else p

/-- Applying a whole comparator sequence to a binary pattern. -/
def apply_net (ops : List Operation) (p : Nat) : Nat :=
  ops.foldl (fun q op => comp_exchange op.op1 op.op2 q) p

/-- A comparator acting on an integer-valued wire vector: the larger value
goes to wire op1, the smaller to wire op2 (this is the orientation realised by
the bit-level code: a 1 on the high wire moves down to the low wire). -/
def comp_vec (i j : Nat) (w : Nat → Int) : Nat → Int :=
  fun k => if k = i then max (w i) (w j) else if k = j then min (w i) (w j) else w k

/-- Applying a whole comparator sequence to an integer-valued wire vector. -/
def apply_net_vec (ops : List Operation) (w : Nat → Int) : Nat → Int :=
  ops.foldl (fun v op => comp_vec op.op1 op.op2 v) w

/-- Sortedness of an integer wire vector on the first n wires, in the
orientation produced by the engine: values are non-increasing in the wire
index. -/
def sorted_vec (n : Nat) (w : Nat → Int) : Prop :=
  ∀ i j, i < j → j < n → w j ≤ w i

/-- The 0/1 wire vector associated with a binary pattern. -/
def pat_to_vec (p : Nat) : Nat → Int :=
  fun k => if p.testBit k then 1 else 0

-- Basic sanity examples (evaluated by the kernel).
example : check_sorted 3 4 = true := by decide
example : check_sorted 4 3 = false := by decide
example : comp_exchange 0 1 2 = 1 := by decide
example : allowed_ops 3 2 = [⟨0, 1⟩] := by decide
example : allowed_ops 3 4 = [⟨0, 2⟩, ⟨1, 2⟩] := by decide
example : apply_net [⟨0, 1⟩] 2 = 1 := by decide


lemma lor_two_pow_eq_add {i p : ℕ} (h : p.testBit i = false) : p ||| 2 ^ i = p + 2 ^ i := by
  induction i generalizing p with
  | zero =>
    simp only [Nat.testBit_zero, decide_eq_false_iff_not] at h
    have h0 : p % 2 = 0 := by omega
    apply Nat.eq_of_testBit_eq
    intro k
    cases k with
    | zero =>
      simp [Nat.testBit_lor, Nat.testBit_zero, h0]
      omega
    | succ k =>
      simp [Nat.testBit_succ, Nat.or_div_two]
      have : (p + 1) / 2 = p / 2 := by omega
      simp [this]
  | succ i ih =>
    rw [Nat.testBit_succ] at h
    apply Nat.eq_of_testBit_eq
    intro k
    have hpow : (2 : ℕ) ^ (i + 1) = 2 * 2 ^ i := by ring
    cases k with
    | zero =>
      have he : (2 : ℕ) ^ (i + 1) % 2 = 0 := by simp [hpow, Nat.mul_mod_right]
      have hm : (p + 2 ^ (i + 1)) % 2 = p % 2 := by omega
      simp [Nat.testBit_lor, Nat.testBit_zero, Nat.testBit_two_pow, hm]
    | succ k =>
      rw [Nat.testBit_succ, Nat.testBit_succ, Nat.or_div_two]
      have h1 : (2 : ℕ) ^ (i + 1) / 2 = 2 ^ i := by omega
      have h2 : (p + 2 ^ (i + 1)) / 2 = p / 2 + 2 ^ i := by omega
      rw [h1, h2, ih h]

lemma sub_two_pow_testBit {j q : ℕ} (h : q.testBit j = true) :
    ∀ k, (q - 2 ^ j).testBit k = if k = j then false else q.testBit k := by
  induction j generalizing q with
  | zero =>
    have h0 : q % 2 = 1 := by simpa [Nat.testBit_zero] using h
    intro k
    cases k with
    | zero => simp [Nat.testBit_zero]; omega
    | succ k =>
      have : (q - 1) / 2 = q / 2 := by omega
      simp [Nat.testBit_succ, this]
  | succ j ih =>
    have hge : q ≥ 2 ^ (j + 1) := Nat.testBit_implies_ge h
    rw [Nat.testBit_succ] at h
    have hpow : (2 : ℕ) ^ (j + 1) = 2 * 2 ^ j := by ring
    intro k
    cases k with
    | zero =>
      have : (q - 2 ^ (j + 1)) % 2 = q % 2 := by omega
      simp [Nat.testBit_zero, this]
    | succ k =>
      have hdiv : (q - 2 ^ (j + 1)) / 2 = q / 2 - 2 ^ j := by omega
      rw [Nat.testBit_succ, hdiv, ih h k, Nat.testBit_succ]
      by_cases hk : k = j <;> simp [hk]

/-- Bit-level description of the affected case of the compare-exchange. -/
lemma testBit_comp_exchange {op1 op2 p : Nat} (hne : op1 ≠ op2)
    (h1 : p.testBit op1 = false) (h2 : p.testBit op2 = true) (k : Nat) :
    (comp_exchange op1 op2 p).testBit k =
      if k = op2 then false else if k = op1 then true else p.testBit k := by
  have hq2 : (p + 2 ^ op1).testBit op2 = true := by
    rw [← lor_two_pow_eq_add h1, Nat.testBit_lor, Nat.testBit_two_pow]
    simp [h2]
  rw [comp_exchange, if_pos (by simp [h1, h2])]
  rw [sub_two_pow_testBit hq2 k]
  by_cases hk2 : k = op2
  · simp [hk2]
  · rw [if_neg hk2, if_neg hk2, ← lor_two_pow_eq_add h1, Nat.testBit_lor,
      Nat.testBit_two_pow]
    by_cases hk1 : k = op1
    · simp [hk1]
    · have : op1 ≠ k := fun h => hk1 h.symm
      simp [hk1, this]

/-- The arithmetic form of `comp_exchange` agrees with the literal
`(p | (1 << op1)) & ~(1 << op2)` of the C++ source (`~` over the pattern
storage type, modelled as Nat.ldiff). -/
lemma comp_exchange_eq_bitwise (op1 op2 p : Nat) :
    comp_exchange op1 op2 p =
      if !p.testBit op1 && p.testBit op2 then
        Nat.ldiff (p ||| (1 <<< op1)) (1 <<< op2)
      else p := by
  by_cases hg : !p.testBit op1 && p.testBit op2
  · have h1 : p.testBit op1 = false := by
      rcases Bool.and_eq_true_iff.mp hg with ⟨ha, _⟩
      simpa using ha
    have h2 : p.testBit op2 = true := (Bool.and_eq_true_iff.mp hg).2
    have hne : op1 ≠ op2 := fun h => by rw [h] at h1; rw [h1] at h2; cases h2
    rw [if_pos hg]
    apply Nat.eq_of_testBit_eq
    intro k
    rw [testBit_comp_exchange hne h1 h2 k]
    simp only [Nat.testBit_ldiff, Nat.testBit_lor, Nat.shiftLeft_eq, one_mul,
      Nat.testBit_two_pow]
    by_cases hk2 : k = op2
    · simp [hk2]
    · have hk2s : op2 ≠ k := fun h => hk2 h.symm
      by_cases hk1 : k = op1
      · simp [hk1, hk2, hk2s, eq_comm]
      · have hk1s : op1 ≠ k := fun h => hk1 h.symm
        simp [hk1, hk2, hk1s, hk2s]
  · rw [comp_exchange, if_neg hg, if_neg hg]

/-- comp_exchange never moves a pattern out of the n-bit range. -/
lemma comp_exchange_lt_two_pow {op1 op2 p n : Nat} (hp : p < 2 ^ n)
    (h1 : op1 < n) : comp_exchange op1 op2 p < 2 ^ n := by
  rw [comp_exchange]
  split
  · rename_i hg
    have hb1 : p.testBit op1 = false := by
      rcases Bool.and_eq_true_iff.mp hg with ⟨ha, _⟩
      simpa using ha
    have hadd : p ||| 2 ^ op1 = p + 2 ^ op1 := lor_two_pow_eq_add hb1
    have hlt : p ||| 2 ^ op1 < 2 ^ n := by
      apply Nat.lt_pow_two_of_testBit
      intro i hi
      rw [Nat.testBit_lor, Nat.testBit_two_pow]
      have hpb : p.testBit i = false := Nat.testBit_eq_false_of_lt
        (lt_of_lt_of_le hp (Nat.pow_le_pow_right (by omega) hi))
      have hne : op1 ≠ i := by omega
      simp [hpb, hne]
    exact lt_of_le_of_lt (Nat.sub_le _ _) (hadd ▸ hlt)
  · exact hp

lemma mem_allowed_ops {n p i j : Nat} :
    (⟨i, j⟩ : Operation) ∈ allowed_ops n p ↔
      i < j ∧ j < n ∧ p.testBit i = false ∧ p.testBit j = true := by
  simp only [allowed_ops, List.mem_flatMap, List.mem_range]
  constructor
  · rintro ⟨n1, hn1, n2, hn2, hif⟩
    split at hif
    · rename_i h
      simp only [List.mem_singleton, Operation.mk.injEq] at hif
      obtain ⟨rfl, rfl⟩ := hif
      exact ⟨by omega, hn2, by simpa using h.2.1, by simpa using h.2.2⟩
    · simp at hif
  · rintro ⟨hij, hj, hbi, hbj⟩
    exact ⟨i, by omega, j, hj, by simp [hbi, hbj, Nat.succ_le_of_lt hij]⟩

lemma check_sorted_iff_step {v n : Nat} :
    check_sorted v n = true ↔
      ∀ i, i < n - 1 → v.testBit i = false → v.testBit (i + 1) = false := by
  simp only [check_sorted, List.all_eq_true, List.mem_range]
  constructor
  · intro h i hi hbi
    have := h i hi
    simp [hbi] at this
    simpa using this
  · intro h i hi
    by_cases hbi : v.testBit i
    · simp [hbi]
    · simp only [Bool.not_eq_true] at hbi
      simp [hbi, h i hi hbi]

lemma check_sorted_false_propagate {p n : Nat} (h : check_sorted p n = true) :
    ∀ d i, i + d ≤ n - 1 → p.testBit i = false → p.testBit (i + d) = false := by
  intro d
  induction d with
  | zero => intro i _ hb; simpa using hb
  | succ d ih =>
    intro i hle hb
    have hd : i + d < n - 1 := by omega
    have : p.testBit (i + d) = false := ih i (by omega) hb
    have h2 := check_sorted_iff_step.mp h (i + d) hd this
    rw [show i + (d + 1) = i + d + 1 by omega]
    exact h2

lemma check_sorted_mono {p n i j : Nat} (h : check_sorted p n = true)
    (hij : i ≤ j) (hj : j < n) (hb : p.testBit j = true) : p.testBit i = true := by
  by_contra hbi
  simp only [Bool.not_eq_true] at hbi
  have := check_sorted_false_propagate h (j - i) i (by omega) hbi
  rw [show i + (j - i) = j by omega] at this
  rw [this] at hb
  cases hb

/-- Characterization of sorted patterns: exactly those of the form 1^a 0^(n-a)
(a ones at the least-significant end), i.e. p = 2^a - 1. -/
lemma check_sorted_iff_pow {p n : Nat} (hp : p < 2 ^ n) :
    check_sorted p n = true ↔ ∃ a, a ≤ n ∧ p = 2 ^ a - 1 := by
  constructor
  · intro h
    by_cases hall : ∀ i, i < n → p.testBit i = true
    · refine ⟨n, le_refl n, ?_⟩
      apply Nat.eq_of_testBit_eq
      intro k
      rw [Nat.testBit_two_pow_sub_one]
      by_cases hk : k < n
      · simp [hall k hk, hk]
      · have : p.testBit k = false := Nat.testBit_eq_false_of_lt
          (lt_of_lt_of_le hp (Nat.pow_le_pow_right (by omega) (by omega)))
        simp [this, hk]
    · push_neg at hall
      obtain ⟨i0, hi0n, hi0⟩ := hall
      have hex : ∃ a, a < n ∧ p.testBit a = false := ⟨i0, hi0n, by simpa using hi0⟩
      classical
      obtain ⟨a, ⟨han, hab⟩, hmin⟩ := Nat.findX (H := hex)
      refine ⟨a, by omega, ?_⟩
      apply Nat.eq_of_testBit_eq
      intro k
      rw [Nat.testBit_two_pow_sub_one]
      by_cases hk : k < a
      · have : p.testBit k = true := by
          by_contra hc
          simp only [Bool.not_eq_true] at hc
          exact hmin k hk ⟨by omega, hc⟩
        simp [this, hk]
      · have hfalse : p.testBit k = false := by
          by_cases hkn : k < n
          · have := check_sorted_false_propagate h (k - a) a (by omega) hab
            rwa [show a + (k - a) = k by omega] at this
          · exact Nat.testBit_eq_false_of_lt
              (lt_of_lt_of_le hp (Nat.pow_le_pow_right (by omega) (by omega)))
        simp [hfalse, hk]
  · rintro ⟨a, han, rfl⟩
    rw [check_sorted_iff_step]
    intro i hi hb
    rw [Nat.testBit_two_pow_sub_one] at hb ⊢
    simp only [decide_eq_false_iff_not] at hb ⊢
    omega

/-- A sorted pattern is untouched by any comparator with op1 < op2. -/
lemma comp_exchange_sorted_fixed {p n op1 op2 : Nat} (hp : p < 2 ^ n)
    (hs : check_sorted p n = true) (hlt : op1 < op2) :
    comp_exchange op1 op2 p = p := by
  rw [comp_exchange]
  split
  · rename_i hg
    have h1 : p.testBit op1 = false := by
      rcases Bool.and_eq_true_iff.mp hg with ⟨ha, _⟩
      simpa using ha
    have h2 : p.testBit op2 = true := (Bool.and_eq_true_iff.mp hg).2
    by_cases h2n : op2 < n
    · have := check_sorted_mono hs (le_of_lt hlt) h2n h2
      rw [this] at h1
      cases h1
    · have : p.testBit op2 = false := Nat.testBit_eq_false_of_lt
        (lt_of_lt_of_le hp (Nat.pow_le_pow_right (by omega) (by omega)))
      rw [this] at h2
      cases h2
  · rfl

/-- The image of an affected pattern is not itself affected by the same
comparator (its bit op1 is set). -/
lemma comp_exchange_idem {op1 op2 p : Nat} (hne : op1 ≠ op2) :
    comp_exchange op1 op2 (comp_exchange op1 op2 p) = comp_exchange op1 op2 p := by
  by_cases hg : (!p.testBit op1 && p.testBit op2) = true
  · have h1 : p.testBit op1 = false := by
      rcases Bool.and_eq_true_iff.mp hg with ⟨ha, _⟩
      simpa using ha
    have h2 : p.testBit op2 = true := (Bool.and_eq_true_iff.mp hg).2
    have hb : (comp_exchange op1 op2 p).testBit op1 = true := by
      rw [testBit_comp_exchange hne h1 h2]
      simp [hne]
    conv_lhs => rw [comp_exchange]
    rw [if_neg (by simp [hb])]
  · conv_lhs => rw [comp_exchange]
    rw [comp_exchange, if_neg hg, if_neg hg]

/-- An unsorted pattern admits at least one allowed comparator (an adjacent
01 pair). -/
lemma allowed_ops_ne_nil_of_not_sorted {p n : Nat} (h : check_sorted p n = false) :
    allowed_ops n p ≠ [] := by
  have : ¬(∀ i, i < n - 1 → p.testBit i = false → p.testBit (i + 1) = false) := by
    intro hc
    rw [check_sorted_iff_step.mpr hc] at h
    cases h
  push_neg at this
  obtain ⟨i, hi, hbi, hbi1⟩ := this
  have hmem : (⟨i, i + 1⟩ : Operation) ∈ allowed_ops n p := by
    rw [mem_allowed_ops]
    exact ⟨by omega, by omega, hbi, by simpa using hbi1⟩
  intro hnil
  rw [hnil] at hmem
  cases hmem

/-! The 0/1 principle: the engine's bit-pattern semantics versus arbitrary
integer wire vectors. -/

lemma pat_to_vec_comp (i j p : Nat) :
    pat_to_vec (comp_exchange i j p) = comp_vec i j (pat_to_vec p) := by
  funext k
  by_cases hg : (!p.testBit i && p.testBit j) = true
  · have h1 : p.testBit i = false := by
      rcases Bool.and_eq_true_iff.mp hg with ⟨ha, _⟩
      simpa using ha
    have h2 : p.testBit j = true := (Bool.and_eq_true_iff.mp hg).2
    have hne : i ≠ j := fun h => by rw [h] at h1; rw [h1] at h2; cases h2
    rw [pat_to_vec, testBit_comp_exchange hne h1 h2 k, comp_vec]
    by_cases hki : k = i
    · subst hki
      have : ¬k = j := fun h => hne h
      simp [pat_to_vec, h1, h2, this]
    · by_cases hkj : k = j
      · subst hkj
        simp [pat_to_vec, h1, h2, hki]
      · simp [pat_to_vec, hki, hkj]
  · rw [comp_exchange, if_neg hg, comp_vec]
    have hor : p.testBit i = true ∨ p.testBit j = false := by
      by_cases hbi : p.testBit i = true
      · exact Or.inl hbi
      · right
        by_contra hbj
        simp only [Bool.not_eq_true] at hbi
        simp only [Bool.not_eq_false] at hbj
        exact hg (by simp [hbi, hbj])
    by_cases hki : k = i
    · subst hki
      rcases hor with hb | hb
      · simp only [pat_to_vec, hb, if_true, if_pos rfl]
        rcases Bool.dichotomy (p.testBit j) with hj | hj <;> simp [hj]
      · simp only [pat_to_vec, hb, if_pos rfl]
        rcases Bool.dichotomy (p.testBit k) with hk | hk <;> simp [hk]
    · by_cases hkj : k = j
      · subst hkj
        rw [if_neg hki, if_pos rfl]
        rcases hor with hb | hb
        · simp only [pat_to_vec, hb, if_true]
          rcases Bool.dichotomy (p.testBit k) with hk | hk <;> simp [hk]
        · simp [pat_to_vec, hb]
          rcases Bool.dichotomy (p.testBit i) with hk | hk <;> simp [hk]
      · simp [pat_to_vec, hki, hkj]

lemma pat_to_vec_apply_net (ops : List Operation) (p : Nat) :
    pat_to_vec (apply_net ops p) = apply_net_vec ops (pat_to_vec p) := by
  induction ops generalizing p with
  | nil => rfl
  | cons op ops ih =>
    show pat_to_vec (apply_net ops (comp_exchange op.op1 op.op2 p)) = _
    rw [ih, pat_to_vec_comp]
    rfl

lemma comp_vec_monotone_comm {f : Int → Int} (hf : Monotone f) (i j : Nat)
    (w : Nat → Int) :
    comp_vec i j (fun k => f (w k)) = fun k => f (comp_vec i j w k) := by
  funext k
  rw [comp_vec, comp_vec]
  by_cases hki : k = i
  · simp [hki, (Monotone.map_max hf).symm]
  · by_cases hkj : k = j
    · subst hkj
      simp [hki, Monotone.map_min hf]
    · simp [hki, hkj]

lemma apply_net_vec_monotone_comm {f : Int → Int} (hf : Monotone f)
    (ops : List Operation) (w : Nat → Int) :
    apply_net_vec ops (fun k => f (w k)) = fun k => f (apply_net_vec ops w k) := by
  induction ops generalizing w with
  | nil => rfl
  | cons op ops ih =>
    show apply_net_vec ops (comp_vec op.op1 op.op2 fun k => f (w k)) = _
    rw [comp_vec_monotone_comm hf, ih]
    rfl

lemma comp_vec_congr_lt {n : Nat} {w1 w2 : Nat → Int} {i j : Nat}
    (hw : ∀ k, k < n → w1 k = w2 k) (hi : i < n) (hj : j < n) :
    ∀ k, k < n → comp_vec i j w1 k = comp_vec i j w2 k := by
  intro k hk
  rw [comp_vec, comp_vec, hw i hi, hw j hj]
  by_cases hki : k = i
  · simp [hki]
  · by_cases hkj : k = j
    · simp [hki, hkj]
    · simp [hki, hkj, hw k hk]

lemma apply_net_vec_congr_lt {n : Nat} {ops : List Operation}
    (hops : ∀ op ∈ ops, op.op1 < op.op2 ∧ op.op2 < n) {w1 w2 : Nat → Int}
    (hw : ∀ k, k < n → w1 k = w2 k) :
    ∀ k, k < n → apply_net_vec ops w1 k = apply_net_vec ops w2 k := by
  induction ops generalizing w1 w2 with
  | nil => exact hw
  | cons op ops ih =>
    have hop := hops op (List.mem_cons_self op ops)
    exact ih (fun o ho => hops o (List.mem_cons_of_mem op ho))
      (comp_vec_congr_lt hw (by omega) (by omega))

lemma sorted_vec_pat_iff {n p : Nat} :
    sorted_vec n (pat_to_vec p) ↔ check_sorted p n = true := by
  constructor
  · intro h
    rw [check_sorted_iff_step]
    intro i hi hb
    have := h i (i + 1) (by omega) (by omega)
    rw [pat_to_vec, pat_to_vec, hb] at this
    by_contra hc
    simp only [Bool.not_eq_false] at hc
    rw [hc] at this
    simp at this
  · intro h i j hij hj
    rw [pat_to_vec, pat_to_vec]
    rcases Bool.dichotomy (p.testBit j) with hb | hb
    · rcases Bool.dichotomy (p.testBit i) with hbi | hbi <;> simp [hb, hbi]
    · rw [hb, check_sorted_mono h (le_of_lt hij) hj hb]

/-- Binary little-endian digits packed into a pattern, used to turn a
thresholded wire vector into a pattern value. -/
def bits_to_pat : (Nat → Bool) → Nat → Nat
  | _, 0 => 0
  | w, n + 1 => bits_to_pat (fun k => w (k + 1)) n * 2 + (if w 0 then 1 else 0)

lemma bits_to_pat_testBit (w : Nat → Bool) (n : Nat) :
    ∀ k, (bits_to_pat w n).testBit k = (decide (k < n) && w k) := by
  induction n generalizing w with
  | zero => intro k; simp [bits_to_pat, Nat.testBit_zero]
  | succ n ih =>
    intro k
    cases k with
    | zero =>
      rw [bits_to_pat, Nat.testBit_zero]
      rcases Bool.dichotomy (w 0) with hb | hb
      · have h0 : (if w 0 then 1 else 0) = 0 := by simp [hb]
        rw [h0, Nat.add_zero]
        have hm : bits_to_pat (fun k => w (k + 1)) n * 2 % 2 = 0 :=
          Nat.mul_mod_left _ _
        simp [hm, hb]
      · have h1 : (if w 0 then 1 else 0) = 1 := by simp [hb]
        rw [h1]
        have hm : (bits_to_pat (fun k => w (k + 1)) n * 2 + 1) % 2 = 1 := by
          omega
        simp [hm, hb]
    | succ k =>
      rw [bits_to_pat, Nat.testBit_succ]
      have hb01 : (if w 0 then 1 else 0) = 0 ∨ (if w 0 then 1 else 0) = 1 := by
        split
        · right; rfl
        · left; rfl
      have hdiv : (bits_to_pat (fun k => w (k + 1)) n * 2 +
          (if w 0 then 1 else 0)) / 2 = bits_to_pat (fun k => w (k + 1)) n := by
        omega
      rw [hdiv, ih]
      simp [Nat.succ_lt_succ_iff]

lemma bits_to_pat_lt (w : Nat → Bool) (n : Nat) : bits_to_pat w n < 2 ^ n := by
  induction n generalizing w with
  | zero => simp [bits_to_pat]
  | succ n ih =>
    rw [bits_to_pat]
    have := ih (fun k => w (k + 1))
    have h2 : (2 : ℕ) ^ (n + 1) = 2 ^ n * 2 := by ring
    split <;> omega

/-- The threshold function used in the 0/1-principle argument. -/
lemma threshold_monotone (c : Int) :
    Monotone (fun x : Int => if c ≤ x then (1 : Int) else 0) := by
  intro x y hxy
  by_cases hx : c ≤ x
  · simp [hx, le_trans hx hxy]
  · by_cases hy : c ≤ y <;> simp [hx, hy]

/-- The 0/1 principle for this engine: a comparator sequence sends every n-bit
binary pattern to a sorted pattern iff it sorts every integer wire vector. -/
theorem zero_one_principle {n : Nat} {ops : List Operation}
    (hops : ∀ op ∈ ops, op.op1 < op.op2 ∧ op.op2 < n) :
    (∀ p, p < 2 ^ n → check_sorted (apply_net ops p) n = true) ↔
      (∀ w : Nat → Int, sorted_vec n (apply_net_vec ops w)) := by
  constructor
  · intro h w
    by_contra hc
    rw [sorted_vec] at hc
    push_neg at hc
    obtain ⟨a, b, hab, hbn, hout⟩ := hc
    set out := apply_net_vec ops w with hout_def
    set c := out b with hc_def
    set f : Int → Int := fun x => if c ≤ x then (1 : Int) else 0 with hf_def
    have hfmono : Monotone f := threshold_monotone c
    set p := bits_to_pat (fun k => decide (c ≤ w k)) n with hp_def
    have hplt : p < 2 ^ n := bits_to_pat_lt _ n
    have hagree : ∀ k, k < n → pat_to_vec p k = f (w k) := by
      intro k hk
      rw [pat_to_vec, hp_def, bits_to_pat_testBit]
      have hd : decide (k < n) = true := by simp [hk]
      rw [hd, Bool.true_and, hf_def]
      by_cases hck : c ≤ w k <;> simp [hck]
    have hchain : ∀ k, k < n →
        pat_to_vec (apply_net ops p) k = f (out k) := by
      intro k hk
      rw [pat_to_vec_apply_net]
      rw [apply_net_vec_congr_lt hops hagree k hk]
      rw [show (fun k => f (w k)) = fun k => f (w k) from rfl]
      rw [apply_net_vec_monotone_comm hfmono ops w]
    have hsorted := (sorted_vec_pat_iff (n := n) (p := apply_net ops p)).mpr
      (h p hplt)
    have hba := hsorted a b hab hbn
    rw [hchain a (by omega), hchain b hbn] at hba
    have hfa : f (out a) = 0 := by
      rw [hf_def]
      simp only [hc_def]
      rw [if_neg (by omega)]
    have hfb : f (out b) = 1 := by
      rw [hf_def]
      simp only [hc_def]
      rw [if_pos (le_refl _)]
    rw [hfa, hfb] at hba
    omega
  · intro h p hp
    rw [← sorted_vec_pat_iff, pat_to_vec_apply_net]
    exact h (pat_to_vec p)

/-! The knowledge-state machine (src/src/state.h): an intrusive linked list of
currently-unsorted patterns stored in a flat array indexed by pattern value. -/

/-- State::ListElement (src/src/state.h:23-27).  The C++ `next` field is an
int with -1 as end-of-list; it is modelled as `Option Nat` with `none` for -1.
A default-constructed element (vector value-initialization) never has its
`next`/`bit_pattern` read before assignment, so the defaults below are
immaterial. -/
structure ListElement where
  in_list : Bool
  bit_pattern : Nat
  next : Option Nat
deriving DecidableEq, Repr

instance : Inhabited ListElement := ⟨⟨false, 0, none⟩⟩

/-- The State of the search (src/src/state.h:16-37): the backing vector of
list elements (modelled as a total function from pattern value), the head of
the unsorted list, the unsorted count (a C++ int, hence Int), the operations
recorded so far and the current level.  The operations buffer is modelled as
the list of the `current_level` operations written so far; the fixed capacity
of the C++ vector is treated separately (see the capacity section below). -/
structure SNState where
  used_list : Nat → ListElement
  first_used : Option Nat
  num_unsorted : Int
  operations : List Operation
  current_level : Nat

/-- Pointwise update of the backing array at one index. -/
def upd (f : Nat → ListElement) (i : Nat) (g : ListElement → ListElement) :
    Nat → ListElement :=
  fun x => if x = i then g (f x) else f x

/-- Write of the in_list field of one element (e.g. `used_list[v].in_list = 0`). -/
def setFlag (f : Nat → ListElement) (i : Nat) (b : Bool) : Nat → ListElement :=
  upd f i fun nd => { nd with in_list := b }

/-- Write of the bit_pattern field of one element. -/
def setPat (f : Nat → ListElement) (i p : Nat) : Nat → ListElement :=
  upd f i fun nd => { nd with bit_pattern := p }

/-- Write of the next field of one element. -/
def setNext (f : Nat → ListElement) (i : Nat) (o : Option Nat) : Nat → ListElement :=
  upd f i fun nd => { nd with next := o }

lemma setFlag_in_list (f : Nat → ListElement) (i : Nat) (b : Bool) (x : Nat) :
    ((setFlag f i b) x).in_list = if x = i then b else (f x).in_list := by
  by_cases h : x = i <;> simp [setFlag, upd, h]

lemma setFlag_bit_pattern (f : Nat → ListElement) (i : Nat) (b : Bool) (x : Nat) :
    ((setFlag f i b) x).bit_pattern = (f x).bit_pattern := by
  by_cases h : x = i <;> simp [setFlag, upd, h]

lemma setFlag_next (f : Nat → ListElement) (i : Nat) (b : Bool) (x : Nat) :
    ((setFlag f i b) x).next = (f x).next := by
  by_cases h : x = i <;> simp [setFlag, upd, h]

lemma setPat_in_list (f : Nat → ListElement) (i p : Nat) (x : Nat) :
    ((setPat f i p) x).in_list = (f x).in_list := by
  by_cases h : x = i <;> simp [setPat, upd, h]

lemma setPat_bit_pattern (f : Nat → ListElement) (i p : Nat) (x : Nat) :
    ((setPat f i p) x).bit_pattern = if x = i then p else (f x).bit_pattern := by
  by_cases h : x = i <;> simp [setPat, upd, h]

lemma setPat_next (f : Nat → ListElement) (i p : Nat) (x : Nat) :
    ((setPat f i p) x).next = (f x).next := by
  by_cases h : x = i <;> simp [setPat, upd, h]

lemma setNext_in_list (f : Nat → ListElement) (i : Nat) (o : Option Nat) (x : Nat) :
    ((setNext f i o) x).in_list = (f x).in_list := by
  by_cases h : x = i <;> simp [setNext, upd, h]

lemma setNext_bit_pattern (f : Nat → ListElement) (i : Nat) (o : Option Nat) (x : Nat) :
    ((setNext f i o) x).bit_pattern = (f x).bit_pattern := by
  by_cases h : x = i <;> simp [setNext, upd, h]

lemma setNext_next (f : Nat → ListElement) (i : Nat) (o : Option Nat) (x : Nat) :
    ((setNext f i o) x).next = if x = i then o else (f x).next := by
  by_cases h : x = i <;> simp [setNext, upd, h]

/-- One iteration of the State::set_start_state loop (src/src/state.h:106-115):
sorted patterns get their in_list flag cleared, unsorted ones are fully
written and pushed onto the head of the list. -/
def set_start_step (n : Nat) (acc : (Nat → ListElement) × Option Nat) (i : Nat) :
    (Nat → ListElement) × Option Nat :=
  if is_sorted n i then
    (setFlag acc.1 i false, acc.2)
  else
    (upd acc.1 i (fun _ => ⟨true, i, acc.2⟩), some i)

/-- The set_start_state loop run over the first m patterns. -/
def set_start_scan (n m : Nat) : (Nat → ListElement) × Option Nat :=
  (List.range m).foldl (set_start_step n) (fun _ => default, none)

/-- State::set_start_state (src/src/state.h:102-120): scan all 2^n patterns in
ascending order (num_input_patterns = 2^n, Config::initialize); then set
num_unsorted = 2^n - (n+1) and reset the level.  The backing vector initially
holds value-initialized elements (the default). -/
def set_start_state (n : Nat) : SNState :=
  let res := set_start_scan n (2 ^ n)
  { used_list := res.1
    first_used := res.2
    num_unsorted := (2 ^ n : Int) - (n + 1)
    operations := []
    current_level := 0 }

/-- The loop body of State::update_state (src/src/state.h:127-165), with an
explicit fuel bound on the number of visited nodes (the C++ loop follows the
`next` pointers; on every state satisfying the list invariant the list length
is at most 2^n, so the fuel passed by `update_state` never runs out). -/
def update_loop (n op1 op2 : Nat) :
    Nat → Option Nat → Option Nat → SNState → SNState
  | 0, _, _, s => s
  | _ + 1, none, _, s => s
  | fuel + 1, some k, last_index, s =>
    let next_index := (s.used_list k).next
    let pattern := (s.used_list k).bit_pattern
    if !pattern.testBit op1 && pattern.testBit op2 then
      let f1 := setFlag s.used_list pattern false
      let pattern2 := comp_exchange op1 op2 pattern
      if (f1 pattern2).in_list || is_sorted n pattern2 then
        let s' : SNState :=
          { s with
            used_list :=
              match last_index with
              | some l => setNext f1 l next_index
              | none => f1
            first_used :=
              match last_index with
              | some _ => s.first_used
              | none => next_index
            num_unsorted := s.num_unsorted - 1 }
        update_loop n op1 op2 fuel next_index last_index s'
      else
        let f2 := setFlag f1 pattern2 true
        let f3 := setPat f2 k pattern2
        let s' : SNState :=
          { s with
            used_list :=
              match last_index with
              | some l => setNext f3 l (some k)
              | none => f3
            first_used :=
              match last_index with
              | some _ => s.first_used
              | none => some k }
        update_loop n op1 op2 fuel next_index (some k) s'
    else
      update_loop n op1 op2 fuel next_index (some k) s

/-- State::update_state (src/src/state.h:126-170): traverse the unsorted list
applying the comparator, then record the operation and advance the level. -/
def update_state (n op1 op2 : Nat) (s : SNState) : SNState :=
  let s' := update_loop n op1 op2 (2 ^ n + 1) s.first_used none s
  { s' with
    operations := s'.operations ++ [⟨op1, op2⟩]
    current_level := s'.current_level + 1 }

/-- State::rand_int (src/src/state.h:86-90): `uniform_int_distribution(0, n)`
draws an integer uniformly from the closed interval [0, n]; the draw itself is
modelled by an external entropy value r reduced into the interval. -/
def rand_int (r : Nat) (n : Int) : Int :=
  if n ≤ 0 then 0 else (r % (n.toNat + 1) : Nat)

/-- The list walk of State::do_random_transition (src/src/state.h:178-187):
`true_index` starts at 0 and the loop walks the list until the counter
reaches `rand_index` (then true_index is the node's pattern) or the list ends
(true_index stays 0).  `none` models fuel exhaustion, i.e. a diverging C++
loop, which cannot happen on states satisfying the list invariant. -/
def walk_nth (f : Nat → ListElement) :
    Nat → Option Nat → Nat → Nat → Option Nat
  | 0, _, _, _ => none
  | _ + 1, none, _, _ => some 0
  | fuel + 1, some i, cnt, target =>
    if cnt = target then some (f i).bit_pattern
    else walk_nth f fuel (f i).next (cnt + 1) target

/-- State::do_random_transition (src/src/state.h:175-192): pick a random list
position, walk to it, pick a random allowed operation of that pattern, apply
it.  The two entropy draws are the arguments r1, r2.  The C++ indexes
`allowed[rand_op]` with `std::vector::operator[]`; an out-of-range index is
undefined behaviour and is modelled as `none`. -/
def do_random_transition (n r1 r2 : Nat) (s : SNState) : Option SNState :=
  let rand_index := rand_int r1 (s.num_unsorted - 1)
  match walk_nth s.used_list (2 ^ n + 1) s.first_used 0 rand_index.toNat with
  | none => none
  | some true_index =>
    let allowed := allowed_ops n true_index
    let rand_op := rand_int r2 ((allowed.length : Int) - 1)
    match allowed.get? rand_op.toNat with
    | none => none
    | some op => some (update_state n op.op1 op.op2 s)

/-- States reachable from set_start_state by comparator applications (with
wire indices in range, as generated by the search) and successful random
transitions. -/
inductive Reachable (n : Nat) : SNState → Prop where
  | start : Reachable n (set_start_state n)
  | step_update {s op1 op2} : Reachable n s → op1 < op2 → op2 < n →
      Reachable n (update_state n op1 op2 s)
  | step_random {s s' r1 r2} : Reachable n s →
      do_random_transition n r1 r2 s = some s' → Reachable n s'

/-! Representation of the intrusive linked list: `links f s l t` says that the
pointer s reaches exactly the node slots l in order, ending at pointer t. -/

def links (f : Nat → ListElement) : Option Nat → List Nat → Option Nat → Prop
  | s, [], t => s = t
  | s, k :: l, t => s = some k ∧ links f (f k).next l t

/-- The pattern values currently stored at a list of slots. -/
def values (f : Nat → ListElement) (l : List Nat) : List Nat :=
  l.map fun k => (f k).bit_pattern

lemma values_nil (f : Nat → ListElement) : values f [] = [] := rfl

lemma values_cons (f : Nat → ListElement) (k : Nat) (l : List Nat) :
    values f (k :: l) = (f k).bit_pattern :: values f l := rfl

lemma values_append (f : Nat → ListElement) (a b : List Nat) :
    values f (a ++ b) = values f a ++ values f b := by
  simp [values]

lemma values_congr {f g : Nat → ListElement} {l : List Nat}
    (h : ∀ k ∈ l, (g k).bit_pattern = (f k).bit_pattern) :
    values g l = values f l := by
  induction l with
  | nil => rfl
  | cons k l ih =>
    rw [values_cons, values_cons, h k (List.mem_cons_self k l),
      ih fun x hx => h x (List.mem_cons_of_mem k hx)]

lemma links_congr {f g : Nat → ListElement} {s t : Option Nat} {l : List Nat}
    (h : ∀ k ∈ l, (g k).next = (f k).next) (hl : links f s l t) :
    links g s l t := by
  induction l generalizing s with
  | nil => exact hl
  | cons k l ih =>
    obtain ⟨hs, hrest⟩ := hl
    refine ⟨hs, ?_⟩
    show links g ((g k).next) l t
    rw [h k (List.mem_cons_self k l)]
    exact ih (fun x hx => h x (List.mem_cons_of_mem k hx)) hrest

lemma links_append_elim {f : Nat → ListElement} {s t : Option Nat}
    {a b : List Nat} (h : links f s (a ++ b) t) :
    ∃ m, links f s a m ∧ links f m b t := by
  induction a generalizing s with
  | nil => exact ⟨s, rfl, h⟩
  | cons k a ih =>
    obtain ⟨hs, hrest⟩ := h
    obtain ⟨m, h1, h2⟩ := ih hrest
    exact ⟨m, ⟨hs, h1⟩, h2⟩

lemma links_append_intro {f : Nat → ListElement} {s m t : Option Nat}
    {a b : List Nat} (h1 : links f s a m) (h2 : links f m b t) :
    links f s (a ++ b) t := by
  induction a generalizing s with
  | nil => rw [h1]; exact h2
  | cons k a ih =>
    obtain ⟨hs, hrest⟩ := h1
    exact ⟨hs, ih hrest⟩

lemma links_head_eq {f : Nat → ListElement} {s : Option Nat} {l : List Nat}
    (h : links f s l none) : s = l.head? := by
  cases l with
  | nil => exact h
  | cons k l => exact h.1

/-- Uniqueness of the node list reachable from a given head pointer. -/
lemma links_unique {f : Nat → ListElement} {s : Option Nat} :
    ∀ {l1 l2 : List Nat}, links f s l1 none → links f s l2 none → l1 = l2 := by
  intro l1
  induction l1 generalizing s with
  | nil =>
    intro l2 h1 h2
    cases l2 with
    | nil => rfl
    | cons k l2 => rw [h1] at h2; exact absurd h2.1 (by simp)
  | cons k l1 ih =>
    intro l2 h1 h2
    cases l2 with
    | nil => rw [h2] at h1; exact absurd h1.1 (by simp)
    | cons k2 l2 =>
      obtain ⟨hs1, hr1⟩ := h1
      obtain ⟨hs2, hr2⟩ := h2
      rw [hs1] at hs2
      obtain rfl : k = k2 := Option.some.inj hs2
      rw [ih hr1 hr2]

/-- The per-node effect of update_state expressed on the list of pattern
values: processes the values in list order, carrying the values already
re-published (`done`) and the original values still to visit (`todo`); an
affected value whose image is already present (among done or the still
unvisited originals) or already sorted drops off the list. -/
def spec_update (n op1 op2 : Nat) : List Nat → List Nat → List Nat
  | done, [] => done
  | done, v :: todo =>
    if !v.testBit op1 && v.testBit op2 then
      let v2 := comp_exchange op1 op2 v
      if v2 ∈ done ∨ v2 ∈ todo ∨ is_sorted n v2 = true then
        spec_update n op1 op2 done todo
      else
        spec_update n op1 op2 (done ++ [v2]) todo
    else
      spec_update n op1 op2 (done ++ [v]) todo

/-- The list invariant of the knowledge-state: the slots reachable from first
form the list `slots`; slots and stored values are duplicate-free; the in_list
flag at index x says whether x is one of the stored values; all stored values
are unsorted patterns below 2^n, and slots are pattern values below 2^n. -/
structure ListInv (n : Nat) (f : Nat → ListElement) (first : Option Nat)
    (slots : List Nat) : Prop where
  link : links f first slots none
  nodup_slots : slots.Nodup
  nodup_vals : (values f slots).Nodup
  flags : ∀ x, (f x).in_list = true ↔ x ∈ values f slots
  vals_unsorted : ∀ v ∈ values f slots, is_sorted n v = false
  slots_lt : ∀ k ∈ slots, k < 2 ^ n
  vals_lt : ∀ v ∈ values f slots, v < 2 ^ n

/-- The guard of the affected branch. -/
lemma comp_exchange_guard_bits {op1 op2 v : Nat}
    (hg : (!v.testBit op1 && v.testBit op2) = true) :
    v.testBit op1 = false ∧ v.testBit op2 = true := by
  rcases Bool.and_eq_true_iff.mp hg with ⟨ha, hb⟩
  exact ⟨by simpa using ha, hb⟩

lemma comp_exchange_ne_of_affected {op1 op2 v : Nat}
    (hg : (!v.testBit op1 && v.testBit op2) = true) :
    comp_exchange op1 op2 v ≠ v := by
  obtain ⟨h1, h2⟩ := comp_exchange_guard_bits hg
  have hne : op1 ≠ op2 := fun h => by rw [h] at h1; rw [h1] at h2; cases h2
  intro hc
  have := testBit_comp_exchange hne h1 h2 op1
  rw [hc, h1] at this
  simp [hne] at this

lemma comp_exchange_self_of_guard_false {op1 op2 v : Nat}
    (hg : ¬(!v.testBit op1 && v.testBit op2) = true) :
    comp_exchange op1 op2 v = v := by
  rw [comp_exchange, if_neg hg]

/-- Set-level meaning of spec_update: starting from done, the surviving values
are the done values together with the unsorted images of the todo values. -/
lemma spec_update_mem {n op1 op2 : Nat} (hne : op1 ≠ op2) :
    ∀ (todo done : List Nat), (∀ v ∈ todo, is_sorted n v = false) →
      ∀ x, x ∈ spec_update n op1 op2 done todo ↔
        x ∈ done ∨
          ((∃ v ∈ todo, comp_exchange op1 op2 v = x) ∧ is_sorted n x = false) := by
  intro todo
  induction todo with
  | nil => intro done _ x; simp [spec_update]
  | cons v todo ih =>
    intro done hTu x
    have hTu' : ∀ u ∈ todo, is_sorted n u = false :=
      fun u hu => hTu u (List.mem_cons_of_mem v hu)
    have hvu : is_sorted n v = false := hTu v (List.mem_cons_self v todo)
    rw [spec_update]
    by_cases hg : (!v.testBit op1 && v.testBit op2) = true
    · rw [if_pos hg]
      set v2 := comp_exchange op1 op2 v with hv2
      by_cases hdrop : v2 ∈ done ∨ v2 ∈ todo ∨ is_sorted n v2 = true
      · rw [if_pos hdrop, ih done hTu' x]
        constructor
        · rintro (hx | ⟨⟨u, hu, hux⟩, hxu⟩)
          · exact Or.inl hx
          · exact Or.inr ⟨⟨u, List.mem_cons_of_mem v hu, hux⟩, hxu⟩
        · rintro (hx | ⟨⟨u, hu, hux⟩, hxu⟩)
          · exact Or.inl hx
          · rcases List.mem_cons.mp hu with rfl | hu
            · -- the image of v was dropped; recover it from the drop condition
              rw [← hv2] at hux
              subst hux
              rcases hdrop with hd | hd | hd
              · exact Or.inl hd
              · exact Or.inr ⟨⟨v2, hd, comp_exchange_idem hne⟩, hxu⟩
              · rw [hd] at hxu; cases hxu
            · exact Or.inr ⟨⟨u, hu, hux⟩, hxu⟩
      · rw [if_neg hdrop, ih (done ++ [v2]) hTu' x]
        push_neg at hdrop
        obtain ⟨hd1, hd2, hd3⟩ := hdrop
        constructor
        · rintro (hx | ⟨⟨u, hu, hux⟩, hxu⟩)
          · rcases List.mem_append.mp hx with hx | hx
            · exact Or.inl hx
            · rcases List.mem_singleton.mp hx with rfl
              refine Or.inr ⟨⟨v, List.mem_cons_self v todo, rfl⟩, ?_⟩
              simpa using hd3
          · exact Or.inr ⟨⟨u, List.mem_cons_of_mem v hu, hux⟩, hxu⟩
        · rintro (hx | ⟨⟨u, hu, hux⟩, hxu⟩)
          · exact Or.inl (List.mem_append.mpr (Or.inl hx))
          · rcases List.mem_cons.mp hu with rfl | hu
            · rw [← hv2] at hux
              exact Or.inl (List.mem_append.mpr (Or.inr (by simp [hux])))
            · exact Or.inr ⟨⟨u, hu, hux⟩, hxu⟩
    · rw [if_neg hg, ih (done ++ [v]) hTu' x]
      have hv : comp_exchange op1 op2 v = v := comp_exchange_self_of_guard_false hg
      constructor
      · rintro (hx | ⟨⟨u, hu, hux⟩, hxu⟩)
        · rcases List.mem_append.mp hx with hx | hx
          · exact Or.inl hx
          · have hxv : x = v := List.mem_singleton.mp hx
            refine Or.inr ⟨⟨v, List.mem_cons_self v todo, ?_⟩, ?_⟩
            · rw [hv, hxv]
            · rw [hxv]; exact hvu
        · exact Or.inr ⟨⟨u, List.mem_cons_of_mem v hu, hux⟩, hxu⟩
      · rintro (hx | ⟨⟨u, hu, hux⟩, hxu⟩)
        · exact Or.inl (List.mem_append.mpr (Or.inl hx))
        · rcases List.mem_cons.mp hu with rfl | hu
          · rw [hv] at hux
            exact Or.inl (List.mem_append.mpr (Or.inr (by simp [hux])))
          · exact Or.inr ⟨⟨u, hu, hux⟩, hxu⟩

lemma values_setFlag (f : Nat → ListElement) (i : Nat) (b : Bool) (l : List Nat) :
    values (setFlag f i b) l = values f l :=
  values_congr fun k _ => setFlag_bit_pattern f i b k

lemma values_setNext (f : Nat → ListElement) (i : Nat) (o : Option Nat) (l : List Nat) :
    values (setNext f i o) l = values f l :=
  values_congr fun k _ => setNext_bit_pattern f i o k

lemma values_setPat_not_mem {f : Nat → ListElement} {i : Nat} {p : Nat}
    {l : List Nat} (h : i ∉ l) : values (setPat f i p) l = values f l :=
  values_congr fun k hk => by
    rw [setPat_bit_pattern]
    exact if_neg fun he => h (by rw [← he]; exact hk)

lemma links_setFlag {f : Nat → ListElement} {i : Nat} {b : Bool}
    {st t : Option Nat} {l : List Nat} (h : links f st l t) :
    links (setFlag f i b) st l t :=
  links_congr (fun k _ => setFlag_next f i b k) h

lemma links_setPat {f : Nat → ListElement} {i p : Nat}
    {st t : Option Nat} {l : List Nat} (h : links f st l t) :
    links (setPat f i p) st l t :=
  links_congr (fun k _ => setPat_next f i p k) h

/-- Writing the value a next field already holds is a no-op. -/
lemma setNext_self {f : Nat → ListElement} {l : Nat} {o : Option Nat}
    (h : (f l).next = o) : setNext f l o = f := by
  funext x
  by_cases hx : x = l
  · subst hx
    show upd f x _ x = f x
    rw [upd]
    simp only [if_pos rfl]
    cases hfx : f x with
    | mk a b c =>
      rw [hfx] at h
      simp at h
      simp [h]
  · show upd f l _ x = f x
    rw [upd, if_neg hx]

lemma update_loop_fuel_zero (n op1 op2 : Nat) (ui li : Option Nat) (s : SNState) :
    update_loop n op1 op2 0 ui li s = s := rfl

lemma update_loop_none_eq (n op1 op2 fuel : Nat) (li : Option Nat) (s : SNState) :
    update_loop n op1 op2 (fuel + 1) none li s = s := rfl

lemma update_loop_eq_unaffected {n op1 op2 fuel k : Nat} {last : Option Nat}
    {s : SNState}
    (h : (!((s.used_list k).bit_pattern.testBit op1) &&
          (s.used_list k).bit_pattern.testBit op2) = false) :
    update_loop n op1 op2 (fuel + 1) (some k) last s =
      update_loop n op1 op2 fuel ((s.used_list k).next) (some k) s := by
  rw [update_loop.eq_def]
  simp only [h, Bool.false_eq_true, if_false]

lemma update_loop_eq_drop_none {n op1 op2 fuel k : Nat} {s : SNState}
    (hg : (!((s.used_list k).bit_pattern.testBit op1) &&
          (s.used_list k).bit_pattern.testBit op2) = true)
    (hd : ((setFlag s.used_list (s.used_list k).bit_pattern false
            (comp_exchange op1 op2 (s.used_list k).bit_pattern)).in_list ||
          is_sorted n (comp_exchange op1 op2 (s.used_list k).bit_pattern)) = true) :
    update_loop n op1 op2 (fuel + 1) (some k) none s =
      update_loop n op1 op2 fuel ((s.used_list k).next) none
        { s with
          used_list := setFlag s.used_list (s.used_list k).bit_pattern false
          first_used := (s.used_list k).next
          num_unsorted := s.num_unsorted - 1 } := by
  rw [update_loop.eq_def]
  simp only [hg, if_true, hd]

lemma update_loop_eq_drop_some {n op1 op2 fuel k l : Nat} {s : SNState}
    (hg : (!((s.used_list k).bit_pattern.testBit op1) &&
          (s.used_list k).bit_pattern.testBit op2) = true)
    (hd : ((setFlag s.used_list (s.used_list k).bit_pattern false
            (comp_exchange op1 op2 (s.used_list k).bit_pattern)).in_list ||
          is_sorted n (comp_exchange op1 op2 (s.used_list k).bit_pattern)) = true) :
    update_loop n op1 op2 (fuel + 1) (some k) (some l) s =
      update_loop n op1 op2 fuel ((s.used_list k).next) (some l)
        { s with
          used_list := setNext
            (setFlag s.used_list (s.used_list k).bit_pattern false)
            l ((s.used_list k).next)
          num_unsorted := s.num_unsorted - 1 } := by
  rw [update_loop.eq_def]
  simp only [hg, if_true, hd]

lemma update_loop_eq_keep_none {n op1 op2 fuel k : Nat} {s : SNState}
    (hg : (!((s.used_list k).bit_pattern.testBit op1) &&
          (s.used_list k).bit_pattern.testBit op2) = true)
    (hd : ((setFlag s.used_list (s.used_list k).bit_pattern false
            (comp_exchange op1 op2 (s.used_list k).bit_pattern)).in_list ||
          is_sorted n (comp_exchange op1 op2 (s.used_list k).bit_pattern)) = false) :
    update_loop n op1 op2 (fuel + 1) (some k) none s =
      update_loop n op1 op2 fuel ((s.used_list k).next) (some k)
        { s with
          used_list := setPat
            (setFlag (setFlag s.used_list (s.used_list k).bit_pattern false)
              (comp_exchange op1 op2 (s.used_list k).bit_pattern) true)
            k (comp_exchange op1 op2 (s.used_list k).bit_pattern)
          first_used := some k } := by
  rw [update_loop.eq_def]
  simp only [hg, if_true, hd, Bool.false_eq_true, if_false]

lemma update_loop_eq_keep_some {n op1 op2 fuel k l : Nat} {s : SNState}
    (hg : (!((s.used_list k).bit_pattern.testBit op1) &&
          (s.used_list k).bit_pattern.testBit op2) = true)
    (hd : ((setFlag s.used_list (s.used_list k).bit_pattern false
            (comp_exchange op1 op2 (s.used_list k).bit_pattern)).in_list ||
          is_sorted n (comp_exchange op1 op2 (s.used_list k).bit_pattern)) = false) :
    update_loop n op1 op2 (fuel + 1) (some k) (some l) s =
      update_loop n op1 op2 fuel ((s.used_list k).next) (some k)
        { s with
          used_list := setNext
            (setPat
              (setFlag (setFlag s.used_list (s.used_list k).bit_pattern false)
                (comp_exchange op1 op2 (s.used_list k).bit_pattern) true)
              k (comp_exchange op1 op2 (s.used_list k).bit_pattern))
            l (some k) } := by
  rw [update_loop.eq_def]
  simp only [hg, if_true, hd, Bool.false_eq_true, if_false]

/-- Unfolding of spec_update on a cons. -/
lemma spec_update_cons (n op1 op2 : Nat) (D : List Nat) (v : Nat) (T : List Nat) :
    spec_update n op1 op2 D (v :: T) =
      if (!v.testBit op1 && v.testBit op2) = true then
        (if comp_exchange op1 op2 v ∈ D ∨ comp_exchange op1 op2 v ∈ T ∨
            is_sorted n (comp_exchange op1 op2 v) = true then
          spec_update n op1 op2 D T
        else spec_update n op1 op2 (D ++ [comp_exchange op1 op2 v]) T)
      else spec_update n op1 op2 (D ++ [v]) T := rfl

/-- Main preservation lemma for the update_state traversal: starting mid-loop
with processed (kept) slots `done` and unvisited slots `todo`, the loop
finishes, keeps a subset of the todo slots, and realises exactly the
spec_update transformation of the stored values. -/
lemma update_loop_inv {n op1 op2 : Nat} (h1n : op1 < n) (hne : op1 ≠ op2) :
    ∀ (todo done : List Nat) (fuel : Nat) (s : SNState),
      todo.length < fuel →
      ListInv n s.used_list s.first_used (done ++ todo) →
      ∃ kept : List Nat,
        (∀ x ∈ kept, x ∈ todo) ∧
        ListInv n (update_loop n op1 op2 fuel todo.head? done.getLast? s).used_list
          (update_loop n op1 op2 fuel todo.head? done.getLast? s).first_used
          (done ++ kept) ∧
        values (update_loop n op1 op2 fuel todo.head? done.getLast? s).used_list
            (done ++ kept)
          = spec_update n op1 op2 (values s.used_list done)
              (values s.used_list todo) ∧
        (update_loop n op1 op2 fuel todo.head? done.getLast? s).num_unsorted
          = s.num_unsorted - ((done ++ todo).length : Int)
            + ((spec_update n op1 op2 (values s.used_list done)
                (values s.used_list todo)).length : Int) ∧
        (update_loop n op1 op2 fuel todo.head? done.getLast? s).operations
          = s.operations ∧
        (update_loop n op1 op2 fuel todo.head? done.getLast? s).current_level
          = s.current_level := by
  intro todo
  induction todo with
  | nil =>
    intro done fuel s hfuel hinv
    obtain ⟨f', rfl⟩ : ∃ f', fuel = f' + 1 := ⟨fuel - 1, by omega⟩
    simp only [List.head?_nil]
    refine ⟨[], by simp, ?_, ?_, ?_, rfl, rfl⟩
    · rw [update_loop_none_eq]
      simpa using hinv
    · rw [update_loop_none_eq]
      simp [spec_update]
    · rw [update_loop_none_eq]
      simp [spec_update, values, Int.sub_add_cancel]
  | cons k todo' ih =>
    intro done fuel s hfuel hinv
    obtain ⟨f', rfl⟩ : ∃ f', fuel = f' + 1 := ⟨fuel - 1, by omega⟩
    have hfuel' : todo'.length < f' := by
      simp only [List.length_cons] at hfuel
      omega
    simp only [List.head?_cons]
    set f := s.used_list with hfdef
    set v := (f k).bit_pattern with hvdef
    have hlink := hinv.link
    obtain ⟨m, hlinkD, hlinkKT⟩ := links_append_elim hlink
    obtain ⟨hmk, hlinkT⟩ := hlinkKT
    subst hmk
    have hnxt_head : (f k).next = todo'.head? := links_head_eq hlinkT
    have hnods := hinv.nodup_slots
    have hnods' : k ∉ (done ++ todo') ∧ (done ++ todo').Nodup := by
      have := List.nodup_middle.mp hnods
      exact ⟨(List.nodup_cons.mp this).1, (List.nodup_cons.mp this).2⟩
    have hkdone : k ∉ done := fun h => hnods'.1 (List.mem_append.mpr (Or.inl h))
    have hktodo : k ∉ todo' := fun h => hnods'.1 (List.mem_append.mpr (Or.inr h))
    have hvals_shape : values f (done ++ k :: todo')
        = values f done ++ v :: values f todo' := by
      rw [values_append, values_cons]
    have hnodv := hinv.nodup_vals
    rw [hvals_shape] at hnodv
    have hnodv' : v ∉ (values f done ++ values f todo') ∧
        (values f done ++ values f todo').Nodup := by
      have := List.nodup_middle.mp hnodv
      exact ⟨(List.nodup_cons.mp this).1, (List.nodup_cons.mp this).2⟩
    have hvmem : v ∈ values f (done ++ k :: todo') := by
      rw [hvals_shape]
      exact List.mem_append.mpr (Or.inr (List.mem_cons_self _ _))
    have hvlt : v < 2 ^ n := hinv.vals_lt v hvmem
    have hvuns : is_sorted n v = false := hinv.vals_unsorted v hvmem
    have hDuns : ∀ u ∈ values f done, is_sorted n u = false := by
      intro u hu
      exact hinv.vals_unsorted u (by
        rw [hvals_shape]; exact List.mem_append.mpr (Or.inl hu))
    have hTuns : ∀ u ∈ values f todo', is_sorted n u = false := by
      intro u hu
      exact hinv.vals_unsorted u (by
        rw [hvals_shape]
        exact List.mem_append.mpr (Or.inr (List.mem_cons_of_mem _ hu)))
    have hvalsT : values f (k :: todo') = v :: values f todo' := values_cons ..
    have hac : done ++ k :: todo' = (done ++ [k]) ++ todo' := by simp
    by_cases hg : (!v.testBit op1 && v.testBit op2) = true
    · set v2 := comp_exchange op1 op2 v with hv2def
      have hv2v : v2 ≠ v := comp_exchange_ne_of_affected hg
      have hf1flag : ∀ x, ((setFlag f v false x).in_list = true) ↔
          (x ≠ v ∧ x ∈ values f done ++ v :: values f todo') := by
        intro x
        rw [setFlag_in_list]
        by_cases hx : x = v
        · simp [hx]
        · rw [if_neg hx]
          rw [hinv.flags x, hvals_shape]
          simp [hx]
      have hdc : ((setFlag f v false v2).in_list || is_sorted n v2) = true ↔
          (v2 ∈ values f done ∨ v2 ∈ values f todo' ∨ is_sorted n v2 = true) := by
        rw [Bool.or_eq_true, hf1flag v2]
        constructor
        · rintro (⟨_, hm⟩ | hs)
          · rcases List.mem_append.mp hm with hm | hm
            · exact Or.inl hm
            · rcases List.mem_cons.mp hm with he | hm
              · exact absurd he hv2v
              · exact Or.inr (Or.inl hm)
          · exact Or.inr (Or.inr hs)
        · rintro (hm | hm | hs)
          · exact Or.inl ⟨hv2v, List.mem_append.mpr (Or.inl hm)⟩
          · exact Or.inl ⟨hv2v, List.mem_append.mpr
              (Or.inr (List.mem_cons_of_mem _ hm))⟩
          · exact Or.inr hs
      by_cases hdrop : ((setFlag f v false v2).in_list || is_sorted n v2) = true
      · -- removal branch: the current node is unlinked
        have hspec_drop := hdc.mp hdrop
        have hflags_mid : ∀ (g : Nat → ListElement),
            (∀ x, (g x).in_list = (setFlag f v false x).in_list) →
            (∀ x, (g x).bit_pattern = (f x).bit_pattern) →
            ∀ x, ((g x).in_list = true ↔ x ∈ values g (done ++ todo')) := by
          intro g hgl hgp x
          rw [hgl x, hf1flag x]
          have hv : values g (done ++ todo') = values f (done ++ todo') :=
            values_congr fun y _ => hgp y
          rw [hv, values_append]
          constructor
          · rintro ⟨hxv, hm⟩
            rcases List.mem_append.mp hm with hm | hm
            · exact List.mem_append.mpr (Or.inl hm)
            · rcases List.mem_cons.mp hm with he | hm
              · exact absurd he hxv
              · exact List.mem_append.mpr (Or.inr hm)
          · intro hm
            refine ⟨fun he => hnodv'.1 (by rw [← he]; exact hm), ?_⟩
            rcases List.mem_append.mp hm with hm2 | hm2
            · exact List.mem_append.mpr (Or.inl hm2)
            · exact List.mem_append.mpr (Or.inr (List.mem_cons_of_mem _ hm2))
        have hvuns_mid : ∀ (g : Nat → ListElement),
            (∀ x, (g x).bit_pattern = (f x).bit_pattern) →
            (∀ u ∈ values g (done ++ todo'), is_sorted n u = false) := by
          intro g hgp u hu
          rw [values_congr (fun y _ => hgp y), values_append] at hu
          rcases List.mem_append.mp hu with hm | hm
          · exact hDuns u hm
          · exact hTuns u hm
        have hvlt_mid : ∀ (g : Nat → ListElement),
            (∀ x, (g x).bit_pattern = (f x).bit_pattern) →
            (∀ u ∈ values g (done ++ todo'), u < 2 ^ n) := by
          intro g hgp u hu
          rw [values_congr (fun y _ => hgp y)] at hu
          refine hinv.vals_lt u ?_
          rw [hvals_shape]
          rw [values_append] at hu
          rcases List.mem_append.mp hu with hm | hm
          · exact List.mem_append.mpr (Or.inl hm)
          · exact List.mem_append.mpr (Or.inr (List.mem_cons_of_mem _ hm))
        have hslots_mid : ∀ x ∈ done ++ todo', x < 2 ^ n := by
          intro x hx
          refine hinv.slots_lt x ?_
          rcases List.mem_append.mp hx with hm | hm
          · exact List.mem_append.mpr (Or.inl hm)
          · exact List.mem_append.mpr (Or.inr (List.mem_cons_of_mem _ hm))
        have hspec_eq : spec_update n op1 op2 (values f done) (values f (k :: todo'))
            = spec_update n op1 op2 (values f done) (values f todo') := by
          rw [hvalsT, spec_update_cons, if_pos hg, if_pos hspec_drop]
        rcases hgl : done.getLast? with _ | l
        · -- no kept predecessor: first_used moves past the node
          have hdone_nil : done = [] := List.getLast?_eq_none_iff.mp hgl
          subst hdone_nil
          rw [update_loop_eq_drop_none hg hdrop]
          have hinv1 : ListInv n (setFlag f v false) ((f k).next) ([] ++ todo') := by
            refine ⟨?_, ?_, ?_, ?_, ?_, ?_, ?_⟩
            · exact links_setFlag hlinkT
            · simpa using hnods'.2
            · show (values (setFlag f v false) ([] ++ todo')).Nodup
              rw [values_setFlag]
              simpa using hnodv'.2
            · exact hflags_mid (setFlag f v false) (fun x => rfl)
                (fun x => setFlag_bit_pattern f v false x)
            · exact hvuns_mid (setFlag f v false)
                (fun x => setFlag_bit_pattern f v false x)
            · exact hslots_mid
            · exact hvlt_mid (setFlag f v false)
                (fun x => setFlag_bit_pattern f v false x)
          obtain ⟨kept, hsub, hI, hV, hN, hO, hL⟩ :=
            ih [] f'
              { s with
                used_list := setFlag f v false
                first_used := (f k).next
                num_unsorted := s.num_unsorted - 1 }
              hfuel' hinv1
          rw [List.getLast?_nil, ← hnxt_head] at hI hV hN hO hL
          refine ⟨kept, fun x hx => List.mem_cons_of_mem _ (hsub x hx),
            hI, ?_, ?_, hO, hL⟩
          · rw [hV]
            show spec_update n op1 op2 (values (setFlag f v false) [])
                (values (setFlag f v false) todo') = _
            rw [values_setFlag, values_setFlag, hspec_eq]
          · rw [hN, hspec_eq]
            show s.num_unsorted - 1 - (([] ++ todo').length : Int)
                + _ = _
            have hlen : (([] : List Nat) ++ k :: todo').length = ([] ++ todo').length + 1 := by
              simp
            rw [hlen]
            push_cast
            have hveq : values (setFlag f v false) [] = values f [] := values_setFlag ..
            have hveq2 : values (setFlag f v false) todo' = values f todo' :=
              values_setFlag ..
            rw [hveq, hveq2]
            ring
        · -- a kept predecessor l: its next pointer is spliced
          obtain ⟨D0, rfl⟩ := List.getLast?_eq_some_iff.mp hgl
          have hlD0 : l ∉ D0 := by
            have h1 : ((D0 ++ [l]) ++ k :: todo').Nodup := hnods
            have h2 : (D0 ++ [l]).Nodup := List.Nodup.of_append_left h1
            have hdisj0 := List.disjoint_of_nodup_append h2
            exact fun hm => hdisj0 hm (by simp)
          have hldone : l ∈ D0 ++ [l] := List.mem_append.mpr (Or.inr (by simp))
          have hlk : l ≠ k := fun he => hkdone (he ▸ hldone)
          have hltodo : l ∉ todo' := by
            intro hm
            have hdisj := List.disjoint_of_nodup_append hnods
            exact hdisj hldone (List.mem_cons_of_mem _ hm)
          obtain ⟨m2, hD0, hLl⟩ := links_append_elim hlinkD
          have hm2l : m2 = some l := hLl.1
          have hlnext : (f l).next = some k := hLl.2
          subst hm2l
          rw [update_loop_eq_drop_some hg hdrop]
          set fmid := setNext (setFlag f v false) l ((f k).next) with hfmid
          have hfmid_pat : ∀ x, (fmid x).bit_pattern = (f x).bit_pattern := by
            intro x
            rw [hfmid, setNext_bit_pattern, setFlag_bit_pattern]
          have hfmid_flag : ∀ x, (fmid x).in_list = (setFlag f v false x).in_list := by
            intro x
            rw [hfmid, setNext_in_list]
          have hfmid_next : ∀ x, x ≠ l → (fmid x).next = (f x).next := by
            intro x hx
            rw [hfmid, setNext_next, if_neg hx, setFlag_next]
          have hinv1 : ListInv n fmid s.first_used ((D0 ++ [l]) ++ todo') := by
            refine ⟨?_, ?_, ?_, ?_, ?_, ?_, ?_⟩
            · rw [List.append_assoc]
              refine links_append_intro (m := some l)
                (links_congr (fun x hx => hfmid_next x
                  (fun he => hlD0 (by rw [← he]; exact hx))) hD0) ?_
              refine links_append_intro (m := (f k).next) ?_ ?_
              · exact ⟨rfl, by
                  show (fmid l).next = (f k).next
                  rw [hfmid, setNext_next, if_pos rfl]⟩
              · exact links_congr (fun x hx => hfmid_next x
                  (fun he => hltodo (by rw [← he]; exact hx))) hlinkT
            · exact hnods'.2
            · show (values fmid ((D0 ++ [l]) ++ todo')).Nodup
              rw [values_congr (fun y _ => hfmid_pat y), values_append]
              exact hnodv'.2
            · exact hflags_mid fmid hfmid_flag hfmid_pat
            · exact hvuns_mid fmid hfmid_pat
            · exact hslots_mid
            · exact hvlt_mid fmid hfmid_pat
          obtain ⟨kept, hsub, hI, hV, hN, hO, hL⟩ :=
            ih (D0 ++ [l]) f'
              { s with
                used_list := fmid
                num_unsorted := s.num_unsorted - 1 }
              hfuel' hinv1
          rw [List.getLast?_concat, ← hnxt_head] at hI hV hN hO hL
          refine ⟨kept, fun x hx => List.mem_cons_of_mem _ (hsub x hx),
            hI, ?_, ?_, hO, hL⟩
          · rw [hV]
            show spec_update n op1 op2 (values fmid (D0 ++ [l]))
                (values fmid todo') = _
            rw [values_congr (fun y _ => hfmid_pat y),
              values_congr (fun y _ => hfmid_pat y), hspec_eq]
          · rw [hN, hspec_eq]
            show s.num_unsorted - 1 - (((D0 ++ [l]) ++ todo').length : Int) + _ = _
            have hveq : values fmid (D0 ++ [l]) = values f (D0 ++ [l]) :=
              values_congr (fun y _ => hfmid_pat y)
            have hveq2 : values fmid todo' = values f todo' :=
              values_congr (fun y _ => hfmid_pat y)
            rw [hveq, hveq2]
            have hlen : (((D0 ++ [l]) ++ k :: todo').length : Int)
                = (((D0 ++ [l]) ++ todo').length : Int) + 1 := by
              push_cast [List.length_append, List.length_cons, List.length_nil]
              ring
            rw [hlen]
            ring
      · -- keep branch: the node is republished at the new value
        have hdrop' : ((setFlag f v false v2).in_list || is_sorted n v2) = false :=
          Bool.eq_false_iff.mpr hdrop
        obtain ⟨hd1, hd2⟩ := Bool.or_eq_false_iff.mp hdrop'
        have hv2notin : v2 ∉ values f done ++ v :: values f todo' := by
          intro hm
          have := (hf1flag v2).mpr ⟨hv2v, hm⟩
          rw [hd1] at this
          cases this
        have hv2D : v2 ∉ values f done := fun hm =>
          hv2notin (List.mem_append.mpr (Or.inl hm))
        have hv2T : v2 ∉ values f todo' := fun hm =>
          hv2notin (List.mem_append.mpr (Or.inr (List.mem_cons_of_mem _ hm)))
        have hspec_keep : ¬(v2 ∈ values f done ∨ v2 ∈ values f todo' ∨
            is_sorted n v2 = true) := by
          rintro (hm | hm | hs)
          · exact hv2D hm
          · exact hv2T hm
          · rw [hd2] at hs; cases hs
        have hspec_eq : spec_update n op1 op2 (values f done) (values f (k :: todo'))
            = spec_update n op1 op2 (values f done ++ [v2]) (values f todo') := by
          rw [hvalsT, spec_update_cons, if_pos hg, if_neg hspec_keep]
        set f3 := setPat (setFlag (setFlag f v false) v2 true) k v2 with hf3
        have hf3_pat : ∀ x, (f3 x).bit_pattern
            = if x = k then v2 else (f x).bit_pattern := by
          intro x
          rw [hf3, setPat_bit_pattern]
          by_cases hx : x = k
          · simp [hx]
          · rw [if_neg hx, if_neg hx, setFlag_bit_pattern, setFlag_bit_pattern]
        have hf3_next : ∀ x, (f3 x).next = (f x).next := by
          intro x
          rw [hf3, setPat_next, setFlag_next, setFlag_next]
        have hf3_flag : ∀ x, (f3 x).in_list
            = if x = v2 then true else if x = v then false else (f x).in_list := by
          intro x
          rw [hf3, setPat_in_list, setFlag_in_list, setFlag_in_list]
        have hvalsDone3 : values f3 done = values f done := by
          refine values_congr fun y hy => ?_
          rw [hf3_pat, if_neg (fun he => hkdone (by rw [← he]; exact hy))]
        have hvalsT3 : values f3 todo' = values f todo' := by
          refine values_congr fun y hy => ?_
          rw [hf3_pat, if_neg (fun he => hktodo (by rw [← he]; exact hy))]
        have hvals3_shape : values f3 ((done ++ [k]) ++ todo')
            = values f done ++ v2 :: values f todo' := by
          rw [values_append, values_append, hvalsDone3, hvalsT3]
          have : values f3 [k] = [v2] := by
            rw [values]
            simp [hf3_pat]
          rw [this]
          simp
        have hv2lt : v2 < 2 ^ n := comp_exchange_lt_two_pow hvlt h1n
        have hinv3 : ListInv n f3 s.first_used ((done ++ [k]) ++ todo') := by
          refine ⟨?_, ?_, ?_, ?_, ?_, ?_, ?_⟩
          · rw [← hac]
            exact links_congr (fun x _ => hf3_next x) hlink
          · rw [← hac]; exact hnods
          · rw [hvals3_shape]
            rw [List.nodup_middle]
            refine List.nodup_cons.mpr ⟨?_, hnodv'.2⟩
            intro hm
            rcases List.mem_append.mp hm with hm | hm
            · exact hv2D hm
            · exact hv2T hm
          · intro x
            rw [hf3_flag x, hvals3_shape]
            by_cases hx2 : x = v2
            · subst hx2
              simp only [if_pos rfl]
              constructor
              · intro _
                exact List.mem_append.mpr (Or.inr (List.mem_cons_self _ _))
              · intro _; rfl
            · rw [if_neg hx2]
              by_cases hxv : x = v
              · subst hxv
                rw [if_pos rfl]
                constructor
                · intro h; cases h
                · intro hm
                  rcases List.mem_append.mp hm with hm | hm
                  · exact absurd (List.mem_append.mpr (Or.inl hm)) hnodv'.1
                  · rcases List.mem_cons.mp hm with he | hm
                    · exact absurd he hx2
                    · exact absurd (List.mem_append.mpr (Or.inr hm)) hnodv'.1
              · rw [if_neg hxv, hinv.flags x, hvals_shape]
                constructor
                · intro hm
                  rcases List.mem_append.mp hm with hm | hm
                  · exact List.mem_append.mpr (Or.inl hm)
                  · rcases List.mem_cons.mp hm with he | hm
                    · exact absurd he hxv
                    · exact List.mem_append.mpr
                        (Or.inr (List.mem_cons_of_mem _ hm))
                · intro hm
                  rcases List.mem_append.mp hm with hm | hm
                  · exact List.mem_append.mpr (Or.inl hm)
                  · rcases List.mem_cons.mp hm with he | hm
                    · exact absurd he hx2
                    · exact List.mem_append.mpr
                        (Or.inr (List.mem_cons_of_mem _ hm))
          · intro u hu
            rw [hvals3_shape] at hu
            rcases List.mem_append.mp hu with hm | hm
            · exact hDuns u hm
            · rcases List.mem_cons.mp hm with he | hm
              · rw [he]; exact hd2
              · exact hTuns u hm
          · intro x hx
            rw [← hac] at hx
            exact hinv.slots_lt x hx
          · intro u hu
            rw [hvals3_shape] at hu
            rcases List.mem_append.mp hu with hm | hm
            · exact hinv.vals_lt u (by
                rw [hvals_shape]; exact List.mem_append.mpr (Or.inl hm))
            · rcases List.mem_cons.mp hm with he | hm
              · rw [he]; exact hv2lt
              · exact hinv.vals_lt u (by
                  rw [hvals_shape]
                  exact List.mem_append.mpr (Or.inr (List.mem_cons_of_mem _ hm)))
        rcases hgl : done.getLast? with _ | l
        · -- state head is re-pointed at the republished node (a no-op)
          have hdone_nil : done = [] := List.getLast?_eq_none_iff.mp hgl
          subst hdone_nil
          have hfk : s.first_used = some k := hlinkD
          rw [update_loop_eq_keep_none hg hdrop']
          have hinv3' : ListInv n f3 (some k) (([] ++ [k]) ++ todo') := by
            rw [← hfk]
            exact hinv3
          obtain ⟨kept, hsub, hI, hV, hN, hO, hL⟩ :=
            ih ([] ++ [k]) f'
              { s with used_list := f3, first_used := some k }
              hfuel' hinv3'
          rw [List.getLast?_concat, ← hnxt_head] at hI hV hN hO hL
          refine ⟨k :: kept, ?_, ?_, ?_, ?_, hO, hL⟩
          · intro x hx
            rcases List.mem_cons.mp hx with he | hx
            · rw [he]; exact List.mem_cons_self _ _
            · exact List.mem_cons_of_mem _ (hsub x hx)
          · have : ([] : List Nat) ++ k :: kept = ([] ++ [k]) ++ kept := by simp
            rw [this]
            exact hI
          · have : ([] : List Nat) ++ k :: kept = ([] ++ [k]) ++ kept := by simp
            rw [this, hV]
            show spec_update n op1 op2 (values f3 ([] ++ [k])) (values f3 todo') = _
            have hvd : values f3 ([] ++ [k]) = values f [] ++ [v2] := by
              show values f3 [k] = _
              rw [values]
              simp [hf3_pat, values]
            rw [hvd, hvalsT3, hspec_eq]
          · rw [hN, hspec_eq]
            show s.num_unsorted - ((([] ++ [k]) ++ todo').length : Int) + _ = _
            have hvd : values f3 ([] ++ [k]) = values f [] ++ [v2] := by
              show values f3 [k] = _
              rw [values]
              simp [hf3_pat, values]
            rw [hvd, hvalsT3]
            have hlen : ((([] ++ [k]) ++ todo').length : Int)
                = ((([] : List Nat) ++ k :: todo').length : Int) := by
              push_cast [List.length_append, List.length_cons, List.length_nil]
              ring
            rw [hlen]
        · -- predecessor next pointer rewritten with its current value  (no-op)
          obtain ⟨D0, rfl⟩ := List.getLast?_eq_some_iff.mp hgl
          obtain ⟨m2, hD0, hLl⟩ := links_append_elim hlinkD
          have hm2l : m2 = some l := hLl.1
          have hlnext : (f l).next = some k := hLl.2
          subst hm2l
          rw [update_loop_eq_keep_some hg hdrop']
          have hsetnext : setNext f3 l (some k) = f3 :=
            setNext_self (by rw [hf3_next]; exact hlnext)
          rw [hsetnext]
          obtain ⟨kept, hsub, hI, hV, hN, hO, hL⟩ :=
            ih ((D0 ++ [l]) ++ [k]) f'
              { s with used_list := f3 }
              hfuel' (by
                have : (((D0 ++ [l]) ++ [k]) ++ todo')
                    = ((D0 ++ [l]) ++ [k]) ++ todo' := rfl
                exact hinv3)
          rw [List.getLast?_concat, ← hnxt_head] at hI hV hN hO hL
          refine ⟨k :: kept, ?_, ?_, ?_, ?_, hO, hL⟩
          · intro x hx
            rcases List.mem_cons.mp hx with he | hx
            · rw [he]; exact List.mem_cons_self _ _
            · exact List.mem_cons_of_mem _ (hsub x hx)
          · have : (D0 ++ [l]) ++ k :: kept = ((D0 ++ [l]) ++ [k]) ++ kept := by
              simp
            rw [this]
            exact hI
          · have : (D0 ++ [l]) ++ k :: kept = ((D0 ++ [l]) ++ [k]) ++ kept := by
              simp
            rw [this, hV]
            show spec_update n op1 op2 (values f3 ((D0 ++ [l]) ++ [k]))
                (values f3 todo') = _
            have hvd : values f3 ((D0 ++ [l]) ++ [k])
                = values f (D0 ++ [l]) ++ [v2] := by
              rw [values_append, hvalsDone3]
              have : values f3 [k] = [v2] := by
                rw [values]
                simp [hf3_pat]
              rw [this]
            rw [hvd, hvalsT3, hspec_eq]
          · rw [hN, hspec_eq]
            show s.num_unsorted - ((((D0 ++ [l]) ++ [k]) ++ todo').length : Int)
                + _ = _
            have hvd : values f3 ((D0 ++ [l]) ++ [k])
                = values f (D0 ++ [l]) ++ [v2] := by
              rw [values_append, hvalsDone3]
              have : values f3 [k] = [v2] := by
                rw [values]
                simp [hf3_pat]
              rw [this]
            rw [hvd, hvalsT3]
            have hlen : (((((D0 ++ [l]) ++ [k]) ++ todo')).length : Int)
                = ((((D0 ++ [l]) ++ k :: todo')).length : Int) := by
              push_cast [List.length_append, List.length_cons, List.length_nil]
              ring
            rw [hlen]
    · -- unaffected: the node is kept unchanged
      have hg' : (!v.testBit op1 && v.testBit op2) = false :=
        Bool.eq_false_iff.mpr hg
      have hspec_eq : spec_update n op1 op2 (values f done) (values f (k :: todo'))
          = spec_update n op1 op2 (values f done ++ [v]) (values f todo') := by
        rw [hvalsT, spec_update_cons, if_neg (by simp [hg'])]
      rw [update_loop_eq_unaffected hg']
      have hinv' : ListInv n f s.first_used ((done ++ [k]) ++ todo') := by
        rw [← hac]
        exact ⟨hlink, hnods, hinv.nodup_vals, hinv.flags, hinv.vals_unsorted,
          hinv.slots_lt, hinv.vals_lt⟩
      obtain ⟨kept, hsub, hI, hV, hN, hO, hL⟩ :=
        ih (done ++ [k]) f' s hfuel' hinv'
      rw [List.getLast?_concat, ← hnxt_head] at hI hV hN hO hL
      refine ⟨k :: kept, ?_, ?_, ?_, ?_, hO, hL⟩
      · intro x hx
        rcases List.mem_cons.mp hx with he | hx
        · rw [he]; exact List.mem_cons_self _ _
        · exact List.mem_cons_of_mem _ (hsub x hx)
      · have : done ++ k :: kept = (done ++ [k]) ++ kept := by simp
        rw [this]
        exact hI
      · have : done ++ k :: kept = (done ++ [k]) ++ kept := by simp
        rw [this, hV]
        have hvd : values f (done ++ [k]) = values f done ++ [v] := by
          rw [values_append]
          rfl
        rw [hvd, hspec_eq]
      · rw [hN, hspec_eq]
        have hvd : values f (done ++ [k]) = values f done ++ [v] := by
          rw [values_append]
          rfl
        rw [hvd]
        have hlen : (((done ++ [k]) ++ todo').length : Int)
            = ((done ++ k :: todo').length : Int) := by
          push_cast [List.length_append, List.length_cons, List.length_nil]
          ring
        rw [hlen]

/-- Invariant of the set_start_state scan after the first m patterns. -/
lemma set_start_scan_inv (n : Nat) : ∀ m,
    links (set_start_scan n m).1 (set_start_scan n m).2
      (((List.range m).filter (fun i => !is_sorted n i)).reverse) none ∧
    (∀ x, ((set_start_scan n m).1 x).in_list = true ↔
      (x < m ∧ is_sorted n x = false)) ∧
    (∀ k, k < m → is_sorted n k = false →
      ((set_start_scan n m).1 k).bit_pattern = k) := by
  intro m
  induction m with
  | zero =>
    refine ⟨rfl, ?_, ?_⟩
    · intro x
      constructor
      · intro h
        exact absurd h (by simp [set_start_scan, default])
      · rintro ⟨h, _⟩
        exact absurd h (by omega)
    · intro k hk
      exact absurd hk (by omega)
  | succ m ih =>
    obtain ⟨ihl, ihf, ihp⟩ := ih
    have hunfold : set_start_scan n (m + 1)
        = set_start_step n (set_start_scan n m) m := by
      rw [set_start_scan, set_start_scan, List.range_succ, List.foldl_append]
      rfl
    have hslots_lt : ∀ k ∈ ((List.range m).filter
        (fun i => !is_sorted n i)).reverse, k < m := by
      intro k hk
      rw [List.mem_reverse] at hk
      exact List.mem_range.mp (List.mem_filter.mp hk).1
    by_cases hs : is_sorted n m
    · have hstep : set_start_scan n (m + 1)
          = (setFlag (set_start_scan n m).1 m false, (set_start_scan n m).2) := by
        rw [hunfold, set_start_step, if_pos hs]
      have hfilter : (List.range (m + 1)).filter (fun i => !is_sorted n i)
          = (List.range m).filter (fun i => !is_sorted n i) := by
        rw [List.range_succ, List.filter_append]
        simp [hs]
      rw [hstep, hfilter]
      refine ⟨?_, ?_, ?_⟩
      · exact links_congr (fun k _ => setFlag_next _ _ _ _) ihl
      · intro x
        rw [setFlag_in_list]
        by_cases hx : x = m
        · subst hx
          simp only [if_pos rfl]
          constructor
          · intro h; cases h
          · rintro ⟨_, hu⟩
            rw [hs] at hu; cases hu
        · rw [if_neg hx, ihf x]
          constructor
          · rintro ⟨h1, h2⟩; exact ⟨by omega, h2⟩
          · rintro ⟨h1, h2⟩
            refine ⟨?_, h2⟩
            rcases Nat.lt_succ_iff_lt_or_eq.mp h1 with h | h
            · exact h
            · exact absurd h hx
      · intro k hk hku
        rw [setFlag_bit_pattern]
        have hkm : k ≠ m := by
          intro he; rw [he, hs] at hku; cases hku
        exact ihp k (by omega) hku
    · have hsu : is_sorted n m = false := Bool.eq_false_iff.mpr hs
      have hstep : set_start_scan n (m + 1)
          = (upd (set_start_scan n m).1 m
              (fun _ => ⟨true, m, (set_start_scan n m).2⟩), some m) := by
        rw [hunfold, set_start_step, if_neg hs]
      have hfilter : ((List.range (m + 1)).filter (fun i => !is_sorted n i)).reverse
          = m :: ((List.range m).filter (fun i => !is_sorted n i)).reverse := by
        rw [List.range_succ, List.filter_append]
        simp [hsu]
      rw [hstep, hfilter]
      dsimp only
      have hupd_at : (upd (set_start_scan n m).1 m
          (fun _ => ⟨true, m, (set_start_scan n m).2⟩)) m
          = ⟨true, m, (set_start_scan n m).2⟩ := by
        rw [upd]; simp
      have hupd_ne : ∀ x, x ≠ m → (upd (set_start_scan n m).1 m
          (fun _ => ⟨true, m, (set_start_scan n m).2⟩)) x
          = (set_start_scan n m).1 x := by
        intro x hx
        rw [upd, if_neg hx]
      refine ⟨?_, ?_, ?_⟩
      · refine ⟨rfl, ?_⟩
        rw [hupd_at]
        refine links_congr (fun k hk => ?_) ihl
        rw [hupd_ne k (by have := hslots_lt k hk; omega)]
      · intro x
        by_cases hx : x = m
        · subst hx
          rw [hupd_at]
          simp [hsu]
        · rw [hupd_ne x hx, ihf x]
          constructor
          · rintro ⟨h1, h2⟩; exact ⟨by omega, h2⟩
          · rintro ⟨h1, h2⟩
            refine ⟨?_, h2⟩
            rcases Nat.lt_succ_iff_lt_or_eq.mp h1 with h | h
            · exact h
            · exact absurd h hx
      · intro k hk hku
        by_cases hx : k = m
        · subst hx; rw [hupd_at]
        · rw [hupd_ne k hx]
          exact ihp k (by omega) hku

/-- There are exactly n+1 sorted n-bit patterns. -/
lemma card_sorted_patterns (n : Nat) :
    ((Finset.range (2 ^ n)).filter (fun p => is_sorted n p = true)).card = n + 1 := by
  have himg : (Finset.range (2 ^ n)).filter (fun p => is_sorted n p = true)
      = (Finset.range (n + 1)).image (fun a => 2 ^ a - 1) := by
    ext p
    simp only [Finset.mem_filter, Finset.mem_image, Finset.mem_range]
    constructor
    · rintro ⟨hp, hs⟩
      obtain ⟨a, han, rfl⟩ := (check_sorted_iff_pow hp).mp hs
      exact ⟨a, by omega, rfl⟩
    · rintro ⟨a, han, rfl⟩
      have haln : a ≤ n := by omega
      have hle : (2 : ℕ) ^ a ≤ 2 ^ n :=
        Nat.pow_le_pow_right (by omega) haln
      have hone : (1 : ℕ) ≤ 2 ^ a := Nat.one_le_two_pow
      have hlt : 2 ^ a - 1 < 2 ^ n := by omega
      exact ⟨hlt, (check_sorted_iff_pow hlt).mpr ⟨a, haln, rfl⟩⟩
  rw [himg, Finset.card_image_of_injective, Finset.card_range]
  intro a b hab
  simp only at hab
  have h1 : (1 : ℕ) ≤ 2 ^ a := Nat.one_le_two_pow
  have h2 : (1 : ℕ) ≤ 2 ^ b := Nat.one_le_two_pow
  have : (2 : ℕ) ^ a = 2 ^ b := by omega
  exact Nat.pow_right_injective (by omega) this

/-- The number of unsorted n-bit patterns as counted by the start scan. -/
lemma length_start_slots (n : Nat) :
    (((List.range (2 ^ n)).filter (fun i => !is_sorted n i)).length : Int)
      = (2 ^ n : Int) - (n + 1) := by
  have hnodup : ((List.range (2 ^ n)).filter (fun i => !is_sorted n i)).Nodup :=
    (List.nodup_range _).filter _
  have htofin : ((List.range (2 ^ n)).filter (fun i => !is_sorted n i)).toFinset
      = (Finset.range (2 ^ n)).filter (fun p => ¬is_sorted n p = true) := by
    ext x
    rw [List.mem_toFinset, List.mem_filter, List.mem_range,
      Finset.mem_filter, Finset.mem_range]
    simp
  have hlen : ((List.range (2 ^ n)).filter (fun i => !is_sorted n i)).length
      = ((Finset.range (2 ^ n)).filter (fun p => ¬is_sorted n p = true)).card := by
    rw [← htofin, List.toFinset_card_of_nodup hnodup]
  rw [hlen]
  have hsplit := Finset.filter_card_add_filter_neg_card_eq_card
    (s := Finset.range (2 ^ n)) (p := fun p => is_sorted n p = true)
  rw [Finset.card_range] at hsplit
  have hc := card_sorted_patterns n
  have hge : n + 1 ≤ 2 ^ n := by
    have h1 := card_sorted_patterns n
    have h2 := Finset.card_filter_le (Finset.range (2 ^ n))
      (fun p => is_sorted n p = true)
    rw [h1, Finset.card_range] at h2
    exact h2
  have hpow : ((2 ^ n : Nat) : Int) = (2 ^ n : Int) := by push_cast; ring
  omega

/-- The top-level state invariant: some duplicate-free slot list realises the
linked list, and num_unsorted counts it. -/
def StateInv (n : Nat) (s : SNState) : Prop :=
  ∃ slots, ListInv n s.used_list s.first_used slots ∧
    s.num_unsorted = (slots.length : Int)

/-- The start state satisfies the invariant, with each unsorted pattern stored
at its own slot. -/
lemma set_start_state_inv (n : Nat) :
    ∃ slots, ListInv n (set_start_state n).used_list
        (set_start_state n).first_used slots ∧
      (set_start_state n).num_unsorted = (slots.length : Int) ∧
      values (set_start_state n).used_list slots = slots ∧
      (∀ x, x ∈ slots ↔ x < 2 ^ n ∧ is_sorted n x = false) := by
  obtain ⟨hl, hf, hp⟩ := set_start_scan_inv n (2 ^ n)
  set slots := ((List.range (2 ^ n)).filter (fun i => !is_sorted n i)).reverse
    with hslots
  have hmem : ∀ x, x ∈ slots ↔ x < 2 ^ n ∧ is_sorted n x = false := by
    intro x
    rw [hslots, List.mem_reverse, List.mem_filter, List.mem_range]
    simp
  have hvals : values (set_start_scan n (2 ^ n)).1 slots = slots := by
    show slots.map (fun k => ((set_start_scan n (2 ^ n)).1 k).bit_pattern) = slots
    conv_rhs => rw [← List.map_id slots]
    apply List.map_congr_left
    intro k hk
    obtain ⟨hk1, hk2⟩ := (hmem k).mp hk
    exact hp k hk1 hk2
  refine ⟨slots, ⟨hl, ?_, ?_, ?_, ?_, ?_, ?_⟩, ?_, hvals, hmem⟩
  · exact List.nodup_reverse.mpr ((List.nodup_range _).filter _)
  · show (values (set_start_scan n (2 ^ n)).1 slots).Nodup
    rw [hvals]
    exact List.nodup_reverse.mpr ((List.nodup_range _).filter _)
  · intro x
    show ((set_start_scan n (2 ^ n)).1 x).in_list = true ↔
      x ∈ values (set_start_scan n (2 ^ n)).1 slots
    rw [hf x, hvals, hmem x]
  · intro u hu
    have hu2 : u ∈ values (set_start_scan n (2 ^ n)).1 slots := hu
    rw [hvals] at hu2
    exact ((hmem u).mp hu2).2
  · intro k hk
    exact ((hmem k).mp hk).1
  · intro u hu
    have hu2 : u ∈ values (set_start_scan n (2 ^ n)).1 slots := hu
    rw [hvals] at hu2
    exact ((hmem u).mp hu2).1
  · show (2 ^ n : Int) - (n + 1) = (slots.length : Int)
    rw [hslots, List.length_reverse]
    rw [length_start_slots n]

/-- A duplicate-free list of numbers below 2^n has at most 2^n entries. -/
lemma length_le_of_nodup_lt {slots : List Nat} {n : Nat}
    (hnd : slots.Nodup) (hlt : ∀ k ∈ slots, k < 2 ^ n) :
    slots.length ≤ 2 ^ n := by
  have hsub : slots.toFinset ⊆ Finset.range (2 ^ n) := by
    intro x hx
    rw [List.mem_toFinset] at hx
    rw [Finset.mem_range]
    exact hlt x hx
  have := Finset.card_le_card hsub
  rw [List.toFinset_card_of_nodup hnd, Finset.card_range] at this
  exact this

/-- Top-level effect of update_state on a state satisfying the invariant. -/
lemma update_state_inv {n op1 op2 : Nat} (h1n : op1 < n) (hne : op1 ≠ op2)
    {s : SNState} {slots : List Nat}
    (hinv : ListInv n s.used_list s.first_used slots)
    (hnum : s.num_unsorted = (slots.length : Int)) :
    ∃ slots',
      ListInv n (update_state n op1 op2 s).used_list
        (update_state n op1 op2 s).first_used slots' ∧
      (update_state n op1 op2 s).num_unsorted = (slots'.length : Int) ∧
      values (update_state n op1 op2 s).used_list slots'
        = spec_update n op1 op2 [] (values s.used_list slots) ∧
      (update_state n op1 op2 s).operations
        = s.operations ++ [⟨op1, op2⟩] ∧
      (update_state n op1 op2 s).current_level = s.current_level + 1 := by
  have hlen : slots.length ≤ 2 ^ n :=
    length_le_of_nodup_lt hinv.nodup_slots hinv.slots_lt
  obtain ⟨kept, hsub, hI, hV, hN, hO, hL⟩ :=
    update_loop_inv h1n hne slots [] (2 ^ n + 1) s (by omega)
      (by simpa using hinv)
  have hfu : s.first_used = slots.head? := links_head_eq hinv.link
  rw [List.getLast?_nil, ← hfu] at hI hV hN hO hL
  refine ⟨kept, ?_, ?_, ?_, ?_, ?_⟩
  · show ListInv n (update_loop n op1 op2 (2 ^ n + 1) s.first_used none s).used_list
        (update_loop n op1 op2 (2 ^ n + 1) s.first_used none s).first_used kept
    simpa using hI
  · show (update_loop n op1 op2 (2 ^ n + 1) s.first_used none s).num_unsorted
        = (kept.length : Int)
    rw [hN]
    have hkl : kept.length
        = (spec_update n op1 op2 (values s.used_list [])
            (values s.used_list slots)).length := by
      have := congrArg List.length hV
      simpa [values, List.length_map] using this
    rw [hnum, ← hkl]
    simp [values, List.length_map]
  · show values (update_loop n op1 op2 (2 ^ n + 1) s.first_used none s).used_list
        kept = _
    have h0 : values s.used_list [] = [] := rfl
    rw [← h0]
    simpa using hV
  · show (update_loop n op1 op2 (2 ^ n + 1) s.first_used none s).operations
        ++ [⟨op1, op2⟩] = s.operations ++ [⟨op1, op2⟩]
    rw [hO]
  · show (update_loop n op1 op2 (2 ^ n + 1) s.first_used none s).current_level + 1
        = s.current_level + 1
    rw [hL]

lemma apply_net_append_one (O : List Operation) (op : Operation) (p : Nat) :
    apply_net (O ++ [op]) p = comp_exchange op.op1 op.op2 (apply_net O p) := by
  rw [apply_net, List.foldl_append]
  rfl

lemma apply_net_lt_two_pow {n : Nat} {O : List Operation}
    (hops : ∀ op ∈ O, op.op1 < n) {p : Nat} (hp : p < 2 ^ n) :
    apply_net O p < 2 ^ n := by
  induction O generalizing p with
  | nil => exact hp
  | cons op O ih =>
    show apply_net O (comp_exchange op.op1 op.op2 p) < 2 ^ n
    exact ih (fun o ho => hops o (List.mem_cons_of_mem _ ho))
      (comp_exchange_lt_two_pow hp (hops op (List.mem_cons_self _ _)))

/-- Replaying a comparator sequence from the start state. -/
def replay (n : Nat) (O : List Operation) : SNState :=
  O.foldl (fun s op => update_state n op.op1 op.op2 s) (set_start_state n)

lemma replay_append_one (n : Nat) (O : List Operation) (op : Operation) :
    replay n (O ++ [op]) = update_state n op.op1 op.op2 (replay n O) := by
  rw [replay, List.foldl_append]
  rfl

/-- Semantic invariant of a replayed state: the stored values are exactly the
unsorted images of the binary patterns under the comparator sequence. -/
lemma replay_inv {n : Nat} {O : List Operation}
    (hops : ∀ op ∈ O, op.op1 < op.op2 ∧ op.op2 < n) :
    ∃ slots, ListInv n (replay n O).used_list (replay n O).first_used slots ∧
      (replay n O).num_unsorted = (slots.length : Int) ∧
      (∀ x, x ∈ values (replay n O).used_list slots ↔
        ((∃ p, p < 2 ^ n ∧ apply_net O p = x) ∧ is_sorted n x = false)) ∧
      (replay n O).operations = O ∧
      (replay n O).current_level = O.length := by
  induction O using List.reverseRecOn with
  | nil =>
    obtain ⟨slots, hinv, hnum, hvals, hmem⟩ := set_start_state_inv n
    refine ⟨slots, hinv, hnum, ?_, rfl, rfl⟩
    intro x
    show x ∈ values (set_start_state n).used_list slots ↔ _
    rw [hvals, hmem x]
    constructor
    · rintro ⟨h1, h2⟩
      exact ⟨⟨x, h1, rfl⟩, h2⟩
    · rintro ⟨⟨p, hp, hpx⟩, h2⟩
      have : apply_net [] p = p := rfl
      rw [this] at hpx
      exact ⟨hpx ▸ hp, h2⟩
  | append_singleton O op ih =>
    have hops' : ∀ o ∈ O, o.op1 < o.op2 ∧ o.op2 < n :=
      fun o ho => hops o (List.mem_append.mpr (Or.inl ho))
    have hop := hops op (List.mem_append.mpr (Or.inr (List.mem_singleton.mpr rfl)))
    have h1n : op.op1 < n := by omega
    have hne : op.op1 ≠ op.op2 := by omega
    obtain ⟨slots, hinv, hnum, hmem, hO, hL⟩ := ih hops'
    obtain ⟨slots', hinv', hnum', hvals', hO', hL'⟩ :=
      update_state_inv h1n hne hinv hnum
    rw [replay_append_one]
    refine ⟨slots', hinv', hnum', ?_, ?_, ?_⟩
    · intro x
      rw [hvals']
      rw [spec_update_mem hne (values (replay n O).used_list slots) []
        (fun v hv => hinv.vals_unsorted v hv) x]
      simp only [List.not_mem_nil, false_or]
      constructor
      · rintro ⟨⟨v, hv, hvx⟩, hx⟩
        obtain ⟨⟨p, hp, hpv⟩, hvu⟩ := (hmem v).mp hv
        refine ⟨⟨p, hp, ?_⟩, hx⟩
        rw [apply_net_append_one, hpv, hvx]
      · rintro ⟨⟨p, hp, hpx⟩, hx⟩
        rw [apply_net_append_one] at hpx
        set v := apply_net O p with hv
        have hvlt : v < 2 ^ n :=
          apply_net_lt_two_pow (fun o ho => (hops' o ho).1.trans (hops' o ho).2) hp
        rcases Bool.dichotomy (is_sorted n v) with hvs | hvs
        · refine ⟨⟨v, (hmem v).mpr ⟨⟨p, hp, rfl⟩, hvs⟩, hpx⟩, hx⟩
        · exfalso
          have hfix : comp_exchange op.op1 op.op2 v = v :=
            comp_exchange_sorted_fixed hvlt hvs (by omega)
          rw [hfix] at hpx
          rw [← hpx] at hx
          show False
          rw [hvs] at hx
          cases hx
    · rw [hO', hO]
    · rw [hL', hL, List.length_append, List.length_cons, List.length_nil]

/-- Claim C1 theorem. -/
theorem terminal_correctness_zero_one {n : Nat} {O : List Operation}
    (hops : ∀ op ∈ O, op.op1 < op.op2 ∧ op.op2 < n) :
    ((replay n O).num_unsorted = 0 ↔
      ∀ p, p < 2 ^ n → check_sorted (apply_net O p) n = true) ∧
    ((∀ p, p < 2 ^ n → check_sorted (apply_net O p) n = true) ↔
      ∀ w : Nat → Int, sorted_vec n (apply_net_vec O w)) := by
  constructor
  · obtain ⟨slots, hinv, hnum, hmem, _, _⟩ := replay_inv hops
    constructor
    · intro h0 p hp
      rcases Bool.dichotomy (check_sorted (apply_net O p) n) with hs | hs
      · exfalso
        have hx : apply_net O p ∈ values (replay n O).used_list slots :=
          (hmem _).mpr ⟨⟨p, hp, rfl⟩, hs⟩
        rw [hnum] at h0
        have hlen : slots.length = 0 := by exact_mod_cast h0
        rw [List.length_eq_zero.mp hlen] at hx
        cases hx
      · exact hs
    · intro hall
      rw [hnum]
      have hnil : slots = [] := by
        cases hsl : slots with
        | nil => rfl
        | cons a l =>
          exfalso
          have hv : (values (replay n O).used_list (a :: l)) =
              ((replay n O).used_list a).bit_pattern ::
                values (replay n O).used_list l := values_cons ..
          have hx : ((replay n O).used_list a).bit_pattern
              ∈ values (replay n O).used_list slots := by
            rw [hsl, hv]
            exact List.mem_cons_self _ _
          obtain ⟨⟨p, hp, hpx⟩, hxu⟩ := (hmem _).mp hx
          have hth := hall p hp
          rw [hpx] at hth
          have hxu2 : check_sorted ((replay n O).used_list a).bit_pattern n
              = false := hxu
          rw [hth] at hxu2
          cases hxu2
      rw [hnil]
      rfl
  · exact zero_one_principle hops

/-- Witness for the C1 theorem at a concrete instance. -/
theorem terminal_correctness_zero_one_witness :
    (∀ op ∈ [(⟨0, 1⟩ : Operation)], op.op1 < op.op2 ∧ op.op2 < 2) ∧
    (((replay 2 [⟨0, 1⟩]).num_unsorted = 0 ↔
      ∀ p, p < 2 ^ 2 → check_sorted (apply_net [⟨0, 1⟩] p) 2 = true) ∧
    ((∀ p, p < 2 ^ 2 → check_sorted (apply_net [⟨0, 1⟩] p) 2 = true) ↔
      ∀ w : Nat → Int, sorted_vec 2 (apply_net_vec [⟨0, 1⟩] w))) :=
  ⟨by decide, terminal_correctness_zero_one (by decide)⟩

/-- Characterization of a successful random transition. -/
lemma do_random_transition_some_eq {n r1 r2 : Nat} {s s' : SNState}
    (h : do_random_transition n r1 r2 s = some s') :
    ∃ v op, op ∈ allowed_ops n v ∧ s' = update_state n op.op1 op.op2 s := by
  simp only [do_random_transition] at h
  split at h
  · cases h
  · rename_i ti hw
    split at h
    · cases h
    · rename_i op hget
      refine ⟨ti, op, ?_, ?_⟩
      · exact List.get?_mem hget
      · injection h with h2
        rw [h2]

/-- Every reachable state satisfies the list invariant. -/
lemma reachable_inv {n : Nat} {s : SNState} (h : Reachable n s) : StateInv n s := by
  induction h with
  | start =>
    obtain ⟨slots, hinv, hnum, _, _⟩ := set_start_state_inv n
    exact ⟨slots, hinv, hnum⟩
  | @step_update s0 op1 op2 hr h12 h2n ih =>
    obtain ⟨slots, hinv, hnum⟩ := ih
    obtain ⟨slots', hi, hn, _, _, _⟩ :=
      update_state_inv (show op1 < n by omega) (show op1 ≠ op2 by omega) hinv hnum
    exact ⟨slots', hi, hn⟩
  | step_random hr heq ih =>
    obtain ⟨slots, hinv, hnum⟩ := ih
    obtain ⟨v, op, hmem, rfl⟩ := do_random_transition_some_eq heq
    cases op with
    | mk i j =>
      rw [mem_allowed_ops] at hmem
      obtain ⟨slots', hi, hn, _, _, _⟩ :=
        update_state_inv (show i < n by omega) (show i ≠ j by omega) hinv hnum
      exact ⟨slots', hi, hn⟩

/-- Claim C2 counterexample: after [(1,2),(0,1)] on 3 wires, the list is the
single node at slot 6 (holding pattern 5), and that listed slot has
in_list = 0: the flag lives at the slot indexed by the stored value, not at
the node's own slot. -/
theorem listed_slot_flag_counterexample :
    Reachable 3 (replay 3 [⟨1, 2⟩, ⟨0, 1⟩]) ∧
    links (replay 3 [⟨1, 2⟩, ⟨0, 1⟩]).used_list
      (replay 3 [⟨1, 2⟩, ⟨0, 1⟩]).first_used [6] none ∧
    ¬(∀ k ∈ [6], ((replay 3 [⟨1, 2⟩, ⟨0, 1⟩]).used_list k).in_list = true) := by
  refine ⟨?_, ⟨?_, ?_⟩, ?_⟩
  · exact @Reachable.step_update 3 (update_state 3 1 2 (set_start_state 3)) 0 1
      (@Reachable.step_update 3 (set_start_state 3) 1 2 Reachable.start
        (by omega) (by omega))
      (by omega) (by omega)
  · rfl
  · show ((replay 3 [⟨1, 2⟩, ⟨0, 1⟩]).used_list 6).next = none
    rfl
  · intro hc
    have h6 := hc 6 (List.mem_cons_self _ _)
    exact absurd h6 (by decide)

/-- Claim C2 (amended) theorem: in every reachable state the reachable nodes
count num_unsorted, the head is END_OF_LIST exactly when num_unsorted = 0,
every stored pattern value is unsorted and has its in_list flag (at the slot
indexed by that value) set, and no pattern value appears twice. -/
theorem state_invariants_amended {n : Nat} {s : SNState} (h : Reachable n s) :
    ∃ slots, links s.used_list s.first_used slots none ∧
      s.num_unsorted = (slots.length : Int) ∧
      (s.first_used = none ↔ s.num_unsorted = 0) ∧
      (∀ v ∈ values s.used_list slots, (s.used_list v).in_list = true ∧
        is_sorted n v = false) ∧
      (values s.used_list slots).Nodup := by
  obtain ⟨slots, hinv, hnum⟩ := reachable_inv h
  refine ⟨slots, hinv.link, hnum, ?_, ?_, hinv.nodup_vals⟩
  · have hhead : s.first_used = slots.head? := links_head_eq hinv.link
    constructor
    · intro hf
      have hnil : slots = [] := by
        cases hsl : slots with
        | nil => rfl
        | cons a l =>
          rw [hsl] at hhead
          rw [hf] at hhead
          cases hhead
      rw [hnum, hnil]
      rfl
    · intro h0
      rw [hnum] at h0
      have hlen : slots.length = 0 := by exact_mod_cast h0
      rw [List.length_eq_zero.mp hlen] at hhead
      exact hhead
  · intro v hv
    exact ⟨(hinv.flags v).mpr hv, hinv.vals_unsorted v hv⟩

/-- Witness for the amended C2 theorem at the start state on 2 wires. -/
theorem state_invariants_amended_witness :
    ∃ slots, links (set_start_state 2).used_list (set_start_state 2).first_used
        slots none ∧
      (set_start_state 2).num_unsorted = (slots.length : Int) ∧
      ((set_start_state 2).first_used = none ↔
        (set_start_state 2).num_unsorted = 0) ∧
      (∀ v ∈ values (set_start_state 2).used_list slots,
        ((set_start_state 2).used_list v).in_list = true ∧
          is_sorted 2 v = false) ∧
      (values (set_start_state 2).used_list slots).Nodup :=
  state_invariants_amended Reachable.start

lemma rand_int_range (r : Nat) (k : Int) (hk : 0 ≤ k) :
    0 ≤ rand_int r k ∧ rand_int r k ≤ k := by
  rw [rand_int]
  split
  · constructor
    · omega
    · exact hk
  · rename_i hgt
    have hmod : r % (k.toNat + 1) < k.toNat + 1 := Nat.mod_lt _ (by omega)
    constructor
    · exact Int.ofNat_nonneg _
    · omega

lemma walk_nth_step (f : Nat → ListElement) (fuel i cnt target : Nat) :
    walk_nth f (fuel + 1) (some i) cnt target =
      if cnt = target then some (f i).bit_pattern
      else walk_nth f fuel (f i).next (cnt + 1) target := rfl

/-- The list walk of do_random_transition finds a stored value whenever the
target index is within the list. -/
lemma walk_nth_links {f : Nat → ListElement} :
    ∀ (slots : List Nat) (st : Option Nat) (fuel cnt target : Nat),
      links f st slots none → cnt ≤ target → target - cnt < slots.length →
      slots.length ≤ fuel →
      ∃ v, walk_nth f fuel st cnt target = some v ∧ v ∈ values f slots := by
  intro slots
  induction slots with
  | nil =>
    intro st fuel cnt target _ _ h3 _
    simp at h3
  | cons k rest ih =>
    intro st fuel cnt target hl hc ht hf
    obtain ⟨hst, hrest⟩ := hl
    obtain ⟨fl, rfl⟩ : ∃ fl, fuel = fl + 1 :=
      ⟨fuel - 1, by simp at hf; omega⟩
    rw [hst, walk_nth_step]
    by_cases hct : cnt = target
    · rw [if_pos hct]
      exact ⟨(f k).bit_pattern, rfl, List.mem_cons_self _ _⟩
    · rw [if_neg hct]
      have hlen : rest.length ≤ fl := by
        simp only [List.length_cons] at hf
        omega
    
      obtain ⟨v, hv, hvm⟩ := ih ((f k).next) fl (cnt + 1) target hrest
        (by omega) (by simp only [List.length_cons] at ht; omega) hlen
      exact ⟨v, hv, List.mem_cons_of_mem _ hvm⟩

/-- Claim C10 theorem: on reachable states with unsorted patterns left, the
random transition always stays in bounds and applies a valid comparator. -/
theorem random_transition_safe {n : Nat} {s : SNState} (h : Reachable n s)
    (hpos : 0 < s.num_unsorted) :
    (∀ (r : Nat) (k : Int), 0 ≤ k → 0 ≤ rand_int r k ∧ rand_int r k ≤ k) ∧
    (∃ slots, links s.used_list s.first_used slots none ∧
      (∀ v ∈ values s.used_list slots, allowed_ops n v ≠ [])) ∧
    (∀ r1 r2 : Nat, ∃ op : Operation, op.op1 < op.op2 ∧ op.op2 < n ∧
      do_random_transition n r1 r2 s
        = some (update_state n op.op1 op.op2 s)) := by
  obtain ⟨slots, hinv, hnum⟩ := reachable_inv h
  refine ⟨rand_int_range, ⟨slots, hinv.link, ?_⟩, ?_⟩
  · intro v hv
    exact allowed_ops_ne_nil_of_not_sorted (hinv.vals_unsorted v hv)
  · intro r1 r2
    have hlen1 : 1 ≤ slots.length := by
      rw [hnum] at hpos
      exact_mod_cast hpos
    have hk : (0 : Int) ≤ s.num_unsorted - 1 := by
      rw [hnum]
      have : (1 : Int) ≤ (slots.length : Int) := by exact_mod_cast hlen1
      omega
    obtain ⟨hr0, hr1⟩ := rand_int_range r1 (s.num_unsorted - 1) hk
    have htarget : (rand_int r1 (s.num_unsorted - 1)).toNat < slots.length := by
      omega
    have hfuel : slots.length ≤ 2 ^ n + 1 := by
      have := length_le_of_nodup_lt hinv.nodup_slots hinv.slots_lt
      omega
    obtain ⟨v, hwalk, hvm⟩ := walk_nth_links slots s.first_used (2 ^ n + 1) 0
      (rand_int r1 (s.num_unsorted - 1)).toNat hinv.link (by omega)
      (by omega) hfuel
    have hvu := hinv.vals_unsorted v hvm
    have hane : allowed_ops n v ≠ [] := allowed_ops_ne_nil_of_not_sorted hvu
    have halen : 1 ≤ (allowed_ops n v).length := by
      cases hal : allowed_ops n v with
      | nil => exact absurd hal hane
      | cons a l => simp
    have hk2 : (0 : Int) ≤ ((allowed_ops n v).length : Int) - 1 := by
      have : (1 : Int) ≤ ((allowed_ops n v).length : Int) := by exact_mod_cast halen
      omega
    obtain ⟨hs0, hs1⟩ := rand_int_range r2 (((allowed_ops n v).length : Int) - 1) hk2
    have hidx : (rand_int r2 (((allowed_ops n v).length : Int) - 1)).toNat
        < (allowed_ops n v).length := by omega
    have hget : (allowed_ops n v).get?
          (rand_int r2 (((allowed_ops n v).length : Int) - 1)).toNat
        = some ((allowed_ops n v).get ⟨_, hidx⟩) := List.get?_eq_get hidx
    have hopmem : (allowed_ops n v).get ⟨_, hidx⟩ ∈ allowed_ops n v :=
      List.get_mem _ _ _
    obtain ⟨h12, h2n, _, _⟩ := mem_allowed_ops.mp hopmem
    refine ⟨(allowed_ops n v).get ⟨_, hidx⟩, h12, h2n, ?_⟩
    show (match walk_nth s.used_list (2 ^ n + 1) s.first_used 0
        (rand_int r1 (s.num_unsorted - 1)).toNat with
      | none => none
      | some true_index =>
        match (allowed_ops n true_index).get?
            (rand_int r2 (((allowed_ops n true_index).length : Int) - 1)).toNat with
        | none => none
        | some op => some (update_state n op.op1 op.op2 s)) = _
    rw [hwalk]
    show (match (allowed_ops n v).get?
        (rand_int r2 (((allowed_ops n v).length : Int) - 1)).toNat with
      | none => none
      | some op => some (update_state n op.op1 op.op2 s)) = _
    rw [hget]

/-- Witness: the random-transition safety theorem instantiated at the start
state for n = 2, which has one unsorted pattern. -/
theorem random_transition_safe_witness :
    0 < (set_start_state 2).num_unsorted ∧
    ((∀ (r : Nat) (k : Int), 0 ≤ k → 0 ≤ rand_int r k ∧ rand_int r k ≤ k) ∧
     (∃ slots, links (set_start_state 2).used_list
         (set_start_state 2).first_used slots none ∧
       (∀ v ∈ values (set_start_state 2).used_list slots,
         allowed_ops 2 v ≠ [])) ∧
     (∀ r1 r2 : Nat, ∃ op : Operation, op.op1 < op.op2 ∧ op.op2 < 2 ∧
       do_random_transition 2 r1 r2 (set_start_state 2)
         = some (update_state 2 op.op1 op.op2 (set_start_state 2)))) :=
  ⟨by decide, random_transition_safe Reachable.start (by decide)⟩

/-- Claim C7 theorem: for n in [2, 32] and p < 2^n, is_sorted holds exactly on
patterns of the form 1^a 0^(n-a) (from the LSB), i.e. p = 2^a - 1, and
allowed_ops p is exactly the pairs (i, j) with i < j < n, bit i = 0,
bit j = 1. -/
theorem lookup_tables_correct {n p : Nat} (h2 : 2 ≤ n) (h32 : n ≤ 32)
    (hp : p < 2 ^ n) :
    (is_sorted n p = true ↔ ∃ a, a ≤ n ∧ p = 2 ^ a - 1) ∧
    (∀ op : Operation, op ∈ allowed_ops n p ↔
      op.op1 < op.op2 ∧ op.op2 < n ∧
      p.testBit op.op1 = false ∧ p.testBit op.op2 = true) := by
  constructor
  · exact check_sorted_iff_pow hp
  · intro op
    cases op with
    | mk i j => exact mem_allowed_ops

/-- Witness: the lookup-table characterisation instantiated at n = 2,
p = 2 (the single unsorted pattern on two wires). -/
theorem lookup_tables_correct_witness :
    (2 ≤ 2 ∧ 2 ≤ 32 ∧ 2 < 2 ^ 2) ∧
    ((is_sorted 2 2 = true ↔ ∃ a, a ≤ 2 ∧ 2 = 2 ^ a - 1) ∧
     (∀ op : Operation, op ∈ allowed_ops 2 2 ↔
       op.op1 < op.op2 ∧ op.op2 < 2 ∧
       Nat.testBit 2 op.op1 = false ∧ Nat.testBit 2 op.op2 = true)) :=
  ⟨by decide, lookup_tables_correct (by decide) (by decide) (by decide)⟩

/-- FNV-1a offset basis (src/src/normalization.h:17). -/
def FNV_OFFSET : Nat := 14695981039346656037

/-- FNV-1a prime (src/src/normalization.h:18). -/
def FNV_PRIME : Nat := 1099511628211

/-- fnv1a_hash (src/src/normalization.h:21-30): 64-bit FNV-1a over the op1,
op2 bytes of the first num_ops operations; uint64 overflow is the explicit
mod 2^64. -/
def fnv1a_hash (ops : List Operation) : Nat :=
  ops.foldl
    (fun h op =>
      let h1 := ((h ^^^ op.op1) * FNV_PRIME) % 2 ^ 64
      ((h1 ^^^ op.op2) * FNV_PRIME) % 2 ^ 64)
    FNV_OFFSET

/-- Point update of an integer-valued array, modelling `arr[i] += x`. -/
def bump (f : Nat → Int) (i : Nat) (x : Int) : Nat → Int :=
  fun b => if b = i then f b + x else f b

/-- compute_bus_degrees (src/src/normalization.h:36-43): degrees[op1]++ and
degrees[op2]++ for each operation, starting from all zeros. -/
def compute_bus_degrees (ops : List Operation) : Nat → Int :=
  ops.foldl (fun d op => bump (bump d op.op1 1) op.op2 1) (fun _ => 0)

/-- compute_neighbor_sums (src/src/normalization.h:47-55). -/
def compute_neighbor_sums (ops : List Operation) (d : Nat → Int) : Nat → Int :=
  ops.foldl (fun s op => bump (bump s op.op1 (d op.op2)) op.op2 (d op.op1))
    (fun _ => 0)

/-- The bus-selection scan inside compute_canonical_mapping
(src/src/normalization.h:79-94): returns (best_bus, best_degree,
best_neighbor_sum), initialised to (-1, -1, -1). -/
def select_best (d s : Nat → Int) (a : Nat → Bool) (net_size : Nat) :
    Int × Int × Int :=
  (List.range net_size).foldl
    (fun st bus =>
      if a bus then st
      else if d bus > st.2.1 ∨ (d bus = st.2.1 ∧ s bus > st.2.2) ∨
          (d bus = st.2.1 ∧ s bus = st.2.2 ∧ (st.1 = -1 ∨ (bus : Int) < st.1))
      then ((bus : Int), d bus, s bus)
      else st)
    (-1, -1, -1)

/-- Invalid-label marker the mapping array is filled with
(src/src/normalization.h:64).  Modelled from the spec: types.h is not under
src/, the mapping entries are uint8_t. -/
def INVALID_LABEL : Nat := 255

/-- One iteration of the greedy labelling loop of compute_canonical_mapping
(src/src/normalization.h:74-109): state is (mapping, assigned,
neighbor_sums).  After assigning best_bus, neighbor sums of its unassigned
neighbours drop by best_degree. -/
def canon_step (ops : List Operation) (d : Nat → Int) (net_size : Nat)
    (st : (Nat → Nat) × (Nat → Bool) × (Nat → Int)) (new_label : Nat) :
    (Nat → Nat) × (Nat → Bool) × (Nat → Int) :=
  let sel := select_best d st.2.2 st.2.1 net_size
  if 0 ≤ sel.1 then
    let best := sel.1.toNat
    let m := fun b => if b = best then new_label else st.1 b
    let a := fun b => if b = best then true else st.2.1 b
    let s := ops.foldl
      (fun t op =>
        if op.op1 = best ∧ a op.op2 = false then bump t op.op2 (-sel.2.1)
        else if op.op2 = best ∧ a op.op1 = false then bump t op.op1 (-sel.2.1)
        else t)
      st.2.2
    (m, a, s)
  else st

/-- compute_canonical_mapping (src/src/normalization.h:59-112). -/
def compute_canonical_mapping (ops : List Operation) (net_size : Nat) :
    Nat → Nat :=
  let d := compute_bus_degrees ops
  ((List.range net_size).foldl (canon_step ops d net_size)
    (fun _ => INVALID_LABEL, fun _ => false, compute_neighbor_sums ops d)).1

/-- apply_canonical_mapping (src/src/normalization.h:115-128): relabel both
wires and swap so that op1 < op2. -/
def apply_canonical_mapping (ops : List Operation) (m : Nat → Nat) :
    List Operation :=
  ops.map fun op =>
    let a := m op.op1
    let b := m op.op2
    if a > b then ⟨b, a⟩ else ⟨a, b⟩

/-- The inner collection scan of normalize_operation_order
(src/src/normalization.h:142-148): scan the WHOLE remaining suffix and grab
every operation whose wires are still free, exactly as the C++ loop
`for (j = i; j < num_ops; ++j)` does (it does not stop at the first
conflict). -/
def collect_layer (rest : List Operation) : List Operation :=
  (rest.foldl
    (fun (st : List Operation × (Nat → Bool)) op =>
      if st.2 op.op1 = false ∧ st.2 op.op2 = false then
        (st.1 ++ [op],
         fun b => if b = op.op1 ∨ b = op.op2 then true else st.2 b)
      else st)
    ([], fun _ => false)).1

/-- The lexicographic (op1, op2) comparison used to sort a layer
(src/src/normalization.h:159-162), as a total preorder. -/
def op_le (a b : Operation) : Prop :=
  a.op1 < b.op1 ∨ (a.op1 = b.op1 ∧ a.op2 ≤ b.op2)

instance : DecidableRel op_le := fun a b => by
  unfold op_le
  infer_instance

/-- std::sort of a layer by (op1, op2).  Since operations comparing equal
under op_le are equal records, every sorting algorithm yields the same list;
insertion sort is used because it is structurally recursive. -/
def sort_layer (l : List Operation) : List Operation :=
  l.insertionSort op_le

/-- The outer loop of normalize_operation_order
(src/src/normalization.h:137-165), by fuel on the loop counter i: each
iteration collects a layer from the suffix at i and advances i by the layer
size (by 1 if the layer came out empty, which cannot happen on a non-empty
suffix).  Fuel ops.length suffices since i advances by at least 1. -/
def norm_layers : Nat → List Operation → List (List Operation)
  | 0, _ => []
  | _, [] => []
  | fuel + 1, op :: rest =>
    let layer := collect_layer (op :: rest)
    if layer.isEmpty then
      sort_layer [op] :: norm_layers fuel rest
    else
      sort_layer layer :: norm_layers fuel ((op :: rest).drop layer.length)

/-- normalize_operation_order (src/src/normalization.h:131-174).  The
write-back loop stores the concatenation of the layers into ops[0..]; the
layer sizes always total num_ops, so this is the flattening.  The net_size
argument only sizes the `used` vector, modelled as a total function. -/
def normalize_operation_order (ops : List Operation) (net_size : Nat) :
    List Operation :=
  (norm_layers ops.length ops).flatten

/-- canonical_normalize (src/src/normalization.h:177-187). -/
def canonical_normalize (ops : List Operation) (net_size : Nat) :
    List Operation :=
  if ops.length = 0 then ops
  else
    normalize_operation_order
      (apply_canonical_mapping ops (compute_canonical_mapping ops net_size))
      net_size

/-- compute_canonical_hash (src/src/normalization.h:191-208). -/
def compute_canonical_hash (ops : List Operation) (net_size : Nat) : Nat :=
  if ops.length = 0 then 0
  else fnv1a_hash (canonical_normalize ops net_size)

/-- The spec's parallel-layer partition (spec wording, for comparison with
the code): scan left to right, extending the current layer while the next
operation's wires are disjoint from the wires already used in that layer,
otherwise closing it and starting a new one.  This is the contiguous greedy
layering the normalize_operation_order comment describes. -/
def spec_parallel_layers (ops : List Operation) : List (List Operation) :=
  let st := ops.foldl
    (fun (st : List (List Operation) × List Operation × (Nat → Bool)) op =>
      if st.2.2 op.op1 = false ∧ st.2.2 op.op2 = false then
        (st.1, st.2.1 ++ [op],
         fun b => if b = op.op1 ∨ b = op.op2 then true else st.2.2 b)
      else
        (st.1 ++ [st.2.1], [op],
         fun b => decide (b = op.op1 ∨ b = op.op2)))
    ([], [], fun _ => false)
  if st.2.1 = [] then st.1 else st.1 ++ [st.2.1]

/-- Claim C4 theorem: REFUTED (code bug).  normalize_operation_order is
claimed to output a rearrangement of the same multiset of comparators, but
its collection scan grabs non-contiguous operations while i advances as if
the layer were contiguous: on [(0,1),(0,2),(2,3)] over 4 wires it returns
[(0,1),(2,3),(2,3)], dropping (0,2) and duplicating (2,3), which is not a
permutation of the input. -/
theorem normalize_operation_order_drops_and_duplicates :
    normalize_operation_order [⟨0,1⟩,⟨0,2⟩,⟨2,3⟩] 4 = [⟨0,1⟩,⟨2,3⟩,⟨2,3⟩] ∧
    ¬ (normalize_operation_order [⟨0,1⟩,⟨0,2⟩,⟨2,3⟩] 4).Perm
        [⟨0,1⟩,⟨0,2⟩,⟨2,3⟩] := by decide

/-- Claim C3 theorem: REFUTED (code bug).  The two sequences
[(0,1),(0,2),(1,3),(2,4)] and [(0,1),(1,3),(0,2),(2,4)] over 5 wires have
the same parallel layers ([(0,1)], \x7b(0,2),(1,3)\x7d, [(2,4)]) and differ only
by reordering the middle layer, yet compute_canonical_hash distinguishes
them, because normalize_operation_order's non-contiguous grab makes the
normal form depend on the order within a layer. -/
theorem compute_canonical_hash_not_layer_invariant :
    spec_parallel_layers [⟨0,1⟩,⟨0,2⟩,⟨1,3⟩,⟨2,4⟩]
      = [[⟨0,1⟩],[⟨0,2⟩,⟨1,3⟩],[⟨2,4⟩]] ∧
    spec_parallel_layers [⟨0,1⟩,⟨1,3⟩,⟨0,2⟩,⟨2,4⟩]
      = [[⟨0,1⟩],[⟨1,3⟩,⟨0,2⟩],[⟨2,4⟩]] ∧
    compute_canonical_hash [⟨0,1⟩,⟨0,2⟩,⟨1,3⟩,⟨2,4⟩] 5 ≠
      compute_canonical_hash [⟨0,1⟩,⟨1,3⟩,⟨0,2⟩,⟨2,4⟩] 5 := by decide

/-- The traversal loop of update_state never touches current_level. -/
lemma update_loop_level (n op1 op2 : Nat) :
    ∀ (fuel : Nat) (st l : Option Nat) (s : SNState),
      (update_loop n op1 op2 fuel st l s).current_level = s.current_level := by
  intro fuel
  induction fuel with
  | zero => intro st l s; rfl
  | succ fuel ih =>
    intro st l s
    cases st with
    | none => rfl
    | some k =>
      by_cases hg : (!((s.used_list k).bit_pattern.testBit op1) &&
          (s.used_list k).bit_pattern.testBit op2) = true
      · by_cases hd : ((setFlag s.used_list (s.used_list k).bit_pattern false
              (comp_exchange op1 op2 (s.used_list k).bit_pattern)).in_list ||
            is_sorted n (comp_exchange op1 op2 (s.used_list k).bit_pattern))
            = true
        · cases l with
          | none =>
            rw [update_loop_eq_drop_none hg hd]
            exact ih _ _ _
          | some m =>
            rw [update_loop_eq_drop_some hg hd]
            exact ih _ _ _
        · have hd' := eq_false_of_ne_true hd
          cases l with
          | none =>
            rw [update_loop_eq_keep_none hg hd']
            exact ih _ _ _
          | some m =>
            rw [update_loop_eq_keep_some hg hd']
            exact ih _ _ _
      · have hg' := eq_false_of_ne_true hg
        rw [update_loop_eq_unaffected hg']
        exact ih _ _ _

/-- update_state increments current_level by exactly one (state.h:169). -/
lemma update_state_level (n op1 op2 : Nat) (s : SNState) :
    (update_state n op1 op2 s).current_level = s.current_level + 1 := by
  show (update_loop n op1 op2 (2 ^ n + 1) s.first_used none s).current_level + 1
      = s.current_level + 1
  rw [update_loop_level]

/-- After replaying O operations the level equals the number of operations. -/
lemma replay_current_level (n : Nat) (O : List Operation) :
    (replay n O).current_level = O.length := by
  induction O using List.reverseRecOn with
  | nil => rfl
  | append_singleton O op ih =>
    rw [replay_append_one, update_state_level, ih, List.length_append]
    rfl

/-- Best-known network length from get_bounds (src/src/config.h:13-48). -/
def get_bounds_length (n : Nat) : Nat :=
  match n with
  | 2 => 1 | 3 => 3 | 4 => 5 | 5 => 9 | 6 => 12 | 7 => 16 | 8 => 19
  | 9 => 25 | 10 => 29 | 11 => 35 | 12 => 39 | 13 => 45 | 14 => 51
  | 15 => 56 | 16 => 60 | 17 => 71 | 18 => 77 | 19 => 85 | 20 => 91
  | 21 => 99 | 22 => 106 | 23 => 114 | 24 => 120 | 25 => 130 | 26 => 138
  | 27 => 147 | 28 => 155 | 29 => 164 | 30 => 172 | 31 => 180 | 32 => 185
  | _ => 0

/-- Config::initialize (src/unnamed/part_005:54-55):
length_upper_bound_ = length_lower_bound_ * 2 with
length_lower_bound_ = get_bounds(n).length. -/
def length_upper_bound (n : Nat) : Nat := get_bounds_length n * 2

/-- The final write of update_state, `operations[current_level] = op`
(src/src/state.h:167-168), against a buffer of fixed capacity
(`operations.resize(config.get_length_upper_bound())`, src/src/state.h:96).
`std::vector::operator[]` out of range is undefined behaviour, modelled as
none. -/
def store_operation (buf : List Operation) (level : Nat) (op : Operation) :
    Option (List Operation) :=
  if level < buf.length then some (buf.set level op) else none

/-- Claim C8 theorem: REFUTED (code bug).  The claim says update_state aborts
with an error when the level would pass length_upper_bound and never stores a
comparator outside the capacity.  The current update_state
(src/src/state.h:126-170) has no capacity check at all (the older version in
src/unnamed/part_006:629-632 did abort): the store succeeds exactly below
the capacity and is an out-of-bounds write (undefined behaviour, none) from
the capacity on; since every call increments the level unconditionally, a
run of length_upper_bound(n) updates reaches a level whose store is out of
bounds — concretely for n = 2 after two comparators. -/
theorem update_state_capacity_not_aborted :
    (∀ (n level : Nat) (op : Operation),
      store_operation (List.replicate (length_upper_bound n) ⟨0, 0⟩) level op
          = none ↔ length_upper_bound n ≤ level) ∧
    (∀ (n : Nat) (O : List Operation),
      (replay n O).current_level = O.length) ∧
    (∀ op : Operation,
      store_operation (List.replicate (length_upper_bound 2) ⟨0, 0⟩)
        (replay 2 [⟨0, 1⟩, ⟨0, 1⟩]).current_level op = none) := by
  refine ⟨?_, replay_current_level, ?_⟩
  · intro n level op
    simp only [store_operation, List.length_replicate]
    split
    · next h => simp; omega
    · next h => simp; omega
  · intro op
    rw [store_operation, replay_current_level]
    simp only [List.length_replicate, List.length_cons, List.length_nil]
    rw [if_neg (by decide)]

/-- ceil(log2(N / B)) as computed at src/src/search.h:308-310: the least k
with N ≤ B * 2^k (exact for the rational N/B, matching the double
computation at these magnitudes). -/
def ceil_log2_ratio (N B : Nat) : Nat :=
  (((List.range (N + 1)).filter fun k => N ≤ B * 2 ^ k).head?).getD 0

/-- tests_per_candidate = ceil(base_num_tests / num_rounds)
(src/src/search.h:315-317), integer ceiling division. -/
def tests_per_candidate (base r : Nat) : Nat := (base + r - 1) / r

/-- The fresh-test successive-halving loop of the first beam_search variant
(src/src/search.h:323-369), counting the rollouts it performs: while more
than max_beam candidates are active, score each active candidate with t
fresh rollouts, halve, stop before resizing if the halved size would drop
below max_beam, and double t.  Fuel = the initial candidate count suffices
since the active count halves every round. -/
def sv_loop : Nat → Nat → Nat → Nat → Nat
  | 0, _, _, _ => 0
  | fuel + 1, active, t, B =>
    if B < active then
      let total := t * active
      let new_size := active / 2
      if new_size < B then total
      else total + sv_loop fuel new_size (t * 2) B
    else 0

/-- Total rollouts performed by the successive-halving phase of the first
beam_search variant on N unique candidates with beam width B and
base_num_tests base (src/src/search.h:293-369). -/
def halving_total_rollouts (N B base : Nat) : Nat :=
  sv_loop N N (tests_per_candidate base (ceil_log2_ratio N B)) B

/-- Claim C5 theorem: REFUTED (code bug) for the fresh-test variant of
beam_search (src/src/search.h:293-386).  With N = 5 unique candidates,
max_beam = 2 and base_num_tests = 5, the schedule computes
num_rounds = ceil(log2(5/2)) = 2 and tests_per_candidate = ceil(5/2) = 3,
but the loop stops after a single round of 3 * 5 = 15 rollouts because the
next halving would drop below the beam width: 15 < 5 * 5, contradicting the
claimed lower bound base_scoring_tests * |unique_candidates| (which the
code's own comment at search.h:313 asserts). -/
theorem successive_halving_budget_violation :
    ceil_log2_ratio 5 2 = 2 ∧
    tests_per_candidate 5 (ceil_log2_ratio 5 2) = 3 ∧
    halving_total_rollouts 5 2 5 = 15 ∧
    halving_total_rollouts 5 2 5 < 5 * 5 := by decide

instance : Inhabited Operation := ⟨⟨0, 0⟩⟩

/-- The wire bit-arrays used_ops / used_ops1 / used_ops2 of State
(src/src/state.h:212-213, 254), as total boolean functions: reading. -/
def op_conflicts (u : Nat → Bool) (op : Operation) : Bool :=
  u op.op1 || u op.op2

/-- Marking both wires of an operation in a wire bit-array. -/
def add_wires (u : Nat → Bool) (op : Operation) : Nat → Bool :=
  fun w => if w = op.op1 ∨ w = op.op2 then true else u w

/-- std::swap(operations[i], operations[j]) (src/src/state.h:227). -/
def list_swap (l : List Operation) (i j : Nat) : List Operation :=
  (l.set i (l.getD j default)).set j (l.getD i default)

/-- The inner l2 loop of State::minimise_depth (src/src/state.h:219-238),
with fuel: state is (operations, used_ops1, used_ops2, l1, l2, altered).
`break` on a used_ops2 conflict; a compatible later operation is swapped to
position l1, which advances l1 and restarts l2 at the new l1 (the C++ sets
l2 = l1 before the loop increment); otherwise the operation's wires enter
used_ops2.  Each step either increases l1 or increases l2 while l1 is
fixed and l2 < length, so fuel (length+1)*(length+2) suffices. -/
def md_inner : Nat → List Operation → (Nat → Bool) → (Nat → Bool) → Nat →
    Nat → Bool → List Operation × (Nat → Bool) × Nat × Bool
  | 0, ops, u1, _, l1, _, a => (ops, u1, l1, a)
  | fuel + 1, ops, u1, u2, l1, l2, a =>
    if l2 < ops.length then
      let op := ops.getD l2 default
      if op_conflicts u2 op then (ops, u1, l1, a)
      else if op_conflicts u1 op = false then
        md_inner fuel (list_swap ops l1 l2) (add_wires u1 op) (fun _ => false)
          (l1 + 1) (l1 + 1) true
      else
        md_inner fuel ops u1 (add_wires u2 op) l1 (l2 + 1) a
    else (ops, u1, l1, a)

/-- The outer l1 loop of State::minimise_depth (src/src/state.h:215-245),
with fuel: on a used_ops1 conflict the inner loop runs, then used_ops1 is
cleared and re-seeded with the wires of the operation now at (the possibly
advanced) l1.  l1 strictly increases each step, so fuel length+1 suffices. -/
def md_pass : Nat → List Operation → (Nat → Bool) → Nat → Bool →
    List Operation × Bool
  | 0, ops, _, _, a => (ops, a)
  | fuel + 1, ops, u1, l1, a =>
    if l1 < ops.length then
      let op := ops.getD l1 default
      if op_conflicts u1 op then
        let r := md_inner ((ops.length + 1) * (ops.length + 2)) ops u1
          (fun _ => false) l1 l1 a
        md_pass fuel r.1 (add_wires (fun _ => false) (r.1.getD r.2.2.1 default))
          (r.2.2.1 + 1) r.2.2.2
      else
        md_pass fuel ops (add_wires u1 op) (l1 + 1) a
    else (ops, a)

/-- One full body of minimise_depth's do-while (src/src/state.h:210-245). -/
def md_pass_once (ops : List Operation) : List Operation × Bool :=
  md_pass (ops.length + 1) ops (fun _ => false) 0 false

/-- The do-while of State::minimise_depth (src/src/state.h:210-246), with
fuel: repeat passes while one of them swapped something.  Every swap
strictly decreases the binary value of the greedy layer-boundary word, which
is below 2^length, so 2^length+1 passes suffice. -/
def minimise_depth_loop : Nat → List Operation → List Operation
  | 0, ops => ops
  | fuel + 1, ops =>
    let r := md_pass_once ops
    if r.2 then minimise_depth_loop fuel r.1 else r.1

/-- State::minimise_depth (src/src/state.h:206-247) on the operation list. -/
def minimise_depth (net_size : Nat) (ops : List Operation) : List Operation :=
  minimise_depth_loop (2 ^ ops.length + 1) ops

/-- One step of the greedy depth count of State::get_depth
(src/src/state.h:257-265): state is (used_ops, num_used). -/
def depth_step (st : (Nat → Bool) × Nat) (op : Operation) :
    (Nat → Bool) × Nat :=
  if st.1 op.op1 || st.1 op.op2 then (add_wires (fun _ => false) op, st.2 + 1)
  else (add_wires st.1 op, st.2)

/-- State::get_depth (src/src/state.h:252-268): number of greedy parallel
layers, starting from num_used = 1. -/
def get_depth (net_size : Nat) (ops : List Operation) : Nat :=
  (ops.foldl depth_step (fun _ => false, 1)).2

/-- Two comparators act on disjoint wire sets. -/
def wdisj (a b : Operation) : Prop :=
  a.op1 ≠ b.op1 ∧ a.op1 ≠ b.op2 ∧ a.op2 ≠ b.op1 ∧ a.op2 ≠ b.op2

lemma wdisj_symm {a b : Operation} (h : wdisj a b) : wdisj b a := by
  obtain ⟨h1, h2, h3, h4⟩ := h
  exact ⟨Ne.symm h1, Ne.symm h3, Ne.symm h2, Ne.symm h4⟩

lemma comp_exchange_self (i p : Nat) : comp_exchange i i p = p := by
  rw [comp_exchange]
  cases h : p.testBit i <;> simp [h]

lemma testBit_comp_exchange_other {i j p k : Nat} (hne : i ≠ j)
    (h1 : k ≠ i) (h2 : k ≠ j) :
    (comp_exchange i j p).testBit k = p.testBit k := by
  by_cases hg : (!p.testBit i && p.testBit j) = true
  · have hb1 : p.testBit i = false := by
      cases hb : p.testBit i
      · rfl
      · rw [hb] at hg
        simp at hg
    have hb2 : p.testBit j = true := by
      cases hb : p.testBit j
      · rw [hb] at hg
        simp at hg
      · rfl
    rw [testBit_comp_exchange hne hb1 hb2 k, if_neg h2, if_neg h1]
  · have hg' := eq_false_of_ne_true hg
    rw [comp_exchange, hg']
    simp

/-- Comparators on disjoint wires commute. -/
lemma comp_exchange_comm {a b : Operation} (h : wdisj a b) (p : Nat) :
    comp_exchange a.op1 a.op2 (comp_exchange b.op1 b.op2 p)
      = comp_exchange b.op1 b.op2 (comp_exchange a.op1 a.op2 p) := by
  by_cases hda : a.op1 = a.op2
  · rw [hda, comp_exchange_self, comp_exchange_self]
  by_cases hdb : b.op1 = b.op2
  · rw [hdb, comp_exchange_self, comp_exchange_self]
  obtain ⟨d11, d12, d21, d22⟩ := h
  have hA1 : (comp_exchange b.op1 b.op2 p).testBit a.op1 = p.testBit a.op1 :=
    testBit_comp_exchange_other hdb d11 d12
  have hA2 : (comp_exchange b.op1 b.op2 p).testBit a.op2 = p.testBit a.op2 :=
    testBit_comp_exchange_other hdb d21 d22
  have hB1 : (comp_exchange a.op1 a.op2 p).testBit b.op1 = p.testBit b.op1 :=
    testBit_comp_exchange_other hda (Ne.symm d11) (Ne.symm d21)
  have hB2 : (comp_exchange a.op1 a.op2 p).testBit b.op2 = p.testBit b.op2 :=
    testBit_comp_exchange_other hda (Ne.symm d12) (Ne.symm d22)
  cases hga : (!p.testBit a.op1 && p.testBit a.op2) <;>
    cases hgb : (!p.testBit b.op1 && p.testBit b.op2)
  · have ea : comp_exchange a.op1 a.op2 p = p := by
      rw [comp_exchange, hga]
      simp
    have eb : comp_exchange b.op1 b.op2 p = p := by
      rw [comp_exchange, hgb]
      simp
    rw [eb, ea, eb]
  · have ea : comp_exchange a.op1 a.op2 p = p := by
      rw [comp_exchange, hga]
      simp
    have e2 : comp_exchange a.op1 a.op2 (comp_exchange b.op1 b.op2 p)
        = comp_exchange b.op1 b.op2 p := by
      rw [comp_exchange]
      rw [hA1, hA2, hga]
      simp
    rw [e2, ea]
  · have eb : comp_exchange b.op1 b.op2 p = p := by
      rw [comp_exchange, hgb]
      simp
    have e2 : comp_exchange b.op1 b.op2 (comp_exchange a.op1 a.op2 p)
        = comp_exchange a.op1 a.op2 p := by
      rw [comp_exchange]
      rw [hB1, hB2, hgb]
      simp
    rw [eb, e2]
  · have ha2 : p.testBit a.op2 = true := by
      cases hx : p.testBit a.op2
      · rw [hx] at hga
        simp at hga
      · rfl
    have hb2 : p.testBit b.op2 = true := by
      cases hx : p.testBit b.op2
      · rw [hx] at hgb
        simp at hgb
      · rfl
    have e1 : comp_exchange b.op1 b.op2 p = p + 2 ^ b.op1 - 2 ^ b.op2 := by
      rw [comp_exchange, hgb]
      simp
    have e2 : comp_exchange a.op1 a.op2 p = p + 2 ^ a.op1 - 2 ^ a.op2 := by
      rw [comp_exchange, hga]
      simp
    have e3 : comp_exchange a.op1 a.op2 (comp_exchange b.op1 b.op2 p)
        = comp_exchange b.op1 b.op2 p + 2 ^ a.op1 - 2 ^ a.op2 := by
      rw [comp_exchange]
      rw [hA1, hA2, hga]
      simp
    have e4 : comp_exchange b.op1 b.op2 (comp_exchange a.op1 a.op2 p)
        = comp_exchange a.op1 a.op2 p + 2 ^ b.op1 - 2 ^ b.op2 := by
      rw [comp_exchange]
      rw [hB1, hB2, hgb]
      simp
    have g1 : 2 ^ a.op2 ≤ p := Nat.testBit_implies_ge ha2
    have g2 : 2 ^ b.op2 ≤ p := Nat.testBit_implies_ge hb2
    have g3 : 2 ^ a.op2 ≤ comp_exchange b.op1 b.op2 p := by
      apply Nat.testBit_implies_ge
      rw [hA2]
      exact ha2
    have g4 : 2 ^ b.op2 ≤ comp_exchange a.op1 a.op2 p := by
      apply Nat.testBit_implies_ge
      rw [hB2]
      exact hb2
    rw [e3, e4]
    rw [e1] at g3 ⊢
    rw [e2] at g4 ⊢
    have key : ∀ q x1 x2 y1 y2 : Nat, x2 ≤ q → y2 ≤ q →
        x2 ≤ q + y1 - y2 → y2 ≤ q + x1 - x2 →
        q + y1 - y2 + x1 - x2 = q + x1 - x2 + y1 - y2 := by
      intro q x1 x2 y1 y2 h1 h2 h3 h4
      omega
    exact key p (2 ^ a.op1) (2 ^ a.op2) (2 ^ b.op1) (2 ^ b.op2) g1 g2 g3 g4

lemma apply_net_append (A B : List Operation) (p : Nat) :
    apply_net (A ++ B) p = apply_net B (apply_net A p) := by
  rw [apply_net, apply_net, apply_net, List.foldl_append]

/-- An operation disjoint from a block can be moved from its back to its
front without changing the computed function. -/
lemma apply_net_move_front {X : List Operation} {c : Operation}
    (h : ∀ x ∈ X, wdisj c x) (p : Nat) :
    apply_net (X ++ [c]) p = apply_net (c :: X) p := by
  induction X generalizing p with
  | nil => rfl
  | cons x X ih =>
    have hx : wdisj c x := h x (List.mem_cons_self _ _)
    have h' : ∀ y ∈ X, wdisj c y := fun y hy => h y (List.mem_cons_of_mem _ hy)
    show apply_net (X ++ [c]) (comp_exchange x.op1 x.op2 p) = _
    rw [ih h']
    show apply_net X
        (comp_exchange c.op1 c.op2 (comp_exchange x.op1 x.op2 p))
      = apply_net X
        (comp_exchange x.op1 x.op2 (comp_exchange c.op1 c.op2 p))
    rw [comp_exchange_comm hx]

/-- Transposing two operations across a block they both commute with
preserves the computed function. -/
lemma apply_net_swap_mid {X : List Operation} {b c : Operation}
    (hcb : wdisj c b) (hcX : ∀ x ∈ X, wdisj c x) (hbX : ∀ x ∈ X, wdisj b x)
    (P T : List Operation) (p : Nat) :
    apply_net (P ++ b :: (X ++ c :: T)) p
      = apply_net (P ++ c :: (X ++ b :: T)) p := by
  rw [apply_net_append, apply_net_append]
  generalize apply_net P p = q
  have e1 : b :: (X ++ c :: T) = ((b :: X) ++ [c]) ++ T := by simp
  have e2 : c :: (X ++ b :: T) = ((c :: X) ++ [b]) ++ T := by simp
  rw [e1, e2, apply_net_append ((b :: X) ++ [c]) T,
    apply_net_append ((c :: X) ++ [b]) T]
  have hc' : ∀ x ∈ b :: X, wdisj c x := by
    intro x hx
    rcases List.mem_cons.mp hx with h | h
    · rw [h]
      exact hcb
    · exact hcX x h
  have hb' : ∀ x ∈ c :: X, wdisj b x := by
    intro x hx
    rcases List.mem_cons.mp hx with h | h
    · rw [h]
      exact wdisj_symm hcb
    · exact hbX x h
  have key : apply_net ((b :: X) ++ [c]) q = apply_net ((c :: X) ++ [b]) q := by
    rw [apply_net_move_front hc' q, apply_net_move_front hb' q]
    show apply_net X
        (comp_exchange b.op1 b.op2 (comp_exchange c.op1 c.op2 q))
      = apply_net X
        (comp_exchange c.op1 c.op2 (comp_exchange b.op1 b.op2 q))
    rw [comp_exchange_comm hcb]
  rw [key]

/-- Transposing two elements across a block is a permutation. -/
lemma perm_swap_mid (P X T : List Operation) (b c : Operation) :
    (P ++ b :: (X ++ c :: T)).Perm (P ++ c :: (X ++ b :: T)) := by
  apply List.Perm.append_left
  have h1 : (X ++ c :: T).Perm (c :: (X ++ T)) := List.perm_middle
  have h2 : (X ++ b :: T).Perm (b :: (X ++ T)) := List.perm_middle
  have h3 : (b :: (c :: (X ++ T))).Perm (c :: (b :: (X ++ T))) :=
    List.Perm.swap c b (X ++ T)
  exact ((h1.cons b).trans h3).trans (h2.cons c).symm

/-- Pointwise order on wire bit-arrays. -/
def Vle (V1 V2 : Nat → Bool) : Prop := ∀ w, V1 w = true → V2 w = true

lemma op_conflicts_mono {V1 V2 : Nat → Bool} (h : Vle V1 V2) {op : Operation}
    (hc : op_conflicts V1 op = true) : op_conflicts V2 op = true := by
  rw [op_conflicts] at hc ⊢
  rcases Bool.or_eq_true_iff.mp hc with h1 | h1
  · rw [h _ h1]
    simp
  · rw [h _ h1]
    simp

lemma op_conflicts_mono_false {V1 V2 : Nat → Bool} (h : Vle V1 V2)
    {op : Operation} (hc : op_conflicts V2 op = false) :
    op_conflicts V1 op = false := by
  cases hx : op_conflicts V1 op
  · rfl
  · rw [op_conflicts_mono h hx] at hc
    exact hc

lemma depth_step_pos {V : Nat → Bool} {c : Nat} {op : Operation}
    (h : op_conflicts V op = true) :
    depth_step (V, c) op = (add_wires (fun _ => false) op, c + 1) := by
  rw [depth_step]
  have h' : ((V, c).1 op.op1 || (V, c).1 op.op2) = true := h
  rw [if_pos h']

lemma depth_step_neg {V : Nat → Bool} {c : Nat} {op : Operation}
    (h : op_conflicts V op = false) :
    depth_step (V, c) op = (add_wires V op, c) := by
  rw [depth_step]
  have h' : ¬ ((V, c).1 op.op1 || (V, c).1 op.op2) = true := by
    intro hx
    have hx' : op_conflicts V op = true := hx
    rw [h] at hx'
    exact absurd hx' (by simp)
  rw [if_neg h']

lemma depth_fold_snd_add (T : List Operation) :
    ∀ (V : Nat → Bool) (c : Nat),
      (T.foldl depth_step (V, c)).2 = c + (T.foldl depth_step (V, 0)).2 := by
  induction T with
  | nil => intro V c; rfl
  | cons op T ih =>
    intro V c
    by_cases h : op_conflicts V op = true
    · rw [List.foldl_cons, List.foldl_cons, depth_step_pos h, depth_step_pos h,
        ih _ (c + 1), ih _ 1]
      omega
    · have h' := eq_false_of_ne_true h
      rw [List.foldl_cons, List.foldl_cons, depth_step_neg h', depth_step_neg h',
        ih _ c]

lemma vle_add_wires_of_vle {V1 V2 : Nat → Bool} (h : Vle V1 V2)
    (op : Operation) : Vle (add_wires V1 op) (add_wires V2 op) := by
  intro w hw
  rw [add_wires] at hw ⊢
  by_cases hc : w = op.op1 ∨ w = op.op2
  · rw [if_pos hc]
  · rw [if_neg hc] at hw
    rw [if_neg hc]
    exact h _ hw

lemma vle_empty_add (V : Nat → Bool) (op : Operation) :
    Vle (add_wires (fun _ => false) op) (add_wires V op) := by
  intro w hw
  rw [add_wires] at hw ⊢
  by_cases hc : w = op.op1 ∨ w = op.op2
  · rw [if_pos hc]
  · rw [if_neg hc] at hw
    exact absurd hw (by simp)

/-- Simultaneous monotonicity of the greedy layer count in the initial used
set: a larger used set gives a count that is at least as large, and larger
by at most one. -/
lemma depth_mono_pair :
    ∀ (T : List Operation) (V1 V2 : Nat → Bool), Vle V1 V2 →
      (T.foldl depth_step (V1, 0)).2 ≤ (T.foldl depth_step (V2, 0)).2 ∧
      (T.foldl depth_step (V2, 0)).2 ≤ (T.foldl depth_step (V1, 0)).2 + 1 := by
  intro T
  induction T with
  | nil =>
    intro V1 V2 h
    exact ⟨le_refl _, Nat.le_succ _⟩
  | cons op T ih =>
    intro V1 V2 h
    by_cases h2 : op_conflicts V2 op = true
    · by_cases h1 : op_conflicts V1 op = true
      · rw [List.foldl_cons, List.foldl_cons, depth_step_pos h1,
          depth_step_pos h2]
        exact ⟨le_refl _, Nat.le_succ _⟩
      · have h1' := eq_false_of_ne_true h1
        rw [List.foldl_cons, List.foldl_cons, depth_step_neg h1',
          depth_step_pos h2]
        obtain ⟨m1, m2⟩ := ih (add_wires (fun _ => false) op)
          (add_wires V1 op) (vle_empty_add V1 op)
        rw [depth_fold_snd_add T _ 1]
        constructor
        · omega
        · omega
    · have h2' := eq_false_of_ne_true h2
      have h1' : op_conflicts V1 op = false := op_conflicts_mono_false h h2'
      rw [List.foldl_cons, List.foldl_cons, depth_step_neg h1',
        depth_step_neg h2']
      exact ih _ _ (vle_add_wires_of_vle h op)

lemma conflicts_add_empty {b x : Operation} (h : wdisj b x) :
    op_conflicts (add_wires (fun _ => false) b) x = false := by
  obtain ⟨h1, h2, h3, h4⟩ := h
  rw [op_conflicts]
  have e1 : add_wires (fun _ => false) b x.op1 = false := by
    show (if x.op1 = b.op1 ∨ x.op1 = b.op2 then true else false) = false
    rw [if_neg]
    rintro (hh | hh)
    · exact h1 hh.symm
    · exact h3 hh.symm
  have e2 : add_wires (fun _ => false) b x.op2 = false := by
    show (if x.op2 = b.op1 ∨ x.op2 = b.op2 then true else false) = false
    rw [if_neg]
    rintro (hh | hh)
    · exact h2 hh.symm
    · exact h4 hh.symm
  rw [e1, e2]
  rfl

/-- The wire set of a list of operations, as a bit-array. -/
def wiresOf (Y : List Operation) : Nat → Bool :=
  fun w => Y.any fun y => decide (w = y.op1 ∨ w = y.op2)

/-- A pairwise-disjoint block that is disjoint from the current layer joins
it without starting new layers: count unchanged, used set grows by the
block's wires. -/
lemma depth_fold_all_fit :
    ∀ (Y : List Operation) (U : Nat → Bool) (c : Nat),
      Y.Pairwise wdisj → (∀ y ∈ Y, op_conflicts U y = false) →
      (Y.foldl depth_step (U, c)).2 = c ∧
      (∀ w, (Y.foldl depth_step (U, c)).1 w = (U w || wiresOf Y w)) := by
  intro Y
  induction Y with
  | nil =>
    intro U c _ _
    refine ⟨rfl, ?_⟩
    intro w
    simp [wiresOf]
  | cons y Y ih =>
    intro U c hp hf
    have hy : op_conflicts U y = false := hf y (List.mem_cons_self _ _)
    rw [List.foldl_cons, depth_step_neg hy]
    have hpY : Y.Pairwise wdisj := (List.pairwise_cons.mp hp).2
    have hyd : ∀ z ∈ Y, wdisj y z := (List.pairwise_cons.mp hp).1
    have hf' : ∀ z ∈ Y, op_conflicts (add_wires U y) z = false := by
      intro z hz
      have hzU := hf z (List.mem_cons_of_mem _ hz)
      obtain ⟨d1, d2, d3, d4⟩ := hyd z hz
      rw [op_conflicts] at hzU ⊢
      have u1 : U z.op1 = false := by
        cases hu : U z.op1
        · rfl
        · rw [hu] at hzU
          simp at hzU
      have u2 : U z.op2 = false := by
        cases hu : U z.op2
        · rfl
        · rw [hu] at hzU
          simp at hzU
      have e1 : add_wires U y z.op1 = false := by
        show (if z.op1 = y.op1 ∨ z.op1 = y.op2 then true else U z.op1) = false
        have hn : ¬ (z.op1 = y.op1 ∨ z.op1 = y.op2) := by
          rintro (hh | hh)
          · exact d1 hh.symm
          · exact d3 hh.symm
        rw [if_neg hn]
        exact u1
      have e2 : add_wires U y z.op2 = false := by
        show (if z.op2 = y.op1 ∨ z.op2 = y.op2 then true else U z.op2) = false
        have hn : ¬ (z.op2 = y.op1 ∨ z.op2 = y.op2) := by
          rintro (hh | hh)
          · exact d2 hh.symm
          · exact d4 hh.symm
        rw [if_neg hn]
        exact u2
      rw [e1, e2]
      rfl
    obtain ⟨ihc, ihv⟩ := ih (add_wires U y) c hpY hf'
    refine ⟨ihc, ?_⟩
    intro w
    rw [ihv w]
    by_cases hw : w = y.op1 ∨ w = y.op2
    · have l1 : add_wires U y w = true := by
        show (if w = y.op1 ∨ w = y.op2 then true else U w) = true
        rw [if_pos hw]
      have r1 : wiresOf (y :: Y) w = true := by
        show (y :: Y).any (fun z => decide (w = z.op1 ∨ w = z.op2)) = true
        rw [List.any_cons]
        rw [show decide (w = y.op1 ∨ w = y.op2) = true from by simp [hw]]
        simp
      rw [l1, r1]
      simp
    · have l1 : add_wires U y w = U w := by
        show (if w = y.op1 ∨ w = y.op2 then true else U w) = U w
        rw [if_neg hw]
      have r1 : wiresOf (y :: Y) w = wiresOf Y w := by
        show (y :: Y).any (fun z => decide (w = z.op1 ∨ w = z.op2)) = _
        rw [List.any_cons]
        rw [show decide (w = y.op1 ∨ w = y.op2) = false from by simp [hw]]
        rw [Bool.false_or]
        rfl
      rw [l1, r1]

lemma depth_step_pos' {st : (Nat → Bool) × Nat} {op : Operation}
    (h : op_conflicts st.1 op = true) :
    depth_step st op = (add_wires (fun _ => false) op, st.2 + 1) := by
  cases st with
  | mk V c => exact depth_step_pos h

lemma depth_step_neg' {st : (Nat → Bool) × Nat} {op : Operation}
    (h : op_conflicts st.1 op = false) :
    depth_step st op = (add_wires st.1 op, st.2) := by
  cases st with
  | mk V c => exact depth_step_neg h

lemma add_wires_eq (u : Nat → Bool) (op : Operation) (w : Nat) :
    add_wires u op w = (decide (w = op.op1 ∨ w = op.op2) || u w) := by
  show (if w = op.op1 ∨ w = op.op2 then true else u w) = _
  by_cases h : w = op.op1 ∨ w = op.op2
  · rw [if_pos h]
    simp [h]
  · rw [if_neg h]
    simp [h]

lemma vle_add_self (V : Nat → Bool) (op : Operation) :
    Vle V (add_wires V op) := by
  intro w hw
  rw [add_wires_eq, hw]
  simp

lemma wiresOf_cons (x : Operation) (X : List Operation) (w : Nat) :
    wiresOf (x :: X) w = (decide (w = x.op1 ∨ w = x.op2) || wiresOf X w) := by
  show (x :: X).any (fun z => decide (w = z.op1 ∨ w = z.op2)) = _
  rw [List.any_cons]
  rfl

lemma wiresOf_not_mem {X : List Operation} {c : Operation}
    (h : ∀ x ∈ X, wdisj c x) :
    wiresOf X c.op1 = false ∧ wiresOf X c.op2 = false := by
  constructor
  · show X.any (fun z => decide (c.op1 = z.op1 ∨ c.op1 = z.op2)) = false
    rw [List.any_eq_false]
    intro x hx
    obtain ⟨d1, d2, d3, d4⟩ := h x hx
    simp
    exact ⟨d1, d2⟩
  · show X.any (fun z => decide (c.op2 = z.op1 ∨ c.op2 = z.op2)) = false
    rw [List.any_eq_false]
    intro x hx
    obtain ⟨d1, d2, d3, d4⟩ := h x hx
    simp
    exact ⟨d3, d4⟩

/-- The depth effect of one minimise_depth swap: moving a layer-compatible
operation c before the conflicting block b :: X it commutes with does not
increase the greedy layer count. -/
lemma depth_swap_le_seg (T X : List Operation) (b c : Operation)
    (V : Nat → Bool) (cnt : Nat)
    (hb : op_conflicts V b = true)
    (hc : op_conflicts V c = false)
    (hX : ∀ x ∈ X, op_conflicts V x = true)
    (hpw : X.Pairwise wdisj)
    (hbX : ∀ x ∈ X, wdisj b x)
    (hcb : wdisj c b)
    (hcX : ∀ x ∈ X, wdisj c x) :
    ((c :: (X ++ b :: T)).foldl depth_step (V, cnt)).2
      ≤ ((b :: (X ++ c :: T)).foldl depth_step (V, cnt)).2 := by
  obtain ⟨hR2, hR1⟩ := depth_fold_all_fit X (add_wires (fun _ => false) b)
    (cnt + 1) hpw (fun x hx => conflicts_add_empty (hbX x hx))
  have hcR : op_conflicts
      (X.foldl depth_step (add_wires (fun _ => false) b, cnt + 1)).1 c
      = false := by
    obtain ⟨hw1, hw2⟩ := wiresOf_not_mem hcX
    have hbe := conflicts_add_empty (wdisj_symm hcb)
    rw [op_conflicts] at hbe
    have e1 : add_wires (fun _ => false) b c.op1 = false := by
      cases hv : add_wires (fun _ => false) b c.op1
      · rfl
      · rw [hv] at hbe
        simp at hbe
    have e2 : add_wires (fun _ => false) b c.op2 = false := by
      cases hv : add_wires (fun _ => false) b c.op2
      · rfl
      · rw [hv] at hbe
        simp at hbe
    rw [op_conflicts, hR1, hR1, hw1, hw2, e1, e2]
    rfl
  have eR : ((b :: (X ++ c :: T)).foldl depth_step (V, cnt)).2
      = (cnt + 1) + (T.foldl depth_step
          (add_wires
            (X.foldl depth_step (add_wires (fun _ => false) b, cnt + 1)).1 c,
           0)).2 := by
    rw [List.foldl_cons, depth_step_pos hb, List.foldl_append, List.foldl_cons,
      depth_step_neg' hcR, depth_fold_snd_add, hR2]
  rw [eR]
  cases X with
  | nil =>
    have hbV : op_conflicts (add_wires V c) b = true :=
      op_conflicts_mono (vle_add_self V c) hb
    have eL : ((c :: (([] : List Operation) ++ b :: T)).foldl depth_step
          (V, cnt)).2
        = (cnt + 1) + (T.foldl depth_step
            (add_wires (fun _ => false) b, 0)).2 := by
      rw [List.foldl_cons, depth_step_neg hc, List.nil_append, List.foldl_cons,
        depth_step_pos hbV, depth_fold_snd_add]
    rw [eL]
    have hmono := (depth_mono_pair T (add_wires (fun _ => false) b)
      (add_wires
        (([] : List Operation).foldl depth_step
          (add_wires (fun _ => false) b, cnt + 1)).1 c)
      (by
        intro w hw
        simp only [List.foldl_nil]
        rw [add_wires_eq, hw]
        simp)).1
    simp only [List.foldl_nil] at hmono ⊢
    omega
  | cons x X' =>
    have hxV : op_conflicts (add_wires V c) x = true :=
      op_conflicts_mono (vle_add_self V c) (hX x (List.mem_cons_self _ _))
    have hpX' : X'.Pairwise wdisj := (List.pairwise_cons.mp hpw).2
    have hxX' : ∀ z ∈ X', wdisj x z := (List.pairwise_cons.mp hpw).1
    obtain ⟨hL2, hL1⟩ := depth_fold_all_fit X' (add_wires (fun _ => false) x)
      (cnt + 1) hpX' (fun z hz => conflicts_add_empty (hxX' z hz))
    have hbL : op_conflicts
        (X'.foldl depth_step (add_wires (fun _ => false) x, cnt + 1)).1 b
        = false := by
      obtain ⟨hw1, hw2⟩ := wiresOf_not_mem
        (show ∀ z ∈ X', wdisj b z from fun z hz =>
          hbX z (List.mem_cons_of_mem _ hz))
      have hxe := conflicts_add_empty
        (wdisj_symm (hbX x (List.mem_cons_self _ _)))
      rw [op_conflicts] at hxe
      have x1 : add_wires (fun _ => false) x b.op1 = false := by
        cases hv : add_wires (fun _ => false) x b.op1
        · rfl
        · rw [hv] at hxe
          simp at hxe
      have x2 : add_wires (fun _ => false) x b.op2 = false := by
        cases hv : add_wires (fun _ => false) x b.op2
        · rfl
        · rw [hv] at hxe
          simp at hxe
      rw [op_conflicts, hL1, hL1, hw1, hw2, x1, x2]
      rfl
    have eL : ((c :: ((x :: X') ++ b :: T)).foldl depth_step (V, cnt)).2
        = (cnt + 1) + (T.foldl depth_step
            (add_wires
              (X'.foldl depth_step
                (add_wires (fun _ => false) x, cnt + 1)).1 b,
             0)).2 := by
      rw [List.foldl_cons, depth_step_neg hc, List.cons_append,
        List.foldl_cons, depth_step_pos hxV, List.foldl_append,
        List.foldl_cons, depth_step_neg' hbL, depth_fold_snd_add, hL2]
    rw [eL]
    have hmono := (depth_mono_pair T
      (add_wires
        (X'.foldl depth_step (add_wires (fun _ => false) x, cnt + 1)).1 b)
      (add_wires
        ((x :: X').foldl depth_step
          (add_wires (fun _ => false) b, cnt + 1)).1 c)
      (by
        intro w hw
        rw [add_wires_eq] at hw
        rw [add_wires_eq]
        rcases Bool.or_eq_true_iff.mp hw with h1 | h1
        · have hh : ((x :: X').foldl depth_step
              (add_wires (fun _ => false) b, cnt + 1)).1 w = true := by
            rw [hR1, add_wires_eq, h1]
            simp
          rw [hh]
          simp
        · rw [hL1, add_wires_eq] at h1
          have hh : ((x :: X').foldl depth_step
              (add_wires (fun _ => false) b, cnt + 1)).1 w = true := by
            rw [hR1, wiresOf_cons]
            rcases Bool.or_eq_true_iff.mp h1 with h2 | h2
            · rcases Bool.or_eq_true_iff.mp h2 with h3 | h3
              · rw [h3]
                simp
              · simp at h3
            · rw [h2]
              simp
          rw [hh]
          simp)).1
    omega

/-- The greedy layer-boundary indicator word of an operation sequence: bit
true where get_depth would start a new layer. -/
def bound_bits (V : Nat → Bool) : List Operation → List Bool
  | [] => []
  | op :: T =>
    if op_conflicts V op then
      true :: bound_bits (add_wires (fun _ => false) op) T
    else false :: bound_bits (add_wires V op) T

/-- The boundary word read as a binary number, most significant bit first:
the termination measure of minimise_depth. -/
def phi (bs : List Bool) : Nat :=
  bs.foldl (fun a b => 2 * a + (if b then 1 else 0)) 0

lemma phi_foldl_shift : ∀ (bs : List Bool) (a : Nat),
    bs.foldl (fun a b => 2 * a + (if b then 1 else 0)) a
      = a * 2 ^ bs.length + phi bs := by
  intro bs
  induction bs with
  | nil =>
    intro a
    simp [phi]
  | cons b bs ih =>
    intro a
    rw [List.foldl_cons, ih]
    have h2 : phi (b :: bs)
        = (if b then 1 else 0) * 2 ^ bs.length + phi bs := by
      rw [phi, List.foldl_cons, ih]
      rw [show (phi bs = bs.foldl (fun a b => 2 * a + (if b then 1 else 0)) 0)
        from rfl]
      ring
    rw [List.length_cons, h2, pow_succ]
    ring

lemma phi_cons (b : Bool) (bs : List Bool) :
    phi (b :: bs) = (if b then 1 else 0) * 2 ^ bs.length + phi bs := by
  rw [phi, List.foldl_cons, phi_foldl_shift]
  rw [show (phi bs = bs.foldl (fun a b => 2 * a + (if b then 1 else 0)) 0)
    from rfl]
  ring

lemma phi_lt (bs : List Bool) : phi bs < 2 ^ bs.length := by
  induction bs with
  | nil => simp [phi]
  | cons b bs ih =>
    rw [phi_cons, List.length_cons, pow_succ]
    cases b <;> simp <;> omega

lemma phi_append (A B : List Bool) :
    phi (A ++ B) = phi A * 2 ^ B.length + phi B := by
  rw [phi, List.foldl_append]
  rw [show A.foldl (fun a b => 2 * a + (if b then 1 else 0)) 0 = phi A
    from rfl]
  exact phi_foldl_shift B (phi A)

lemma bound_bits_cons_pos {V : Nat → Bool} {op : Operation}
    (h : op_conflicts V op = true) (T : List Operation) :
    bound_bits V (op :: T)
      = true :: bound_bits (add_wires (fun _ => false) op) T := by
  rw [bound_bits, if_pos h]

lemma bound_bits_cons_neg {V : Nat → Bool} {op : Operation}
    (h : op_conflicts V op = false) (T : List Operation) :
    bound_bits V (op :: T) = false :: bound_bits (add_wires V op) T := by
  rw [bound_bits, if_neg (by rw [h]; simp)]

lemma bound_bits_length (V : Nat → Bool) (ops : List Operation) :
    (bound_bits V ops).length = ops.length := by
  induction ops generalizing V with
  | nil => rfl
  | cons op T ih =>
    by_cases h : op_conflicts V op = true
    · rw [bound_bits_cons_pos h, List.length_cons, ih]
      rfl
    · rw [bound_bits_cons_neg (eq_false_of_ne_true h), List.length_cons, ih]
      rfl

lemma bound_bits_append (A B : List Operation) :
    ∀ (V : Nat → Bool) (c : Nat),
      bound_bits V (A ++ B)
        = bound_bits V A ++ bound_bits ((A.foldl depth_step (V, c)).1) B := by
  induction A with
  | nil => intro V c; rfl
  | cons a A ih =>
    intro V c
    by_cases h : op_conflicts V a = true
    · rw [List.cons_append, bound_bits_cons_pos h,
        bound_bits_cons_pos h A, List.cons_append,
        ih (add_wires (fun _ => false) a) (c + 1),
        List.foldl_cons, depth_step_pos h]
    · have h' := eq_false_of_ne_true h
      rw [List.cons_append, bound_bits_cons_neg h',
        bound_bits_cons_neg h' A, List.cons_append,
        ih (add_wires V a) c, List.foldl_cons, depth_step_neg h']

/-- A minimise_depth swap strictly decreases the boundary measure: the swap
replaces a layer boundary at the swap position by a non-boundary. -/
lemma phi_swap_lt_seg (P X T : List Operation) (b c : Operation)
    (hb : op_conflicts ((P.foldl depth_step (fun _ => false, 1)).1) b = true)
    (hc : op_conflicts ((P.foldl depth_step (fun _ => false, 1)).1) c
        = false) :
    phi (bound_bits (fun _ => false) (P ++ c :: (X ++ b :: T)))
      < phi (bound_bits (fun _ => false) (P ++ b :: (X ++ c :: T))) := by
  rw [bound_bits_append P _ _ 1, bound_bits_append P _ _ 1,
    phi_append, phi_append]
  rw [bound_bits_cons_neg hc, bound_bits_cons_pos hb]
  have hlen1 : (bound_bits
      (add_wires ((P.foldl depth_step (fun _ => false, 1)).1) c)
      (X ++ b :: T)).length = X.length + T.length + 1 := by
    rw [bound_bits_length, List.length_append, List.length_cons]
    omega
  have hlen2 : (bound_bits (add_wires (fun _ => false) b)
      (X ++ c :: T)).length = X.length + T.length + 1 := by
    rw [bound_bits_length, List.length_append, List.length_cons]
    omega
  rw [phi_cons, phi_cons, List.length_cons, List.length_cons, hlen1, hlen2]
  have hphi1 := phi_lt (bound_bits
    (add_wires ((P.foldl depth_step (fun _ => false, 1)).1) c) (X ++ b :: T))
  rw [hlen1] at hphi1
  norm_num
  omega

lemma set_append_len (P : List Operation) (y v : Operation)
    (R : List Operation) : (P ++ y :: R).set P.length v = P ++ v :: R := by
  induction P with
  | nil => rfl
  | cons p P ih =>
    show p :: (P ++ y :: R).set P.length v = p :: (P ++ v :: R)
    rw [ih]

lemma getD_append_len (P : List Operation) (y : Operation)
    (R : List Operation) : (P ++ y :: R).getD P.length default = y := by
  induction P with
  | nil => rfl
  | cons p P ih =>
    show (P ++ y :: R).getD P.length default = y
    exact ih

/-- Decomposition of a list around two positions i < j. -/
lemma list_decomp {l : List Operation} {i j : Nat} (hij : i < j)
    (hj : j < l.length) :
    l = l.take i ++ l.getD i default
        :: ((l.drop (i + 1)).take (j - (i + 1))
            ++ l.getD j default :: l.drop (j + 1)) ∧
    (l.take i).length = i ∧
    ((l.drop (i + 1)).take (j - (i + 1))).length = j - (i + 1) := by
  have hi : i < l.length := lt_trans hij hj
  have hlen1 : (l.take i).length = i := List.length_take_of_le (by omega)
  have hdl : (l.drop (i + 1)).length = l.length - (i + 1) :=
    List.length_drop _ _
  have hlen2 : ((l.drop (i + 1)).take (j - (i + 1))).length = j - (i + 1) :=
    List.length_take_of_le (by omega)
  refine ⟨?_, hlen1, hlen2⟩
  have e1 : l = l.take i ++ l.drop i := (List.take_append_drop i l).symm
  have e2 : l.drop i = l.getD i default :: l.drop (i + 1) := by
    rw [List.drop_eq_getElem_cons hi, List.getD_eq_getElem l default hi]
  have e3 : l.drop (i + 1)
      = (l.drop (i + 1)).take (j - (i + 1))
        ++ (l.drop (i + 1)).drop (j - (i + 1)) :=
    (List.take_append_drop _ _).symm
  have e4 : (l.drop (i + 1)).drop (j - (i + 1)) = l.drop j := by
    rw [List.drop_drop]
    have : i + 1 + (j - (i + 1)) = j := by omega
    rw [this]
  have e5 : l.drop j = l.getD j default :: l.drop (j + 1) := by
    rw [List.drop_eq_getElem_cons hj, List.getD_eq_getElem l default hj]
  conv_lhs => rw [e1, e2, e3, e4, e5]

/-- std::swap of the elements at the ends of a decomposed segment. -/
lemma list_swap_concrete (P X T : List Operation) (b c : Operation) :
    list_swap (P ++ b :: (X ++ c :: T)) P.length (P.length + X.length + 1)
      = P ++ c :: (X ++ b :: T) := by
  have hidx : P.length + X.length + 1 = (P ++ b :: X).length := by
    rw [List.length_append, List.length_cons]
    omega
  have hgb : (P ++ b :: (X ++ c :: T)).getD P.length default = b :=
    getD_append_len P b (X ++ c :: T)
  have hgc : (P ++ b :: (X ++ c :: T)).getD (P.length + X.length + 1) default
      = c := by
    have e : P ++ b :: (X ++ c :: T) = (P ++ b :: X) ++ c :: T := by simp
    rw [e, hidx]
    exact getD_append_len (P ++ b :: X) c T
  rw [list_swap, hgb, hgc]
  rw [set_append_len P b c (X ++ c :: T)]
  have e2 : P ++ c :: (X ++ c :: T) = (P ++ c :: X) ++ c :: T := by simp
  have hidx2 : P.length + X.length + 1 = (P ++ c :: X).length := by
    rw [List.length_append, List.length_cons]
    omega
  rw [e2, hidx2, set_append_len (P ++ c :: X) c b T]
  simp

/-- Members of the middle segment come from positions strictly between i
and j. -/
lemma mem_mid_segment {l : List Operation} {i j : Nat} (hij : i < j)
    (hj : j < l.length) {x : Operation}
    (hx : x ∈ (l.drop (i + 1)).take (j - (i + 1))) :
    ∃ k, i < k ∧ k < j ∧ k < l.length ∧ x = l.getD k default := by
  obtain ⟨m, hm, hget⟩ := List.mem_iff_getElem.mp hx
  have hlen2 : ((l.drop (i + 1)).take (j - (i + 1))).length = j - (i + 1) :=
    List.length_take_of_le (by
      rw [List.length_drop]
      omega)
  rw [hlen2] at hm
  have hk : i + 1 + m < l.length := by omega
  refine ⟨i + 1 + m, by omega, by omega, hk, ?_⟩
  rw [List.getD_eq_getElem l default hk]
  rw [List.getElem_take, List.getElem_drop] at hget
  exact hget.symm

lemma wdisj_of_wires_sub {u : Nat → Bool} {x y : Operation}
    (hx1 : u x.op1 = true) (hx2 : u x.op2 = true)
    (hy : op_conflicts u y = false) : wdisj x y := by
  rw [op_conflicts] at hy
  have hy1 : u y.op1 = false := by
    cases hv : u y.op1
    · rfl
    · rw [hv] at hy
      simp at hy
  have hy2 : u y.op2 = false := by
    cases hv : u y.op2
    · rfl
    · rw [hv] at hy
      simp at hy
  refine ⟨?_, ?_, ?_, ?_⟩
  · intro he
    rw [← he, hx1] at hy1
    exact absurd hy1 (by simp)
  · intro he
    rw [← he, hx1] at hy2
    exact absurd hy2 (by simp)
  · intro he
    rw [← he, hx2] at hy1
    exact absurd hy1 (by simp)
  · intro he
    rw [← he, hx2] at hy2
    exact absurd hy2 (by simp)

/-- Everything the inner loop guarantees about its result, relative to its
entry operations, entry l1 and entry altered flag. -/
def InnerOut (ops : List Operation) (l1 : Nat) (a : Bool)
    (r : List Operation × (Nat → Bool) × Nat × Bool) : Prop :=
  r.1.Perm ops ∧
  (∀ p, apply_net r.1 p = apply_net ops p) ∧
  l1 ≤ r.2.2.1 ∧
  r.2.2.1 < ops.length ∧
  op_conflicts r.2.1 (r.1.getD r.2.2.1 default) = true ∧
  ((r.1.take r.2.2.1).foldl depth_step (fun _ => false, 1)).1 = r.2.1 ∧
  get_depth 0 r.1 ≤ get_depth 0 ops ∧
  phi (bound_bits (fun _ => false) r.1)
    ≤ phi (bound_bits (fun _ => false) ops) ∧
  (a = false → r.2.2.2 = true →
    phi (bound_bits (fun _ => false) r.1)
      < phi (bound_bits (fun _ => false) ops)) ∧
  (r.2.2.2 = false → a = false ∧ r.1 = ops)

lemma inner_out_id {ops : List Operation} {u1 : Nat → Bool} {l1 : Nat}
    {a : Bool} (h2 : l1 < ops.length)
    (h1 : op_conflicts u1 (ops.getD l1 default) = true)
    (hs : ((ops.take l1).foldl depth_step (fun _ => false, 1)).1 = u1) :
    InnerOut ops l1 a (ops, u1, l1, a) := by
  refine ⟨List.Perm.refl _, fun p => rfl, le_refl _, h2, h1, hs, le_refl _,
    le_refl _, ?_, ?_⟩
  · intro hf ht
    rw [hf] at ht
    exact absurd ht (by simp)
  · intro hf
    exact ⟨hf, rfl⟩

lemma md_inner_eq_end {fuel : Nat} {ops : List Operation}
    {u1 u2 : Nat → Bool} {l1 l2 : Nat} {a : Bool}
    (h : ¬ l2 < ops.length) :
    md_inner (fuel + 1) ops u1 u2 l1 l2 a = (ops, u1, l1, a) := by
  rw [md_inner.eq_def]
  simp only [h, if_false]

lemma md_inner_eq_break {fuel : Nat} {ops : List Operation}
    {u1 u2 : Nat → Bool} {l1 l2 : Nat} {a : Bool}
    (h : l2 < ops.length)
    (hb : op_conflicts u2 (ops.getD l2 default) = true) :
    md_inner (fuel + 1) ops u1 u2 l1 l2 a = (ops, u1, l1, a) := by
  rw [md_inner.eq_def]
  simp only [h, if_true, hb]

lemma md_inner_eq_swap {fuel : Nat} {ops : List Operation}
    {u1 u2 : Nat → Bool} {l1 l2 : Nat} {a : Bool}
    (h : l2 < ops.length)
    (hb : op_conflicts u2 (ops.getD l2 default) = false)
    (hf : op_conflicts u1 (ops.getD l2 default) = false) :
    md_inner (fuel + 1) ops u1 u2 l1 l2 a
      = md_inner fuel (list_swap ops l1 l2)
          (add_wires u1 (ops.getD l2 default)) (fun _ => false)
          (l1 + 1) (l1 + 1) true := by
  rw [md_inner.eq_def]
  simp only [h, if_true, hb, Bool.false_eq_true, if_false, hf, if_true]

lemma md_inner_eq_skip {fuel : Nat} {ops : List Operation}
    {u1 u2 : Nat → Bool} {l1 l2 : Nat} {a : Bool}
    (h : l2 < ops.length)
    (hb : op_conflicts u2 (ops.getD l2 default) = false)
    (hf : op_conflicts u1 (ops.getD l2 default) = true) :
    md_inner (fuel + 1) ops u1 u2 l1 l2 a
      = md_inner fuel ops u1 (add_wires u2 (ops.getD l2 default)) l1
          (l2 + 1) a := by
  rw [md_inner.eq_def]
  simp only [h, if_true, hb, Bool.false_eq_true, if_false, hf,
    Bool.true_eq_false]

lemma getD_append_add (P R : List Operation) (n : Nat) :
    (P ++ R).getD (P.length + n) default = R.getD n default := by
  induction P with
  | nil =>
    show R.getD (0 + n) default = R.getD n default
    rw [Nat.zero_add]
  | cons p P ih =>
    have e : (p :: P).length + n = (P.length + n) + 1 := by
      rw [List.length_cons]
      omega
    rw [List.cons_append, e]
    show (P ++ R).getD (P.length + n) default = R.getD n default
    exact ih

lemma take_append_len_succ (P : List Operation) (y : Operation)
    (R : List Operation) : (P ++ y :: R).take (P.length + 1) = P ++ [y] := by
  induction P with
  | nil => rfl
  | cons p P ih =>
    have e : (p :: P).length + 1 = (P.length + 1) + 1 := by
      rw [List.length_cons]
    rw [List.cons_append, e]
    show p :: (P ++ y :: R).take (P.length + 1) = (p :: P) ++ [y]
    rw [ih]
    rfl

/-- All consequences of one swap of the minimise_depth inner loop, derived
from the loop invariants at the moment of the swap. -/
lemma md_swap_facts {ops : List Operation} {u1 u2 : Nat → Bool}
    {l1 l2 : Nat}
    (h2 : l1 < ops.length) (hl12 : l1 < l2) (hl2 : l2 < ops.length)
    (h1 : op_conflicts u1 (ops.getD l1 default) = true)
    (hu2 : ∀ i, l1 ≤ i → i < l2 → u2 (ops.getD i default).op1 = true ∧
      u2 (ops.getD i default).op2 = true)
    (hpair : ∀ i j, l1 ≤ i → i < j → j < l2 →
      wdisj (ops.getD i default) (ops.getD j default))
    (hconf : ∀ i, l1 < i → i < l2 →
      op_conflicts u1 (ops.getD i default) = true)
    (hscan : ((ops.take l1).foldl depth_step (fun _ => false, 1)).1 = u1)
    (hb2 : op_conflicts u2 (ops.getD l2 default) = false)
    (hf : op_conflicts u1 (ops.getD l2 default) = false) :
    (list_swap ops l1 l2).Perm ops ∧
    (∀ p, apply_net (list_swap ops l1 l2) p = apply_net ops p) ∧
    get_depth 0 (list_swap ops l1 l2) ≤ get_depth 0 ops ∧
    phi (bound_bits (fun _ => false) (list_swap ops l1 l2))
      < phi (bound_bits (fun _ => false) ops) ∧
    op_conflicts (add_wires u1 (ops.getD l2 default))
      ((list_swap ops l1 l2).getD (l1 + 1) default) = true ∧
    (((list_swap ops l1 l2).take (l1 + 1)).foldl depth_step
      (fun _ => false, 1)).1 = add_wires u1 (ops.getD l2 default) ∧
    l1 + 1 < (list_swap ops l1 l2).length := by
  obtain ⟨heq, hPlen, hXlen⟩ := list_decomp hl12 hl2
  set P := ops.take l1 with hPdef
  set b := ops.getD l1 default with hbdef
  set X := (ops.drop (l1 + 1)).take (l2 - (l1 + 1)) with hXdef
  set c := ops.getD l2 default with hcdef
  set T := ops.drop (l2 + 1) with hTdef
  have hswap : list_swap ops l1 l2 = P ++ c :: (X ++ b :: T) := by
    conv_lhs => rw [heq]
    have e1 : l1 = P.length := hPlen.symm
    have e2 : l2 = P.length + X.length + 1 := by
      rw [hPlen, hXlen]
      omega
    rw [e1, e2]
    exact list_swap_concrete P X T b c
  have hcb : wdisj c b := by
    have hw := hu2 l1 (le_refl _) hl12
    exact wdisj_symm (wdisj_of_wires_sub hw.1 hw.2 hb2)
  have hmm : ∀ x ∈ X, ∃ k, l1 < k ∧ k < l2 ∧ k < ops.length ∧
      x = ops.getD k default := by
    rw [hXdef]
    intro x hx
    exact mem_mid_segment hl12 hl2 hx
  have hcX : ∀ x ∈ X, wdisj c x := by
    intro x hx
    obtain ⟨k, hk1, hk2, hk3, hkx⟩ := hmm x hx
    have hw := hu2 k (by omega) hk2
    rw [← hkx] at hw
    exact wdisj_symm (wdisj_of_wires_sub hw.1 hw.2 hb2)
  have hbX : ∀ x ∈ X, wdisj b x := by
    intro x hx
    obtain ⟨k, hk1, hk2, hk3, hkx⟩ := hmm x hx
    have hp := hpair l1 k (le_refl _) hk1 hk2
    rw [← hkx] at hp
    exact hp
  have hXlen' : X.length = l2 - (l1 + 1) := hXlen
  have hpwX : X.Pairwise wdisj := by
    rw [hXdef, List.pairwise_iff_getElem]
    intro m n hm hn hmn
    have hlen : ((ops.drop (l1 + 1)).take (l2 - (l1 + 1))).length
        = l2 - (l1 + 1) := by
      rw [← hXdef]
      exact hXlen'
    rw [hlen] at hm hn
    have hkm : l1 + 1 + m < ops.length := by omega
    have hkn : l1 + 1 + n < ops.length := by omega
    have hp := hpair (l1 + 1 + m) (l1 + 1 + n) (by omega) (by omega)
      (by omega)
    rw [List.getD_eq_getElem ops default hkm,
      List.getD_eq_getElem ops default hkn] at hp
    rw [List.getElem_take, List.getElem_drop, List.getElem_take,
      List.getElem_drop]
    exact hp
  have hVb : op_conflicts ((P.foldl depth_step (fun _ => false, 1)).1) b
      = true := by
    rw [hscan]
    exact h1
  have hVc : op_conflicts ((P.foldl depth_step (fun _ => false, 1)).1) c
      = false := by
    rw [hscan]
    exact hf
  have hVX : ∀ x ∈ X, op_conflicts
      ((P.foldl depth_step (fun _ => false, 1)).1) x = true := by
    intro x hx
    obtain ⟨k, hk1, hk2, hk3, hkx⟩ := hmm x hx
    rw [hscan, hkx]
    exact hconf k hk1 hk2
  refine ⟨?_, ?_, ?_, ?_, ?_, ?_, ?_⟩
  · rw [hswap]
    conv_rhs => rw [heq]
    exact (perm_swap_mid P X T b c).symm
  · intro p
    rw [hswap]
    conv_rhs => rw [heq]
    exact (apply_net_swap_mid hcb hcX hbX P T p).symm
  · rw [hswap]
    conv_rhs => rw [heq]
    show ((P ++ c :: (X ++ b :: T)).foldl depth_step
        (fun _ => false, 1)).2
      ≤ ((P ++ b :: (X ++ c :: T)).foldl depth_step
        (fun _ => false, 1)).2
    rw [List.foldl_append, List.foldl_append]
    exact depth_swap_le_seg T X b c
      ((P.foldl depth_step (fun _ => false, 1)).1)
      ((P.foldl depth_step (fun _ => false, 1)).2)
      hVb hVc hVX hpwX hbX hcb hcX
  · rw [hswap]
    conv_rhs => rw [heq]
    exact phi_swap_lt_seg P X T b c hVb hVc
  · rw [hswap]
    have e1 : l1 + 1 = P.length + 1 := by rw [hPlen]
    rw [e1, show P.length + 1 = P.length + 1 from rfl]
    rw [getD_append_add P (c :: (X ++ b :: T)) 1]
    cases hXc : X with
    | nil =>
      show op_conflicts (add_wires u1 c) b = true
      exact op_conflicts_mono (vle_add_self u1 c) h1
    | cons x X' =>
      show op_conflicts (add_wires u1 c) x = true
      have hx : x ∈ X := by
        rw [hXc]
        exact List.mem_cons_self _ _
      obtain ⟨k, hk1, hk2, hk3, hkx⟩ := hmm x hx
      rw [hkx]
      exact op_conflicts_mono (vle_add_self u1 c) (hconf k hk1 hk2)
  · rw [hswap]
    have e1 : l1 + 1 = P.length + 1 := by rw [hPlen]
    rw [e1, take_append_len_succ P c (X ++ b :: T)]
    rw [List.foldl_append]
    have hcf : op_conflicts (P.foldl depth_step (fun _ => false, 1)).1 c
        = false := hVc
    rw [List.foldl_cons, List.foldl_nil, depth_step_neg' hcf]
    show add_wires (P.foldl depth_step (fun _ => false, 1)).1 c
        = add_wires u1 c
    rw [hscan]
  · rw [hswap, List.length_append, List.length_cons, List.length_append,
      List.length_cons]
    have : P.length = l1 := hPlen
    omega

/-- Invariant preservation along the inner loop of minimise_depth. -/
lemma md_inner_spec :
    ∀ (fuel : Nat) (ops : List Operation) (u1 u2 : Nat → Bool)
      (l1 l2 : Nat) (a : Bool),
      l1 ≤ l2 → l1 < ops.length →
      op_conflicts u1 (ops.getD l1 default) = true →
      (∀ i, l1 ≤ i → i < l2 → u2 (ops.getD i default).op1 = true ∧
        u2 (ops.getD i default).op2 = true) →
      (∀ i j, l1 ≤ i → i < j → j < l2 →
        wdisj (ops.getD i default) (ops.getD j default)) →
      (∀ i, l1 < i → i < l2 → op_conflicts u1 (ops.getD i default) = true) →
      ((ops.take l1).foldl depth_step (fun _ => false, 1)).1 = u1 →
      InnerOut ops l1 a (md_inner fuel ops u1 u2 l1 l2 a) := by
  intro fuel
  induction fuel with
  | zero =>
    intro ops u1 u2 l1 l2 a h0 h2 h1 hu2 hpair hconf hscan
    exact inner_out_id h2 h1 hscan
  | succ fuel ih =>
    intro ops u1 u2 l1 l2 a h0 h2 h1 hu2 hpair hconf hscan
    by_cases hl2 : l2 < ops.length
    · by_cases hbrk : op_conflicts u2 (ops.getD l2 default) = true
      · rw [md_inner_eq_break hl2 hbrk]
        exact inner_out_id h2 h1 hscan
      · have hbrk' := eq_false_of_ne_true hbrk
        by_cases hfit : op_conflicts u1 (ops.getD l2 default) = false
        · rw [md_inner_eq_swap hl2 hbrk' hfit]
          have hl12 : l1 < l2 := by
            rcases Nat.lt_or_ge l1 l2 with h | h
            · exact h
            · have he : l1 = l2 := by omega
              rw [he] at h1
              rw [h1] at hfit
              exact absurd hfit (by simp)
          obtain ⟨sPerm, sApply, sDepth, sPhi, sConf, sScan, sLen⟩ :=
            md_swap_facts h2 hl12 hl2 h1 hu2 hpair hconf hscan hbrk' hfit
          have ihr := ih (list_swap ops l1 l2)
            (add_wires u1 (ops.getD l2 default)) (fun _ => false)
            (l1 + 1) (l1 + 1) true (le_refl _) sLen sConf
            (fun i hi1 hi2 => absurd hi2 (by omega))
            (fun i j hi hij hj => absurd hj (by omega))
            (fun i hi1 hi2 => absurd hi2 (by omega))
            sScan
          obtain ⟨iPerm, iApply, iLe, iLt, iConf, iScan, iDepth, iPhi,
            iStrict, iFix⟩ := ihr
          have hlenswap := sPerm.length_eq
          refine ⟨iPerm.trans sPerm, ?_, ?_, ?_, iConf, iScan, ?_, ?_,
            ?_, ?_⟩
          · intro p
            rw [iApply p, sApply p]
          · omega
          · omega
          · exact le_trans iDepth sDepth
          · exact le_of_lt (lt_of_le_of_lt iPhi sPhi)
          · intro hh1 hh2
            exact lt_of_le_of_lt iPhi sPhi
          · intro hfalse
            obtain ⟨hcontra, _⟩ := iFix hfalse
            exact absurd hcontra (by simp)
        · have hfit' : op_conflicts u1 (ops.getD l2 default) = true := by
            cases hv : op_conflicts u1 (ops.getD l2 default)
            · exact absurd hv hfit
            · rfl
          rw [md_inner_eq_skip hl2 hbrk' hfit']
          refine ih ops u1 (add_wires u2 (ops.getD l2 default)) l1 (l2 + 1) a
            (by omega) h2 h1 ?_ ?_ ?_ hscan
          · intro i hi1 hi2
            by_cases hieq : i < l2
            · have hw := hu2 i hi1 hieq
              constructor
              · rw [add_wires_eq, hw.1]
                simp
              · rw [add_wires_eq, hw.2]
                simp
            · have he : i = l2 := by omega
              rw [he]
              constructor
              · rw [add_wires_eq]
                simp
              · rw [add_wires_eq]
                simp
          · intro i j hi1 hij hj2
            by_cases hjeq : j < l2
            · exact hpair i j hi1 hij hjeq
            · have hj : j = l2 := by omega
              rw [hj]
              have hw := hu2 i hi1 (by omega)
              exact wdisj_of_wires_sub hw.1 hw.2 hbrk'
          · intro i hi1 hi2
            by_cases hieq : i < l2
            · exact hconf i hi1 hieq
            · have he : i = l2 := by omega
              rw [he]
              exact hfit'
    · rw [md_inner_eq_end hl2]
      exact inner_out_id h2 h1 hscan

lemma take_succ_getD {l : List Operation} {n : Nat} (h : n < l.length) :
    l.take (n + 1) = l.take n ++ [l.getD n default] := by
  rw [List.take_succ, List.getElem?_eq_getElem h,
    List.getD_eq_getElem l default h]
  rfl

/-- Everything one pass of minimise_depth guarantees about its result. -/
def PassOut (ops : List Operation) (a : Bool)
    (r : List Operation × Bool) : Prop :=
  r.1.Perm ops ∧
  (∀ p, apply_net r.1 p = apply_net ops p) ∧
  get_depth 0 r.1 ≤ get_depth 0 ops ∧
  phi (bound_bits (fun _ => false) r.1)
    ≤ phi (bound_bits (fun _ => false) ops) ∧
  (a = false → r.2 = true →
    phi (bound_bits (fun _ => false) r.1)
      < phi (bound_bits (fun _ => false) ops)) ∧
  (r.2 = false → a = false ∧ r.1 = ops)

lemma pass_out_id {ops : List Operation} {a : Bool} :
    PassOut ops a (ops, a) := by
  refine ⟨List.Perm.refl _, fun p => rfl, le_refl _, le_refl _, ?_, ?_⟩
  · intro hf ht
    rw [hf] at ht
    exact absurd ht (by simp)
  · intro hf
    exact ⟨hf, rfl⟩

lemma md_pass_eq_end {fuel : Nat} {ops : List Operation} {u1 : Nat → Bool}
    {l1 : Nat} {a : Bool} (h : ¬ l1 < ops.length) :
    md_pass (fuel + 1) ops u1 l1 a = (ops, a) := by
  rw [md_pass.eq_def]
  simp only [h, if_false]

lemma md_pass_eq_conf {fuel : Nat} {ops : List Operation} {u1 : Nat → Bool}
    {l1 : Nat} {a : Bool} (h : l1 < ops.length)
    (hc : op_conflicts u1 (ops.getD l1 default) = true) :
    md_pass (fuel + 1) ops u1 l1 a
      = md_pass fuel
          (md_inner ((ops.length + 1) * (ops.length + 2)) ops u1
            (fun _ => false) l1 l1 a).1
          (add_wires (fun _ => false)
            ((md_inner ((ops.length + 1) * (ops.length + 2)) ops u1
              (fun _ => false) l1 l1 a).1.getD
              (md_inner ((ops.length + 1) * (ops.length + 2)) ops u1
                (fun _ => false) l1 l1 a).2.2.1 default))
          ((md_inner ((ops.length + 1) * (ops.length + 2)) ops u1
            (fun _ => false) l1 l1 a).2.2.1 + 1)
          (md_inner ((ops.length + 1) * (ops.length + 2)) ops u1
            (fun _ => false) l1 l1 a).2.2.2 := by
  rw [md_pass.eq_def]
  simp only [h, if_true, hc]

lemma md_pass_eq_skip {fuel : Nat} {ops : List Operation} {u1 : Nat → Bool}
    {l1 : Nat} {a : Bool} (h : l1 < ops.length)
    (hc : op_conflicts u1 (ops.getD l1 default) = false) :
    md_pass (fuel + 1) ops u1 l1 a
      = md_pass fuel ops (add_wires u1 (ops.getD l1 default)) (l1 + 1) a := by
  rw [md_pass.eq_def]
  simp only [h, if_true, hc, Bool.false_eq_true, if_false]

/-- Invariant preservation along one pass of minimise_depth. -/
lemma md_pass_spec :
    ∀ (fuel : Nat) (ops : List Operation) (u1 : Nat → Bool) (l1 : Nat)
      (a : Bool),
      ((ops.take l1).foldl depth_step (fun _ => false, 1)).1 = u1 →
      PassOut ops a (md_pass fuel ops u1 l1 a) := by
  intro fuel
  induction fuel with
  | zero =>
    intro ops u1 l1 a hscan
    exact pass_out_id
  | succ fuel ih =>
    intro ops u1 l1 a hscan
    by_cases hl1 : l1 < ops.length
    · by_cases hc : op_conflicts u1 (ops.getD l1 default) = true
      · rw [md_pass_eq_conf hl1 hc]
        obtain ⟨iPerm, iApply, iLe, iLt, iConf, iScan, iDepth, iPhi,
          iStrict, iFix⟩ :=
          md_inner_spec ((ops.length + 1) * (ops.length + 2)) ops u1
            (fun _ => false) l1 l1 a (le_refl _) hl1 hc
            (fun i hi1 hi2 => absurd hi2 (by omega))
            (fun i j hi hij hj => absurd hj (by omega))
            (fun i hi1 hi2 => absurd hi2 (by omega))
            hscan
        have hrl : (md_inner ((ops.length + 1) * (ops.length + 2)) ops u1
            (fun _ => false) l1 l1 a).2.2.1
            < (md_inner ((ops.length + 1) * (ops.length + 2)) ops u1
              (fun _ => false) l1 l1 a).1.length := by
          rw [iPerm.length_eq]
          exact iLt
        have hscan' : (((md_inner ((ops.length + 1) * (ops.length + 2)) ops
              u1 (fun _ => false) l1 l1 a).1.take
              ((md_inner ((ops.length + 1) * (ops.length + 2)) ops u1
                (fun _ => false) l1 l1 a).2.2.1 + 1)).foldl depth_step
            (fun _ => false, 1)).1
            = add_wires (fun _ => false)
              ((md_inner ((ops.length + 1) * (ops.length + 2)) ops u1
                (fun _ => false) l1 l1 a).1.getD
                (md_inner ((ops.length + 1) * (ops.length + 2)) ops u1
                  (fun _ => false) l1 l1 a).2.2.1 default) := by
          rw [take_succ_getD hrl, List.foldl_append, List.foldl_cons,
            List.foldl_nil, depth_step_pos' (by rw [iScan]; exact iConf)]
        obtain ⟨pPerm, pApply, pDepth, pPhi, pStrict, pFix⟩ :=
          ih _ _ _ _ hscan'
        refine ⟨pPerm.trans iPerm, ?_, le_trans pDepth iDepth,
          le_trans pPhi iPhi, ?_, ?_⟩
        · intro p
          rw [pApply p, iApply p]
        · intro ha ht
          by_cases hra : (md_inner ((ops.length + 1) * (ops.length + 2)) ops
              u1 (fun _ => false) l1 l1 a).2.2.2 = true
          · exact lt_of_le_of_lt pPhi (iStrict ha hra)
          · have hra' := eq_false_of_ne_true hra
            obtain ⟨hra2, hre⟩ := iFix hra'
            have hlt := pStrict hra' ht
            have heq2 : phi (bound_bits (fun _ => false)
                (md_inner ((ops.length + 1) * (ops.length + 2)) ops u1
                  (fun _ => false) l1 l1 a).1)
                = phi (bound_bits (fun _ => false) ops) := by
              rw [hre]
            omega
        · intro hf
          obtain ⟨hra, hre⟩ := pFix hf
          obtain ⟨ha, hre2⟩ := iFix hra
          refine ⟨ha, ?_⟩
          rw [hre, hre2]
      · have hc' := eq_false_of_ne_true hc
        rw [md_pass_eq_skip hl1 hc']
        refine ih ops (add_wires u1 (ops.getD l1 default)) (l1 + 1) a ?_
        rw [take_succ_getD hl1, List.foldl_append, List.foldl_cons,
          List.foldl_nil, depth_step_neg' (by rw [hscan]; exact hc')]
        show add_wires ((ops.take l1).foldl depth_step
            (fun _ => false, 1)).1 (ops.getD l1 default) = _
        rw [hscan]
    · rw [md_pass_eq_end hl1]
      exact pass_out_id

lemma md_pass_once_spec (ops : List Operation) :
    PassOut ops false (md_pass_once ops) :=
  md_pass_spec (ops.length + 1) ops (fun _ => false) 0 false rfl

lemma minimise_depth_loop_eq (fuel : Nat) (ops : List Operation) :
    minimise_depth_loop (fuel + 1) ops
      = if (md_pass_once ops).2 then
          minimise_depth_loop fuel (md_pass_once ops).1
        else (md_pass_once ops).1 := rfl

lemma minimise_depth_loop_spec :
    ∀ (fuel : Nat) (ops : List Operation),
      (minimise_depth_loop fuel ops).Perm ops ∧
      (∀ p, apply_net (minimise_depth_loop fuel ops) p = apply_net ops p) ∧
      get_depth 0 (minimise_depth_loop fuel ops) ≤ get_depth 0 ops := by
  intro fuel
  induction fuel with
  | zero =>
    intro ops
    exact ⟨List.Perm.refl _, fun p => rfl, le_refl _⟩
  | succ fuel ih =>
    intro ops
    obtain ⟨pPerm, pApply, pDepth, pPhi, pStrict, pFix⟩ :=
      md_pass_once_spec ops
    rw [minimise_depth_loop_eq]
    by_cases hr : (md_pass_once ops).2 = true
    · rw [if_pos hr]
      obtain ⟨h1, h2, h3⟩ := ih (md_pass_once ops).1
      refine ⟨h1.trans pPerm, ?_, le_trans h3 pDepth⟩
      intro p
      rw [h2 p, pApply p]
    · rw [if_neg (by rw [eq_false_of_ne_true hr]; simp)]
      exact ⟨pPerm, pApply, pDepth⟩

lemma minimise_depth_loop_fix :
    ∀ (fuel : Nat) (ops : List Operation),
      phi (bound_bits (fun _ => false) ops) < fuel →
      (md_pass_once (minimise_depth_loop fuel ops)).2 = false ∧
      (md_pass_once (minimise_depth_loop fuel ops)).1
        = minimise_depth_loop fuel ops := by
  intro fuel
  induction fuel with
  | zero =>
    intro ops h
    exact absurd h (by omega)
  | succ fuel ih =>
    intro ops h
    obtain ⟨pPerm, pApply, pDepth, pPhi, pStrict, pFix⟩ :=
      md_pass_once_spec ops
    rw [minimise_depth_loop_eq]
    by_cases hr : (md_pass_once ops).2 = true
    · rw [if_pos hr]
      refine ih (md_pass_once ops).1 ?_
      have := pStrict rfl hr
      omega
    · have hr' := eq_false_of_ne_true hr
      rw [if_neg (by rw [hr']; simp)]
      obtain ⟨_, hre⟩ := pFix hr'
      rw [hre]
      exact ⟨hr', hre⟩

/-- Claim C6 theorem: minimise_depth only reorders comparators by swaps that
commute with everything they move past, so its result is a permutation of
the input sequence, computes the same function on every input pattern, and
its greedy parallel depth does not exceed the input's. -/
theorem minimise_depth_correct :
    ∀ (n : Nat) (ops : List Operation),
      (minimise_depth n ops).Perm ops ∧
      (∀ p : Nat, apply_net (minimise_depth n ops) p = apply_net ops p) ∧
      get_depth n (minimise_depth n ops) ≤ get_depth n ops := by
  intro n ops
  obtain ⟨h1, h2, h3⟩ := minimise_depth_loop_spec (2 ^ ops.length + 1) ops
  exact ⟨h1, h2, h3⟩

/-- Claim C9 theorem: for every finite comparator sequence minimise_depth
terminates: the boundary measure phi is below 2^length and strictly
decreases on every pass that swaps, so within the loop fuel a full pass
makes no swap, and the returned sequence is that fixed point. -/
theorem minimise_depth_terminates :
    ∀ (n : Nat) (ops : List Operation),
      (md_pass_once (minimise_depth n ops)).2 = false ∧
      (md_pass_once (minimise_depth n ops)).1 = minimise_depth n ops := by
  intro n ops
  refine minimise_depth_loop_fix (2 ^ ops.length + 1) ops ?_
  have h1 := phi_lt (bound_bits (fun _ => false) ops)
  rw [bound_bits_length] at h1
  omega
